import Mathlib

/-!
Verification development for the Issued comic-library core
(scanner, monitor, archive reader, ComicInfo extractor, repository).

Filesystem and database paths are modeled as lists of path components
(one string per component).  The repository stores relative paths; the
SQL pattern `LIKE "base/%"` used by the source is modeled as strict
component-wise path extension, and the Python substring substitution
`s.replace(old, new, 1)` applied to rows selected by that pattern is
modeled as prefix substitution, which coincides with the source on the
selected rows because every selected row starts with the old path
followed by a separator, so the first occurrence is at position zero.
Machine integers (sizes, timestamps, page counts) are modeled as Nat.
-/

namespace Issued

/-- A filesystem path: the list of its components. The empty list stands for
the relative path "." (the library root itself). -/
abbrev FPath := List String

/-- Boolean test that the first path is a component-wise initial segment of the
second (the Python Path.is_relative_to test, equality included). -/
def isPre : FPath → FPath → Bool
  | [], _ => true
  | _ :: _, [] => false
  | a :: as, b :: bs => a == b && isPre as bs

/-- Boolean test that the second path lies strictly below the first. -/
def isStrictUnder (anc p : FPath) : Bool :=
  isPre anc p && !(p == anc)


/-! ## Character-level string helpers

Structural models of the Python string operations the source uses (lower,
strip, split, startswith, int parsing, lexicographic comparison).  They follow
the ASCII semantics of the corresponding Python operations; comparisons are by
code point exactly as in Python. -/

/-- Component-wise initial-segment test on character lists. -/
def charsPre : List Char → List Char → Bool
  | [], _ => true
  | _ :: _, [] => false
  | a :: as, b :: bs => a == b && charsPre as bs

/-- Python str.startswith. -/
def strStartsWith (s pre : String) : Bool := charsPre pre.toList s.toList

/-- ASCII lowering of one character (Python str.lower on ASCII data). -/
def charToLower (c : Char) : Char :=
  if 65 ≤ c.toNat ∧ c.toNat ≤ 90 then Char.ofNat (c.toNat + 32) else c

/-- Python str.lower. -/
def strLower (s : String) : String := String.mk (s.toList.map charToLower)

/-- ASCII whitespace test (Python str.strip default set). -/
def charIsSpace (c : Char) : Bool :=
  c.toNat == 32 || c.toNat == 9 || c.toNat == 10 || c.toNat == 13 ||
    c.toNat == 11 || c.toNat == 12

/-- Python str.strip(). -/
def strStrip (s : String) : String :=
  String.mk (((s.toList.dropWhile charIsSpace).reverse.dropWhile charIsSpace).reverse)

/-- Python str.split(sep) for a one-character separator. -/
def splitOnChar (sep : Char) (cs : List Char) : List (List Char) :=
  cs.foldr
    (fun c acc =>
      if c == sep then [] :: acc
      else
        match acc with
        | [] => [[c]]
        | g :: gs => (c :: g) :: gs)
    [[]]

/-- Decimal digit test. -/
def charIsDigit (c : Char) : Bool := 48 ≤ c.toNat && c.toNat ≤ 57

/-- Digit-string value, absent unless the list is nonempty and all digits. -/
def parseDigits (cs : List Char) : Option Nat :=
  if cs.isEmpty then none
  else if cs.all charIsDigit then
    some (cs.foldl (fun a c => a * 10 + (c.toNat - 48)) 0)
  else none

/-- Python int(s): optional sign and decimal digits, surrounding whitespace
stripped (digit-group underscores are not modeled). -/
def pyIntParse (s : String) : Option Int :=
  match (strStrip s).toList with
  | '-' :: rest => (parseDigits rest).map fun n => -(n : Int)
  | '+' :: rest => (parseDigits rest).map fun n => (n : Int)
  | rest => (parseDigits rest).map fun n => (n : Int)

/-- Code-point lexicographic comparison of character lists: the Python
comparison of the underlying strings. -/
def charsLt : List Char → List Char → Bool
  | [], [] => false
  | [], _ :: _ => true
  | _ :: _, [] => false
  | a :: as, b :: bs =>
    if a.toNat < b.toNat then true
    else if b.toNat < a.toNat then false
    else charsLt as bs

/-! ## path_utils.py -/

/-- Model of path_utils.to_relative: strip the library root when the path lies
under it, otherwise return the path unchanged (the Python fallback returns
str(absolute_path)). -/
def to_relative (absolute_path : FPath) (library_root : FPath) : FPath :=
  if isPre library_root absolute_path then absolute_path.drop library_root.length
  else absolute_path

/-- Model of path_utils.to_absolute: join the stored relative path onto the
library root. -/
def to_absolute (relative_path : FPath) (library_root : FPath) : FPath :=
  library_root ++ relative_path


/-! ## Python filename helpers (Path.name / Path.suffix) -/

/-- The final slash-separated component of an archive entry name
(Python Path(name).name). -/
def pyName (s : String) : String := String.mk ((splitOnChar '/' s.toList).getLastD [])

/-- The extension of a single filename component, following the Python
Path.suffix rule: the part from the last dot, provided that dot is neither the
first nor the last character. -/
def extOf (base : String) : String :=
  let cs := base.toList
  let tail := cs.reverse.takeWhile (fun c => c ≠ '.')
  if tail.length == cs.length then ""
  else if tail.length == 0 then ""
  else if cs.length == tail.length + 1 then ""
  else String.mk ('.' :: tail.reverse)

/-- Python Path(s).suffix for a slash-separated name. -/
def pySuffix (s : String) : String := extOf (pyName s)

/-- Python Path.suffix for a component-list path. -/
def pathSuffix (p : FPath) : String := extOf (p.getLastD "")

/-! ## archive.py -/

/-- Actual byte format of an archive file on disk; other stands for content
that neither the zip nor the rar reader accepts. -/
inductive ByteFormat
  | zip
  | rar
  | other
deriving DecidableEq, Repr

/-- One child element of a parsed XML document: local tag plus optional text. -/
structure XmlElem where
  tag : String
  text : Option String
deriving DecidableEq, Repr

/-- Outcome of feeding entry bytes to the XML parser: a parse error, or the
list of direct children of the document root. -/
inductive XmlParse
  | malformed
  | doc (children : List XmlElem)
deriving DecidableEq, Repr

/-- Abstraction of the bytes of one archive entry: whether the bytes strip to
empty, what the XML parser makes of them, and whether they decode as an
image. -/
structure EntryContent where
  stripBlank : Bool := true
  xml : XmlParse := .malformed
  validImage : Bool := false
deriving DecidableEq, Repr

/-- A named entry inside an archive. -/
structure ArchiveEntry where
  name : String
  content : EntryContent
deriving DecidableEq, Repr

/-- An archive file on disk: its actual byte format and its entries. -/
structure ArchiveFile where
  format : ByteFormat
  entries : List ArchiveEntry
deriving DecidableEq, Repr

/-- An open archive handle; viaZip records which wrapper opened it. -/
structure ArchiveHandle where
  viaZip : Bool
  entries : List ArchiveEntry
deriving DecidableEq, Repr

/-- Errors of archive.get_archive: missing file, unsupported extension, or
both open attempts failing. -/
inductive ArchiveError
  | notFound
  | unsupportedFormat (suffix : String)
  | openFailed
deriving DecidableEq, Repr

/-- ZipArchiveWrapper: opening succeeds exactly when the bytes are zip. -/
def tryOpenZip (f : ArchiveFile) : Option ArchiveHandle :=
  if f.format == .zip then some ⟨true, f.entries⟩ else none

/-- RarArchiveWrapper: opening succeeds exactly when the rarfile module is
available and the bytes are rar. -/
def tryOpenRar (rarAvailable : Bool) (f : ArchiveFile) : Option ArchiveHandle :=
  if rarAvailable && f.format == .rar then some ⟨false, f.entries⟩ else none

/-- Model of archive.get_archive: extension picks the primary wrapper, the
other wrapper is the fallback, and an open error is reported only after both
attempts fail. -/
def get_archive (rarAvailable : Bool) (pathExists : Bool) (suffix : String)
    (f : ArchiveFile) : Except ArchiveError ArchiveHandle :=
  if !pathExists then .error .notFound
  else if suffix == ".cbz" then
    match tryOpenZip f with
    | some h => .ok h
    | none =>
      match tryOpenRar rarAvailable f with
      | some h => .ok h
      | none => .error .openFailed
  else if suffix == ".cbr" then
    match tryOpenRar rarAvailable f with
    | some h => .ok h
    | none =>
      match tryOpenZip f with
      | some h => .ok h
      | none => .error .openFailed
  else .error (.unsupportedFormat suffix)

/-- Image extensions recognized by archive.is_image. -/
def IMAGE_EXTENSIONS : List String := [".jpg", ".jpeg", ".png", ".webp"]

/-- archive.is_image: extension test on the entry name. -/
def is_image (filename : String) : Bool :=
  IMAGE_EXTENSIONS.contains (strLower (pySuffix filename))

/-- Archive.list_images on an open handle. -/
def list_images (h : ArchiveHandle) : List String :=
  (h.entries.filter fun e => is_image e.name).map (·.name)

/-- scanner.validate_and_count_pages: open the archive and count its page
images; any open failure propagates as the error. -/
def validate_and_count_pages (rarAvailable pathExists : Bool) (suffix : String)
    (f : ArchiveFile) : Except ArchiveError Nat :=
  match get_archive rarAvailable pathExists suffix f with
  | .error e => .error e
  | .ok h => .ok (list_images h).length

/-! ## comicinfo.py -/

/-- comicinfo._local_name: strip a namespace brace qualifier and lowercase. -/
def pyLocalName (tag : String) : String :=
  strLower (String.mk ((splitOnChar '}' tag.toList).getLastD []))

/-- comicinfo._text: stripped element text, with empty mapped to absent. -/
def pyTextOf (e : XmlElem) : Option String :=
  match e.text with
  | none => none
  | some s => let t := strStrip s; if t == "" then none else some t

/-- comicinfo._int_or_none: integer parse of a stripped string, absent when the
parse fails. -/
def pyIntOf (s : String) : Option Int := pyIntParse s

/-- Metadata parsed from ComicInfo.xml; every field optional, Series excluded
by design. -/
structure ComicInfoParsed where
  title : Option String := none
  issue_number : Option Int := none
  publisher : Option String := none
  year : Option Int := none
  month : Option Int := none
  writer : Option String := none
  penciller : Option String := none
  summary : Option String := none
  notes : Option String := none
  web : Option String := none
  language_iso : Option String := none
  genre : Option String := none
deriving DecidableEq, Repr

/-- Lookup of the dict comprehension by_lower: the last direct child whose
lowercased local tag equals the key. -/
def findTag (children : List XmlElem) (t : String) : Option XmlElem :=
  children.reverse.find? fun e => pyLocalName e.tag == t

/-- comicinfo.parse_comicinfo_xml: a parse error yields the empty record,
otherwise each TAG_MAP entry is read from the children; integer fields that
fail to parse are omitted. -/
def parse_comicinfo_xml (x : XmlParse) : ComicInfoParsed :=
  match x with
  | .malformed => {}
  | .doc children =>
    let textAt := fun (t : String) => (findTag children t).bind pyTextOf
    let intAt := fun (t : String) => (textAt t).bind pyIntOf
    { title := textAt "title"
      issue_number := intAt "issue"
      publisher := textAt "publisher"
      year := intAt "year"
      month := intAt "month"
      writer := textAt "writer"
      penciller := textAt "penciller"
      summary := textAt "summary"
      notes := textAt "notes"
      web := textAt "web"
      language_iso := textAt "languageiso"
      genre := textAt "genre" }

/-- The sidecar lookup used by read_comicinfo_from_archive: first entry whose
final name component is comicinfo.xml case-insensitively. -/
def sidecarEntry (entries : List ArchiveEntry) : Option ArchiveEntry :=
  entries.find? fun e => strLower (pyName e.name) == "comicinfo.xml"

/-- comicinfo.read_comicinfo_from_archive: open the archive, locate the
sidecar, return absent on any failure or blank content, else parse. -/
def read_comicinfo_from_archive (rarAvailable pathExists : Bool) (suffix : String)
    (f : ArchiveFile) : Option ComicInfoParsed :=
  match get_archive rarAvailable pathExists suffix f with
  | .error _ => none
  | .ok h =>
    match sidecarEntry h.entries with
    | none => none
    | some e =>
      if e.content.stripBlank then none
      else some (parse_comicinfo_xml e.content.xml)

/-- The caller view in scanner.process_comic: model_dump of the parse result
when present, the empty field set otherwise. -/
def comicinfoFields (o : Option ComicInfoParsed) : ComicInfoParsed :=
  o.getD {}

/-- True when some ComicInfo field is present (model_dump(exclude_none=True)
is nonempty). -/
def hasAnyField (c : ComicInfoParsed) : Bool :=
  c.title.isSome || c.issue_number.isSome || c.publisher.isSome || c.year.isSome ||
  c.month.isSome || c.writer.isSome || c.penciller.isSome || c.summary.isSome ||
  c.notes.isSome || c.web.isSome || c.language_iso.isSome || c.genre.isSome

/-! ## monitor.py -/

/-- A monitor task: action name, source path, optional destination (moves). -/
structure MonitorTask where
  action : String
  path : FPath
  dest_path : Option FPath := none
deriving DecidableEq, Repr

/-- Joined character form of a path, the sort key of Python Path ordering
(the slash-joined string of the components). -/
def pathChars : FPath → List Char
  | [] => []
  | c :: rest => if rest.isEmpty then c.toList else c.toList ++ '/' :: pathChars rest

/-- Stable insertion into a list sorted by a character-list key (the position
a stable sort gives the new leftmost element). -/
def insertByKey {α : Type} (key : α → List Char) (x : α) : List α → List α
  | [] => [x]
  | y :: ys => if charsLt (key y) (key x) then y :: insertByKey key x ys else x :: y :: ys

/-- Stable sort by a character-list key; models the Python sorted builtin,
which is stable and compares paths and strings by code point. -/
def sortByKey {α : Type} (key : α → List Char) (l : List α) : List α :=
  l.foldr (insertByKey key) []

/-- Insertion into a Python dict modeled as an association list: an existing
key keeps its position and takes the new value, a new key is appended. -/
def dictInsert (k : FPath) (v : MonitorTask) :
    List (FPath × MonitorTask) → List (FPath × MonitorTask)
  | [] => [(k, v)]
  | kv :: rest => if kv.1 == k then (k, v) :: rest else kv :: dictInsert k v rest

/-- The dict comprehension keyed by task path over tasks of one action. -/
def buildDict (a : String) (ts : List MonitorTask) : List (FPath × MonitorTask) :=
  ts.foldl (fun d t => if t.action == a then dictInsert t.path t d else d) []

/-- The pruning loops of optimize_tasks: walk the sorted paths and keep each
one unless a kept path is a strict ancestor of it. -/
def pruneCovered (paths : List FPath) : List FPath :=
  paths.foldl
    (fun acc p => if acc.any (fun q => isStrictUnder q p) then acc else acc ++ [p]) []

/-- Model of monitor.optimize_tasks: dedupe by path per action, drop scans
covered by a kept folder scan and deletes covered by a kept delete, keep moves
untouched, and emit deletes, moves, sorted folder scans, then file scans. -/
def optimize_tasks (tasks : List MonitorTask) : List MonitorTask :=
  if tasks.isEmpty then []
  else
    let scan_folders := buildDict "scan_folder" tasks
    let scan_files := buildDict "scan_file" tasks
    let deletes := buildDict "delete" tasks
    let moves := tasks.filter fun t => t.action == "move"
    let finalFolderPaths := pruneCovered (sortByKey pathChars (scan_folders.map Prod.fst))
    let final_scan_folders : List MonitorTask :=
      finalFolderPaths.filterMap fun p =>
        (scan_folders.find? fun kv => kv.1 == p).map Prod.snd
    let final_scan_files : List MonitorTask :=
      (scan_files.filter fun kv => !(finalFolderPaths.any fun q => isPre q kv.1)).map Prod.snd
    let finalDeletePaths := pruneCovered (sortByKey pathChars (deletes.map Prod.fst))
    let final_deletes : List MonitorTask :=
      finalDeletePaths.filterMap fun p =>
        (deletes.find? fun kv => kv.1 == p).map Prod.snd
    final_deletes ++ moves ++
      sortByKey (fun t => pathChars t.path) final_scan_folders ++ final_scan_files

/-! ## Data model (models.py) -/

/-- A folders table row. -/
structure FolderRow where
  id : Nat
  name : String
  path : FPath
  parent_id : Option Nat := none
deriving DecidableEq, Repr

/-- A comics table row; uuid is the stable external identifier. -/
structure ComicRow where
  id : Nat
  uuid : Nat
  folder_id : Nat
  filename : String
  path : FPath
  format : String
  file_size : Nat
  page_count : Nat
  file_modified_at : Nat
  last_scanned_at : Option Nat := none
  thumbnail_generated : Bool := false
deriving DecidableEq, Repr

/-- A metadata table row, one-to-one with a comic. -/
structure MetaRow where
  comic_id : Nat
  title : Option String := none
  series : Option String := none
  issue_number : Option Int := none
  publisher : Option String := none
  year : Option Int := none
  month : Option Int := none
  writer : Option String := none
  penciller : Option String := none
  artist : Option String := none
  summary : Option String := none
  notes : Option String := none
  web : Option String := none
  language_iso : Option String := none
  genre : Option String := none
  score : Option Int := none
  is_completed : Bool := false
  current_page : Option Nat := none
  last_read_at : Option Nat := none
deriving DecidableEq, Repr

/-- The ComicMetadataUpdate payload: ComicInfo fields plus series. -/
structure ComicMetadataUpdate where
  series : Option String := none
  title : Option String := none
  issue_number : Option Int := none
  publisher : Option String := none
  year : Option Int := none
  month : Option Int := none
  writer : Option String := none
  penciller : Option String := none
  summary : Option String := none
  notes : Option String := none
  web : Option String := none
  language_iso : Option String := none
  genre : Option String := none
deriving DecidableEq, Repr

/-- The database state: three tables plus a fresh-id source standing for the
autoincrement primary keys and the uuid generator. -/
structure DB where
  folders : List FolderRow := []
  comics : List ComicRow := []
  metas : List MetaRow := []
  nextId : Nat := 1
deriving DecidableEq, Repr

/-- Replace the first element satisfying the predicate (the SQLModel first()
row that the source mutates in place). -/
def updateFirst {α : Type} (pred : α → Bool) (g : α → α) : List α → List α
  | [] => []
  | x :: xs => if pred x then g x :: xs else x :: updateFirst pred g xs

/-! ## repository.py -/

/-- Python path.name with the str(path) fallback for the filesystem root. -/
def folderName (p : FPath) : String :=
  match p.getLast? with
  | some n => n
  | none => "/"

/-- The setattr loop of Repository.update_comic_metadata: fields present in
the payload overwrite, absent fields keep their stored value; fields outside
the payload type are untouched. -/
def applyMetadataUpdate (meta : MetaRow) (p : ComicMetadataUpdate) : MetaRow :=
  { meta with
    series := p.series <|> meta.series
    title := p.title <|> meta.title
    issue_number := p.issue_number <|> meta.issue_number
    publisher := p.publisher <|> meta.publisher
    year := p.year <|> meta.year
    month := p.month <|> meta.month
    writer := p.writer <|> meta.writer
    penciller := p.penciller <|> meta.penciller
    summary := p.summary <|> meta.summary
    notes := p.notes <|> meta.notes
    web := p.web <|> meta.web
    language_iso := p.language_iso <|> meta.language_iso
    genre := p.genre <|> meta.genre }

/-- Repository.update_comic_metadata: apply the payload to the existing
metadata row, creating a fresh one first when none exists. -/
def update_comic_metadata (cid : Nat) (payload : ComicMetadataUpdate) (db : DB) : DB :=
  match db.metas.find? fun m => m.comic_id == cid with
  | some _ =>
    { db with
      metas := updateFirst (fun m => m.comic_id == cid)
        (fun m => applyMetadataUpdate m payload) db.metas }
  | none =>
    { db with metas := db.metas ++ [applyMetadataUpdate { comic_id := cid } payload] }

/-- Bounded-recursion core of Repository.get_or_create_folder; the fuel is a
bound on the parent-chain length, so length + 1 fuel is always enough and the
zero case is never reached from get_or_create_folder. -/
def getOrCreateFolderAux (library_root : FPath) : Nat → FPath → DB → DB × Nat
  | 0, _, db => (db, 0)
  | fuel + 1, path, db =>
    let rel := to_relative path library_root
    match db.folders.find? fun f => f.path == rel with
    | some f => (db, f.id)
    | none =>
      let step :=
        if path ≠ library_root then
          let parent := path.dropLast
          if parent ≠ path && isPre library_root parent then
            let r := getOrCreateFolderAux library_root fuel parent db
            (r.1, some r.2)
          else (db, (none : Option Nat))
        else (db, (none : Option Nat))
      let db1 := step.1
      let f : FolderRow :=
        { id := db1.nextId, name := folderName path, path := rel, parent_id := step.2 }
      ({ db1 with folders := db1.folders ++ [f], nextId := db1.nextId + 1 }, f.id)

/-- Repository.get_or_create_folder: look up by relative path, creating the
folder and its parent chain when missing. -/
def get_or_create_folder (library_root path : FPath) (db : DB) : DB × Nat :=
  getOrCreateFolderAux library_root (path.length + 1) path db

/-- Repository.get_comic_by_path. -/
def get_comic_by_path (library_root p : FPath) (db : DB) : Option ComicRow :=
  db.comics.find? fun c => c.path == to_relative p library_root

/-- Presence of the metadata_rel row for a comic id. -/
def hasMetadata (db : DB) (cid : Nat) : Bool :=
  db.metas.any fun m => m.comic_id == cid

/-- Repository.get_comic_by_uuid. -/
def get_comic_by_uuid (u : Nat) (db : DB) : Option ComicRow :=
  db.comics.find? fun c => c.uuid == u

/-- Repository.upsert_comic: update the row at the relative path in place, or
insert a new row together with its empty metadata row. -/
def upsert_comic (library_root : FPath) (folder_id : Nat) (path : FPath)
    (filename fmt : String) (file_size page_count file_modified_at now : Nat)
    (thumbnail_generated : Bool) (db : DB) : DB × ComicRow :=
  let rel := to_relative path library_root
  match db.comics.find? fun c => c.path == rel with
  | some c0 =>
    let c := { c0 with
      folder_id := folder_id, filename := filename, format := fmt,
      file_size := file_size, page_count := page_count,
      file_modified_at := file_modified_at, last_scanned_at := some now,
      thumbnail_generated := thumbnail_generated }
    ({ db with comics := updateFirst (fun x => x.path == rel) (fun x => { x with
        folder_id := folder_id, filename := filename, format := fmt,
        file_size := file_size, page_count := page_count,
        file_modified_at := file_modified_at, last_scanned_at := some now,
        thumbnail_generated := thumbnail_generated }) db.comics }, c)
  | none =>
    let c : ComicRow :=
      { id := db.nextId, uuid := db.nextId, folder_id := folder_id,
        filename := filename, path := rel, format := fmt, file_size := file_size,
        page_count := page_count, file_modified_at := file_modified_at,
        last_scanned_at := some now, thumbnail_generated := thumbnail_generated }
    ({ db with
        comics := db.comics ++ [c],
        metas := db.metas ++ [{ comic_id := c.id }],
        nextId := db.nextId + 1 }, c)

/-- Repository.delete_comic_by_path: remove every row at the relative path,
returning the removed uuids; the metadata rows cascade. -/
def delete_comic_by_path (library_root p : FPath) (db : DB) : DB × List Nat :=
  let rel := to_relative p library_root
  let removed := db.comics.filter fun c => c.path == rel
  let removedIds := removed.map (·.id)
  ({ db with
      comics := db.comics.filter fun c => !(c.path == rel),
      metas := db.metas.filter fun m => !(removedIds.contains m.comic_id) },
    removed.map (·.uuid))

/-- Repository.delete_folder_by_path: remove the folder row and every strict
descendant folder row. -/
def delete_folder_by_path (library_root p : FPath) (db : DB) : DB :=
  let rel := to_relative p library_root
  { db with
    folders := db.folders.filter fun f =>
      !(f.path == rel || isStrictUnder rel f.path) }

/-- Repository.set_thumbnail_generated. -/
def set_thumbnail_generated (cid : Nat) (generated : Bool) (db : DB) : DB :=
  { db with
    comics := updateFirst (fun c => c.id == cid)
      (fun c => { c with thumbnail_generated := generated }) db.comics }

/-- Repository.folder_has_subfolders. -/
def folder_has_subfolders (fid : Nat) (db : DB) : Bool :=
  db.folders.any fun f => f.parent_id == some fid

/-- Repository.update_folder_path: rewrite path, name and parent of the folder
row at the old path, then rewrite every strict descendant folder by the same
old-to-new prefix substitution (the source replace of the first occurrence,
which sits at position zero for rows matched by the LIKE pattern). -/
def update_folder_path (library_root old_path new_path : FPath) (db : DB) : DB × Bool :=
  let oldRel := to_relative old_path library_root
  let newRel := to_relative new_path library_root
  match db.folders.find? fun f => f.path == oldRel with
  | none => (db, false)
  | some _ =>
    let renamed := updateFirst (fun f => f.path == oldRel)
      (fun f => { f with path := newRel, name := folderName new_path }) db.folders
    let newParentRel := to_relative new_path.dropLast library_root
    let parent := renamed.find? fun f => f.path == newParentRel
    let folders1 := updateFirst (fun f => f.path == oldRel)
      (fun f =>
        { f with
          path := newRel, name := folderName new_path,
          parent_id := parent.map (·.id) }) db.folders
    let folders2 := folders1.map fun f =>
      if isStrictUnder oldRel f.path then
        { f with path := newRel ++ f.path.drop oldRel.length }
      else f
    ({ db with folders := folders2 }, true)

/-- Repository.update_comic_paths: rewrite every comic row under the old path
by the old-to-new prefix substitution. -/
def update_comic_paths (library_root old_base new_base : FPath) (db : DB) : DB :=
  let oldRel := to_relative old_base library_root
  let newRel := to_relative new_base library_root
  { db with comics := db.comics.map fun c =>
      if isStrictUnder oldRel c.path then
        { c with path := newRel ++ c.path.drop oldRel.length }
      else c }

/-- The folder branch of scanner.move_path after parent materialization: the
two path rewrites committed as one unit. -/
def moveFolderInDb (library_root old_path new_path : FPath) (db : DB) : DB :=
  update_comic_paths library_root old_path new_path
    (update_folder_path library_root old_path new_path db).1

/-! ## Filesystem model and scanner.py -/

/-- Stat data plus archive content of one on-disk file; statOk false models a
stat failure (FileNotFoundError or PermissionError on an existing entry). -/
structure FileInfo where
  mtime : Nat
  size : Nat
  statOk : Bool := true
  archive : ArchiveFile
deriving DecidableEq, Repr

/-- The filesystem fixed for the duration of a scan: files with their content
and the set of directories. -/
structure FileSys where
  files : List (FPath × FileInfo)
  dirs : List FPath
deriving DecidableEq, Repr

def lookupFile (fs : FileSys) (p : FPath) : Option FileInfo :=
  (fs.files.find? fun q => q.1 == p).map (·.2)

def fileExists (fs : FileSys) (p : FPath) : Bool :=
  (lookupFile fs p).isSome

/-- Scanner configuration slice: library root, ignore patterns, and whether
the rarfile module imported. -/
structure Config where
  library_root : FPath
  ignore_patterns : List String
  rarAvailable : Bool
deriving DecidableEq, Repr

/-- World state: the database plus the set of thumbnail files on disk, keyed
by comic uuid. -/
structure World where
  db : DB
  thumbDisk : List Nat := []
deriving DecidableEq, Repr

/-- utils.delete_thumbnails: unlink the thumbnail file of each uuid. -/
def delete_thumbnails (uuids : List Nat) (thumbDisk : List Nat) : List Nat :=
  thumbDisk.filter fun u => !(uuids.contains u)

/-- COMIC_EXTENSIONS from scanner.py. -/
def COMIC_EXTENSIONS : List String := [".cbz", ".cbr"]

/-- scanner.is_comic_file. -/
def is_comic_file (p : FPath) : Bool :=
  COMIC_EXTENSIONS.contains (strLower (pathSuffix p))

/-- scanner._should_ignore: macOS metadata names and configured patterns. -/
def _should_ignore (name : String) (ignore_patterns : List String) : Bool :=
  strStartsWith name "._" || ignore_patterns.contains name

/-- scanner._should_skip_comic. The source also returns early on a falsy
stored file_modified_at; that branch is vacuous here because the column is a
non-null datetime, which is always truthy in Python. -/
def _should_skip_comic (hasMeta : Bool) (comicInDb : Option ComicRow)
    (file_mtime : Nat) (force : Bool) : Bool :=
  match comicInDb with
  | none => false
  | some c =>
    if force then false
    else if c.file_modified_at ≠ file_mtime then false
    else if !hasMeta then false
    else true

/-- thumbnails.generate_thumbnail_for_comic: open the archive, take the
lexicographically first page image, decode and save it, then record success on
the comic row found by uuid. -/
def generate_thumbnail_for_comic (rav : Bool) (uuid : Nat) (pathExists : Bool)
    (suffix : String) (f : ArchiveFile) (w : World) : World × Bool :=
  if !pathExists then (w, false)
  else
    match get_archive rav pathExists suffix f with
    | .error _ => (w, false)
    | .ok h =>
      match sortByKey (fun s => s.toList) (list_images h) with
      | [] => (w, false)
      | n :: _ =>
        match h.entries.find? fun e => e.name == n with
        | none => (w, false)
        | some e =>
          if e.content.validImage then
            let db1 :=
              match get_comic_by_uuid uuid w.db with
              | some c => set_thumbnail_generated c.id true w.db
              | none => w.db
            ({ db := db1,
               thumbDisk := if w.thumbDisk.contains uuid then w.thumbDisk
                            else uuid :: w.thumbDisk }, true)
          else (w, false)

/-- Outcome of process_comic; the source returns the tuple
(comic_uuid, was_existing, should_skip, thumbnail_generated) and logs which
branch was taken. -/
inductive POutcome
  | statError
  | skippedUnchanged (existing : Bool)
  | corruptArchive (existing : Bool)
  | processedOk (uuid : Nat) (existing : Bool) (thumb : Bool)
deriving DecidableEq, Repr

/-- The should_skip component of the returned tuple. -/
def outcomeSkipFlag : POutcome → Bool
  | .processedOk _ _ _ => false
  | _ => true

/-- The was_existing component of the returned tuple. -/
def outcomeExisting : POutcome → Bool
  | .statError => false
  | .skippedUnchanged e => e
  | .corruptArchive e => e
  | .processedOk _ e _ => e

/-- True when process_comic reached the validation step (the file was
re-processed rather than skipped). -/
def outcomeValidated : POutcome → Bool
  | .corruptArchive _ => true
  | .processedOk _ _ _ => true
  | _ => false

/-- The payload built in process_comic from the parsed ComicInfo fields and
the folder-derived series. -/
def payloadOfParsed (series : Option String) (c : ComicInfoParsed) : ComicMetadataUpdate :=
  { series := series, title := c.title, issue_number := c.issue_number,
    publisher := c.publisher, year := c.year, month := c.month,
    writer := c.writer, penciller := c.penciller, summary := c.summary,
    notes := c.notes, web := c.web, language_iso := c.language_iso,
    genre := c.genre }

/-- Presence of the eagerly loaded metadata_rel for an optional comic row. -/
def hasMetaOf (db : DB) : Option ComicRow → Bool
  | some c => hasMetadata db c.id
  | none => false

/-- The successful-validation tail of scanner.process_comic: upsert, thumbnail
generation, and ComicInfo metadata merge with the folder-derived series. -/
def processValidComic (cfg : Config) (now : Nat) (comic_path : FPath)
    (folder_id : Nat) (info : FileInfo) (page_count : Nat) (w : World) :
    World × POutcome :=
  let comicInDb := get_comic_by_path cfg.library_root comic_path w.db
  let suffix := strLower (pathSuffix comic_path)
  let fmt := String.mk (suffix.toList.dropWhile fun ch => ch == '.')
  let thumb_gen :=
    match comicInDb with
    | some c => c.thumbnail_generated
    | none => false
  let r := upsert_comic cfg.library_root folder_id comic_path
    (comic_path.getLastD "") fmt info.size page_count info.mtime now
    thumb_gen w.db
  let w1 : World := { db := r.1, thumbDisk := w.thumbDisk }
  let t := generate_thumbnail_for_comic cfg.rarAvailable r.2.uuid true
    suffix info.archive w1
  let comicinfo := read_comicinfo_from_archive cfg.rarAvailable true
    suffix info.archive
  let is_leaf := !(folder_has_subfolders folder_id t.1.db)
  let series_from_folder :=
    if is_leaf then some (comic_path.dropLast.getLastD "") else none
  let fields := comicinfoFields comicinfo
  let db3 :=
    if hasAnyField fields then
      update_comic_metadata r.2.id (payloadOfParsed series_from_folder fields) t.1.db
    else
      match series_from_folder with
      | some s => update_comic_metadata r.2.id { series := some s } t.1.db
      | none => t.1.db
  ({ db := db3, thumbDisk := t.1.thumbDisk },
    .processedOk r.2.uuid comicInDb.isSome t.2)

/-- Model of scanner.process_comic. -/
def process_comic (cfg : Config) (fs : FileSys) (now : Nat) (comic_path : FPath)
    (folder_id : Nat) (force : Bool) (w : World) : World × POutcome :=
  match lookupFile fs comic_path with
  | none => (w, .statError)
  | some info =>
    if !info.statOk then (w, .statError)
    else
      let comicInDb := get_comic_by_path cfg.library_root comic_path w.db
      let existing := comicInDb.isSome
      if _should_skip_comic (hasMetaOf w.db comicInDb) comicInDb info.mtime force then
        (w, .skippedUnchanged existing)
      else
        let suffix := strLower (pathSuffix comic_path)
        match validate_and_count_pages cfg.rarAvailable true suffix info.archive with
        | .error _ =>
          if existing then
            let r := delete_comic_by_path cfg.library_root comic_path w.db
            ({ db := r.1, thumbDisk := delete_thumbnails r.2 w.thumbDisk },
              .corruptArchive true)
          else (w, .corruptArchive false)
        | .ok page_count =>
          processValidComic cfg now comic_path folder_id info page_count w

/-- The scan summary counters. -/
structure Stats where
  added : Nat := 0
  updated : Nat := 0
  deleted : Nat := 0
  skipped : Nat := 0
deriving DecidableEq, Repr

/-- Stats update in the scan_library walk loop. -/
def bumpStats (s : Stats) (o : POutcome) : Stats :=
  if outcomeSkipFlag o then { s with skipped := s.skipped + 1 }
  else if outcomeExisting o then { s with updated := s.updated + 1 }
  else { s with added := s.added + 1 }

/-- Accumulator of the scan walk: world, stats, processed paths. -/
structure ScanAcc where
  world : World
  stats : Stats
  processed : List FPath
deriving Repr

/-- Every component below the base is free of ignore patterns (the in-place
dirname filtering of walk_library). -/
def noIgnoredBelow (cfg : Config) (base p : FPath) : Bool :=
  (p.drop base.length).all fun c => !_should_ignore c cfg.ignore_patterns

/-- The comic files that os.walk yields inside one directory. -/
def filesOfDir (cfg : Config) (fs : FileSys) (d : FPath) : List (FPath × FileInfo) :=
  fs.files.filter fun q =>
    q.1.dropLast == d && !_should_ignore (q.1.getLastD "") cfg.ignore_patterns &&
      is_comic_file q.1

/-- The directories os.walk visits from the base, the base first. -/
def walkDirs (cfg : Config) (fs : FileSys) (base : FPath) : List FPath :=
  base :: fs.dirs.filter fun d => isStrictUnder base d && noIgnoredBelow cfg base d

/-- One file of the scan_library walk loop: process it, count it, and record
it as processed. -/
def scanFileStep (cfg : Config) (fs : FileSys) (now : Nat) (fid : Nat)
    (force : Bool) (a : ScanAcc) (q : FPath × FileInfo) : ScanAcc :=
  let pr := process_comic cfg fs now q.1 fid force a.world
  { world := pr.1, stats := bumpStats a.stats pr.2,
    processed := a.processed ++ [q.1] }

/-- One directory of the scan_library walk: materialize the folder, then
process each comic file in it. -/
def processDir (cfg : Config) (fs : FileSys) (force : Bool) (now : Nat)
    (acc : ScanAcc) (d : FPath) : ScanAcc :=
  let r := get_or_create_folder cfg.library_root d acc.world.db
  (filesOfDir cfg fs d).foldl (scanFileStep cfg fs now r.2 force)
    { world := { acc.world with db := r.1 }, stats := acc.stats,
      processed := acc.processed }

/-- The comic selection of the deletion pass: everything when the base is the
library root, otherwise rows matched by LIKE base/%. -/
def comicUnderBase (cfg : Config) (base : FPath) (relPath : FPath) : Bool :=
  if base == cfg.library_root then true
  else isStrictUnder (to_relative base cfg.library_root) relPath

/-- The folder selection of the folder deletion pass: the base folder itself
or any row under it. -/
def folderUnderBase (cfg : Config) (base : FPath) (relPath : FPath) : Bool :=
  if base == cfg.library_root then true
  else
    relPath == to_relative base cfg.library_root ||
      isStrictUnder (to_relative base cfg.library_root) relPath

/-- One step of the deleted-files reconciliation of scan_library. -/
def deletionStep (cfg : Config) (fs : FileSys) (processed : List FPath)
    (acc : World × Stats) (c : ComicRow) : World × Stats :=
  let absPath := to_absolute c.path cfg.library_root
  if !(processed.contains absPath) && !(fileExists fs absPath) then
    let r := delete_comic_by_path cfg.library_root absPath acc.1.db
    ({ db := r.1, thumbDisk := delete_thumbnails r.2 acc.1.thumbDisk },
      { acc.2 with deleted := acc.2.deleted + 1 })
  else acc

/-- One step of the deleted-folders reconciliation of scan_library. -/
def folderStep (cfg : Config) (fs : FileSys) (w : World) (f : FolderRow) : World :=
  let absPath := to_absolute f.path cfg.library_root
  if fs.dirs.contains absPath then w
  else { w with db := delete_folder_by_path cfg.library_root absPath w.db }

/-- Model of scanner.scan_library: walk and process, then reconcile deleted
files and deleted folders; none models the FileNotFoundError raised when the
base path does not exist. -/
def scan_library (cfg : Config) (fs : FileSys) (base : FPath) (force : Bool)
    (now : Nat) (w : World) : Option (World × Stats) :=
  if !(fs.dirs.contains base) then none
  else
    let acc := (walkDirs cfg fs base).foldl (processDir cfg fs force now)
      { world := w, stats := {}, processed := [] }
    let snapshot := acc.world.db.comics.filter fun c => comicUnderBase cfg base c.path
    let r := snapshot.foldl (deletionStep cfg fs acc.processed) (acc.world, acc.stats)
    let fsnapshot := r.1.db.folders.filter fun f => folderUnderBase cfg base f.path
    some (fsnapshot.foldl (folderStep cfg fs) r.1, r.2)

/-- Whether the archive content of a file opens and lists pages successfully
under the scanner (validate_and_count_pages succeeds). -/
def archiveValid (cfg : Config) (p : FPath) (info : FileInfo) : Bool :=
  (validate_and_count_pages cfg.rarAvailable true (strLower (pathSuffix p)) info.archive).isOk



/-! ## Concrete witness inputs -/

/-- Concrete configuration for the C2 witness. -/
def cfgC2 : Config :=
  { library_root := ["lib"], ignore_patterns := [], rarAvailable := true }

/-- Concrete stat data for the C2 witness. -/
def infoC2 : FileInfo :=
  { mtime := 5, size := 10, statOk := true, archive := { format := .zip, entries := [] } }

/-- Concrete filesystem for the C2 witness. -/
def fsC2 : FileSys :=
  { files := [(["lib", "a.cbz"], infoC2)], dirs := [["lib"]] }

/-- The indexed row of the C2 witness. -/
def rowC2 : ComicRow :=
  { id := 1, uuid := 1, folder_id := 1, filename := "a.cbz",
    path := ["a.cbz"], format := "cbz", file_size := 10, page_count := 3,
    file_modified_at := 5 }

/-- Concrete world for the C2 witness: the comic is indexed, unchanged, with a
metadata row. -/
def wC2 : World :=
  { db :=
      { folders := [{ id := 1, name := "lib", path := [] }],
        comics := [rowC2],
        metas := [{ comic_id := 1 }],
        nextId := 2 },
    thumbDisk := [1] }

/-- Concrete configuration for the C4 witness. -/
def cfgC4 : Config :=
  { library_root := ["lib"], ignore_patterns := [], rarAvailable := true }

/-- Concrete stat data for the C4 witness: the archive bytes open as neither
zip nor rar. -/
def infoC4 : FileInfo :=
  { mtime := 6, size := 10, statOk := true, archive := { format := .other, entries := [] } }

/-- Concrete filesystem for the C4 witness. -/
def fsC4 : FileSys :=
  { files := [(["lib", "bad.cbz"], infoC4)], dirs := [["lib"]] }

/-- The indexed row of the C4 witness. -/
def rowC4 : ComicRow :=
  { id := 1, uuid := 7, folder_id := 1, filename := "bad.cbz",
    path := ["bad.cbz"], format := "cbz", file_size := 10, page_count := 3,
    file_modified_at := 5 }

/-- Concrete world for the C4 witness: the corrupt comic is indexed and has a
thumbnail file. -/
def wC4 : World :=
  { db :=
      { folders := [{ id := 1, name := "lib", path := [] }],
        comics := [rowC4],
        metas := [{ comic_id := 1 }],
        nextId := 2 },
    thumbDisk := [7, 9] }


/-- Concrete configuration for the C3 witness. -/
def cfgC3 : Config :=
  { library_root := ["lib"], ignore_patterns := [], rarAvailable := true }

/-- Concrete stat data for the C3 witness. -/
def infoC3 : FileInfo :=
  { mtime := 5, size := 10, statOk := true, archive := { format := .zip, entries := [] } }

/-- Concrete filesystem for the C3 witness. -/
def fsC3 : FileSys :=
  { files := [(["lib", "a.cbz"], infoC3)], dirs := [["lib"]] }

/-- The indexed row of the C3 witness. -/
def rowC3 : ComicRow :=
  { id := 1, uuid := 1, folder_id := 1, filename := "a.cbz",
    path := ["a.cbz"], format := "cbz", file_size := 10, page_count := 3,
    file_modified_at := 5, last_scanned_at := some 2 }

/-- Concrete world for the C3 witness: an unchanged indexed subtree. -/
def wC3 : World :=
  { db :=
      { folders := [{ id := 1, name := "lib", path := [] }],
        comics := [rowC3],
        metas := [{ comic_id := 1 }],
        nextId := 2 },
    thumbDisk := [1] }


/-- Folder rows for the C9 witness database. -/
def f0C9 : FolderRow := { id := 2, name := "a", path := ["a"], parent_id := some 1 }

/-- Comic rows for the C9 witness database. -/
def rowC9a : ComicRow :=
  { id := 1, uuid := 1, folder_id := 2, filename := "x.cbz", path := ["a", "x.cbz"],
    format := "cbz", file_size := 1, page_count := 1, file_modified_at := 1 }

def rowC9b : ComicRow :=
  { id := 2, uuid := 2, folder_id := 3, filename := "y.cbz",
    path := ["a", "sub", "y.cbz"], format := "cbz", file_size := 1,
    page_count := 1, file_modified_at := 1 }

def rowC9c : ComicRow :=
  { id := 3, uuid := 3, folder_id := 1, filename := "other.cbz",
    path := ["other.cbz"], format := "cbz", file_size := 1, page_count := 1,
    file_modified_at := 1 }

/-- Concrete database for the C9 witness: a folder with a subfolder, two
comics inside the moved subtree and one outside it. -/
def dbC9 : DB :=
  { folders := [{ id := 1, name := "lib", path := [] }, f0C9,
      { id := 3, name := "sub", path := ["a", "sub"], parent_id := some 2 }],
    comics := [rowC9a, rowC9b, rowC9c],
    metas := [],
    nextId := 4 }


/-- Presence of an index row at a stored relative path. -/
def HasRowAt (db : DB) (rp : FPath) : Prop :=
  ∃ c ∈ db.comics, c.path = rp

/-- Concrete configuration for the C1 counterexample. -/
def cfgC1 : Config :=
  { library_root := ["lib"], ignore_patterns := [], rarAvailable := true }

/-- Concrete filesystem for the C1 counterexample: one comic file whose bytes
open as neither zip nor rar. -/
def fsC1 : FileSys :=
  { files := [(["lib", "bad.cbz"],
      { mtime := 1, size := 10, statOk := true,
        archive := { format := .other, entries := [] } })],
    dirs := [["lib"]] }

/-- Concrete configuration for the C1 witness. -/
def cfgC1w : Config :=
  { library_root := ["lib"], ignore_patterns := [], rarAvailable := true }

/-- Concrete stat data for the C1 witness: a readable zip archive. -/
def infoC1w : FileInfo :=
  { mtime := 3, size := 10, statOk := true,
    archive := { format := .zip, entries := [] } }

/-- Concrete filesystem for the C1 witness. -/
def fsC1w : FileSys :=
  { files := [(["lib", "ok.cbz"], infoC1w)], dirs := [["lib"]] }

/-! ## General lemmas -/

theorem isPre_iff (a b : FPath) : isPre a b = true ↔ ∃ t, b = a ++ t := by
  induction a generalizing b with
  | nil => simp [isPre]
  | cons x xs ih =>
    cases b with
    | nil =>
      simp [isPre]
    | cons y ys =>
      simp only [isPre, Bool.and_eq_true, beq_iff_eq, ih]
      constructor
      · rintro ⟨rfl, t, rfl⟩; exact ⟨t, rfl⟩
      · rintro ⟨t, h⟩
        obtain ⟨h1, h2⟩ := List.cons.injEq y ys x (xs ++ t) ▸ h
        exact ⟨h1.symm, t, h2⟩

theorem isPre_refl (a : FPath) : isPre a a = true := by
  rw [isPre_iff]; exact ⟨[], by simp⟩

theorem isPre_append (a t : FPath) : isPre a (a ++ t) = true := by
  rw [isPre_iff]; exact ⟨t, rfl⟩

theorem isPre_trans {a b c : FPath} (h1 : isPre a b = true) (h2 : isPre b c = true) :
    isPre a c = true := by
  rw [isPre_iff] at *
  obtain ⟨t, rfl⟩ := h1
  obtain ⟨u, rfl⟩ := h2
  exact ⟨t ++ u, by simp⟩

theorem isPre_length {a b : FPath} (h : isPre a b = true) : a.length ≤ b.length := by
  rw [isPre_iff] at h
  obtain ⟨t, rfl⟩ := h
  simp

theorem isPre_drop_append {a b : FPath} (h : isPre a b = true) :
    a ++ b.drop a.length = b := by
  rw [isPre_iff] at h
  obtain ⟨t, rfl⟩ := h
  simp

theorem isPre_antisymm {a b : FPath} (h1 : isPre a b = true) (h2 : isPre b a = true) :
    a = b := by
  rw [isPre_iff] at *
  obtain ⟨t, rfl⟩ := h1
  obtain ⟨u, hu⟩ := h2
  have : t = [] := by
    have := congrArg List.length hu
    simp at this
    simp [this]
  simp [this]

theorem to_relative_of_under {p root : FPath} (h : isPre root p = true) :
    to_relative p root = p.drop root.length := by
  simp [to_relative, h]

theorem to_absolute_to_relative {p root : FPath} (h : isPre root p = true) :
    to_absolute (to_relative p root) root = p := by
  simp [to_relative, h, to_absolute, isPre_drop_append h]

/-- Relative paths determine absolute paths under the root: to_relative is
injective on paths under the library root. -/
theorem to_relative_inj {p q root : FPath} (hp : isPre root p = true)
    (hq : isPre root q = true) (h : to_relative p root = to_relative q root) :
    p = q := by
  have := congrArg (to_absolute · root) h
  simpa [to_absolute_to_relative hp, to_absolute_to_relative hq] using this

theorem tryOpenZip_entries {f : ArchiveFile} {h : ArchiveHandle}
    (hz : tryOpenZip f = some h) : h.entries = f.entries := by
  unfold tryOpenZip at hz
  split at hz
  · cases hz; rfl
  · cases hz

theorem tryOpenRar_entries {rav : Bool} {f : ArchiveFile} {h : ArchiveHandle}
    (hz : tryOpenRar rav f = some h) : h.entries = f.entries := by
  unfold tryOpenRar at hz
  split at hz
  · cases hz; rfl
  · cases hz

theorem get_archive_ok_entries {rav pe : Bool} {suffix : String} {f : ArchiveFile}
    {h : ArchiveHandle} (hok : get_archive rav pe suffix f = .ok h) :
    h.entries = f.entries := by
  unfold get_archive at hok
  split at hok
  · cases hok
  · split at hok
    · split at hok
      · rename_i heq; cases hok; exact tryOpenZip_entries heq
      · split at hok
        · rename_i heq; cases hok; exact tryOpenRar_entries heq
        · cases hok
    · split at hok
      · split at hok
        · rename_i heq; cases hok; exact tryOpenRar_entries heq
        · split at hok
          · rename_i heq; cases hok; exact tryOpenZip_entries heq
          · cases hok
      · cases hok

theorem updateFirst_find? {α : Type} (pred : α → Bool) (g : α → α) (l : List α)
    (x : α) (hx : l.find? pred = some x) (hg : pred (g x) = true) :
    (updateFirst pred g l).find? pred = some (g x) := by
  induction l with
  | nil => simp at hx
  | cons y ys ih =>
    by_cases hy : pred y = true
    · rw [List.find?_cons_of_pos _ hy] at hx
      cases hx
      simp [updateFirst, hy, List.find?_cons_of_pos _ hg]
    · rw [List.find?_cons_of_neg _ hy] at hx
      rw [updateFirst, if_neg hy, List.find?_cons_of_neg _ hy]
      exact ih hx

theorem orElse_eq_if {α : Type} (o1 o2 : Option α) :
    (o1 <|> o2) = if o1.isSome then o1 else o2 := by
  cases o1 <;> rfl

theorem applyMetadataUpdate_comic_id (m : MetaRow) (p : ComicMetadataUpdate) :
    (applyMetadataUpdate m p).comic_id = m.comic_id := rfl

/-! ## Claim C10 -/

/-- C10: for every absolute path lying under the configured library root,
converting to a stored relative path and back with to_relative and to_absolute
is the identity, so relocating the library root re-roots every persisted path
without changing anything stored. -/
theorem c10_relative_path_roundtrip (p root : FPath) (h : isPre root p = true) :
    to_absolute (to_relative p root) root = p :=
  to_absolute_to_relative h

/-- Witness for c10_relative_path_roundtrip at a concrete path. -/
theorem c10_relative_path_roundtrip_witness :
    isPre ["library"] ["library", "Marvel", "X-Men 001.cbz"] = true ∧
    to_absolute (to_relative ["library", "Marvel", "X-Men 001.cbz"] ["library"])
      ["library"] = ["library", "Marvel", "X-Men 001.cbz"] :=
  ⟨by decide, c10_relative_path_roundtrip _ _ (by decide)⟩

/-! ## Claim C7 -/

/-- C7: for a comic path with a supported extension and an existing file,
get_archive selects the format indicated by the extension, falls back to the
other format when that fails, opens misnamed files through the fallback, and
reports an open error only when both attempts fail. -/
theorem c7_extension_fallback (rav : Bool) (suffix : String) (f : ArchiveFile)
    (hs : suffix = ".cbz" ∨ suffix = ".cbr") :
    ((get_archive rav true suffix f).isOk = true ↔
      ((tryOpenZip f).isSome = true ∨ (tryOpenRar rav f).isSome = true)) ∧
    (suffix = ".cbz" → f.format = .zip →
      get_archive rav true suffix f = .ok ⟨true, f.entries⟩) ∧
    (suffix = ".cbr" → f.format = .rar → rav = true →
      get_archive rav true suffix f = .ok ⟨false, f.entries⟩) ∧
    (suffix = ".cbz" → f.format = .rar → rav = true →
      get_archive rav true suffix f = .ok ⟨false, f.entries⟩) ∧
    (suffix = ".cbr" → f.format = .zip →
      get_archive rav true suffix f = .ok ⟨true, f.entries⟩) ∧
    ((get_archive rav true suffix f).isOk = false →
      tryOpenZip f = none ∧ tryOpenRar rav f = none) := by
  rcases hs with rfl | rfl <;>
    cases hf : f.format <;> cases rav <;>
      simp [get_archive, tryOpenZip, tryOpenRar, hf, Except.isOk, Except.toBool]

/-- Witness for c7_extension_fallback: a rar-format file misnamed .cbz opens
through the fallback. -/
theorem c7_extension_fallback_witness :
    ((".cbz" : String) = ".cbz" ∨ (".cbz" : String) = ".cbr") ∧
    (((get_archive true true ".cbz" ⟨.rar, []⟩).isOk = true ↔
      ((tryOpenZip ⟨.rar, []⟩).isSome = true ∨ (tryOpenRar true ⟨.rar, []⟩).isSome = true)) ∧
    ((".cbz" : String) = ".cbz" → ArchiveFile.format ⟨.rar, []⟩ = .zip →
      get_archive true true ".cbz" ⟨.rar, []⟩ = .ok ⟨true, []⟩) ∧
    ((".cbz" : String) = ".cbr" → ArchiveFile.format ⟨.rar, []⟩ = .rar → true = true →
      get_archive true true ".cbz" ⟨.rar, []⟩ = .ok ⟨false, []⟩) ∧
    ((".cbz" : String) = ".cbz" → ArchiveFile.format ⟨.rar, []⟩ = .rar → true = true →
      get_archive true true ".cbz" ⟨.rar, []⟩ = .ok ⟨false, []⟩) ∧
    ((".cbz" : String) = ".cbr" → ArchiveFile.format ⟨.rar, []⟩ = .zip →
      get_archive true true ".cbz" ⟨.rar, []⟩ = .ok ⟨true, []⟩) ∧
    ((get_archive true true ".cbz" ⟨.rar, []⟩).isOk = false →
      tryOpenZip ⟨.rar, []⟩ = none ∧ tryOpenRar true ⟨.rar, []⟩ = none)) :=
  ⟨Or.inl rfl, c7_extension_fallback true ".cbz" ⟨.rar, []⟩ (Or.inl rfl)⟩

/-! ## Claim C6 -/

/-- C6: for every archive whose ComicInfo.xml sidecar is missing, blank, or
malformed, the extraction seen by the scanner is the empty all-absent record
and no error is raised (the model is total). -/
theorem c6_sidecar_failure_empty (rav pe : Bool) (suffix : String) (f : ArchiveFile)
    (h : sidecarEntry f.entries = none ∨
      ∃ e, sidecarEntry f.entries = some e ∧
        (e.content.stripBlank = true ∨ e.content.xml = .malformed)) :
    comicinfoFields (read_comicinfo_from_archive rav pe suffix f) = {} := by
  unfold read_comicinfo_from_archive
  cases hg : get_archive rav pe suffix f with
  | error e => simp [comicinfoFields]
  | ok hh =>
    dsimp only
    rw [get_archive_ok_entries hg]
    rcases h with h | ⟨e, he, hc⟩
    · simp [h, comicinfoFields]
    · rw [he]
      rcases hc with hc | hc
      · simp [hc, comicinfoFields]
      · cases hsb : e.content.stripBlank
        · simp [hsb, hc, comicinfoFields, parse_comicinfo_xml]
        · simp [hsb, comicinfoFields]

/-- Witness for c6_sidecar_failure_empty: a sidecar entry whose bytes strip to
empty yields the empty record. -/
theorem c6_sidecar_failure_empty_witness :
    (sidecarEntry [⟨"ComicInfo.xml", { stripBlank := true, xml := .malformed, validImage := false }⟩] = none ∨
      ∃ e, sidecarEntry [⟨"ComicInfo.xml", { stripBlank := true, xml := .malformed, validImage := false }⟩] = some e ∧
        (e.content.stripBlank = true ∨ e.content.xml = .malformed)) ∧
    comicinfoFields (read_comicinfo_from_archive true true ".cbz"
      ⟨.zip, [⟨"ComicInfo.xml", { stripBlank := true, xml := .malformed, validImage := false }⟩]⟩) = {} := by
  refine ⟨Or.inr ⟨⟨"ComicInfo.xml", { stripBlank := true, xml := .malformed, validImage := false }⟩, by decide, Or.inl rfl⟩, ?_⟩
  exact c6_sidecar_failure_empty true true ".cbz" _
    (Or.inr ⟨⟨"ComicInfo.xml", { stripBlank := true, xml := .malformed, validImage := false }⟩, by decide, Or.inl rfl⟩)

/-! ## Claim C8 -/

/-- C8: Repository.update_comic_metadata overwrites exactly the fields the
payload supplies; every field absent from the payload keeps its stored value,
and fields outside the payload type (artist, score, reading progress) are
untouched. -/
theorem c8_metadata_merge_additive (db : DB) (cid : Nat) (payload : ComicMetadataUpdate)
    (m : MetaRow) (hm : db.metas.find? (fun x => x.comic_id == cid) = some m) :
    (update_comic_metadata cid payload db).metas.find? (fun x => x.comic_id == cid) =
      some (applyMetadataUpdate m payload) ∧
    (applyMetadataUpdate m payload).series =
      (if payload.series.isSome then payload.series else m.series) ∧
    (applyMetadataUpdate m payload).title =
      (if payload.title.isSome then payload.title else m.title) ∧
    (applyMetadataUpdate m payload).issue_number =
      (if payload.issue_number.isSome then payload.issue_number else m.issue_number) ∧
    (applyMetadataUpdate m payload).publisher =
      (if payload.publisher.isSome then payload.publisher else m.publisher) ∧
    (applyMetadataUpdate m payload).year =
      (if payload.year.isSome then payload.year else m.year) ∧
    (applyMetadataUpdate m payload).month =
      (if payload.month.isSome then payload.month else m.month) ∧
    (applyMetadataUpdate m payload).writer =
      (if payload.writer.isSome then payload.writer else m.writer) ∧
    (applyMetadataUpdate m payload).penciller =
      (if payload.penciller.isSome then payload.penciller else m.penciller) ∧
    (applyMetadataUpdate m payload).summary =
      (if payload.summary.isSome then payload.summary else m.summary) ∧
    (applyMetadataUpdate m payload).notes =
      (if payload.notes.isSome then payload.notes else m.notes) ∧
    (applyMetadataUpdate m payload).web =
      (if payload.web.isSome then payload.web else m.web) ∧
    (applyMetadataUpdate m payload).language_iso =
      (if payload.language_iso.isSome then payload.language_iso else m.language_iso) ∧
    (applyMetadataUpdate m payload).genre =
      (if payload.genre.isSome then payload.genre else m.genre) ∧
    (applyMetadataUpdate m payload).artist = m.artist ∧
    (applyMetadataUpdate m payload).score = m.score ∧
    (applyMetadataUpdate m payload).is_completed = m.is_completed ∧
    (applyMetadataUpdate m payload).current_page = m.current_page ∧
    (applyMetadataUpdate m payload).last_read_at = m.last_read_at ∧
    (applyMetadataUpdate m payload).comic_id = m.comic_id := by
  refine ⟨?_, ?_⟩
  · unfold update_comic_metadata
    rw [hm]
    have hpred : (fun x : MetaRow => x.comic_id == cid) (applyMetadataUpdate m payload) = true := by
      have := List.find?_some hm
      simpa [applyMetadataUpdate_comic_id] using this
    exact updateFirst_find? _ _ _ _ hm hpred
  · simp only [applyMetadataUpdate, orElse_eq_if]
    repeat' constructor

/-- Witness for c8_metadata_merge_additive on a one-row metadata table. -/
theorem c8_metadata_merge_additive_witness :
    (DB.metas { metas := [{ comic_id := 1, title := some "kept", series := none }], nextId := 5 }).find?
      (fun x => x.comic_id == 1) = some { comic_id := 1, title := some "kept", series := none } ∧
    ((update_comic_metadata 1 { series := some "NewSeries" }
        { metas := [{ comic_id := 1, title := some "kept", series := none }], nextId := 5 }).metas.find?
        (fun x => x.comic_id == 1) =
      some (applyMetadataUpdate { comic_id := 1, title := some "kept", series := none }
        { series := some "NewSeries" }) ∧
    (applyMetadataUpdate { comic_id := 1, title := some "kept", series := none }
        { series := some "NewSeries" }).series =
      (if ({ series := some "NewSeries" } : ComicMetadataUpdate).series.isSome
        then ({ series := some "NewSeries" } : ComicMetadataUpdate).series
        else (none : Option String)) ∧
    (applyMetadataUpdate { comic_id := 1, title := some "kept", series := none }
        { series := some "NewSeries" }).title =
      (if ({ series := some "NewSeries" } : ComicMetadataUpdate).title.isSome
        then ({ series := some "NewSeries" } : ComicMetadataUpdate).title
        else some "kept") ∧
    (applyMetadataUpdate { comic_id := 1, title := some "kept", series := none }
        { series := some "NewSeries" }).issue_number =
      (if ({ series := some "NewSeries" } : ComicMetadataUpdate).issue_number.isSome
        then ({ series := some "NewSeries" } : ComicMetadataUpdate).issue_number
        else (none : Option Int)) ∧
    (applyMetadataUpdate { comic_id := 1, title := some "kept", series := none }
        { series := some "NewSeries" }).publisher =
      (if ({ series := some "NewSeries" } : ComicMetadataUpdate).publisher.isSome
        then ({ series := some "NewSeries" } : ComicMetadataUpdate).publisher
        else (none : Option String)) ∧
    (applyMetadataUpdate { comic_id := 1, title := some "kept", series := none }
        { series := some "NewSeries" }).year =
      (if ({ series := some "NewSeries" } : ComicMetadataUpdate).year.isSome
        then ({ series := some "NewSeries" } : ComicMetadataUpdate).year
        else (none : Option Int)) ∧
    (applyMetadataUpdate { comic_id := 1, title := some "kept", series := none }
        { series := some "NewSeries" }).month =
      (if ({ series := some "NewSeries" } : ComicMetadataUpdate).month.isSome
        then ({ series := some "NewSeries" } : ComicMetadataUpdate).month
        else (none : Option Int)) ∧
    (applyMetadataUpdate { comic_id := 1, title := some "kept", series := none }
        { series := some "NewSeries" }).writer =
      (if ({ series := some "NewSeries" } : ComicMetadataUpdate).writer.isSome
        then ({ series := some "NewSeries" } : ComicMetadataUpdate).writer
        else (none : Option String)) ∧
    (applyMetadataUpdate { comic_id := 1, title := some "kept", series := none }
        { series := some "NewSeries" }).penciller =
      (if ({ series := some "NewSeries" } : ComicMetadataUpdate).penciller.isSome
        then ({ series := some "NewSeries" } : ComicMetadataUpdate).penciller
        else (none : Option String)) ∧
    (applyMetadataUpdate { comic_id := 1, title := some "kept", series := none }
        { series := some "NewSeries" }).summary =
      (if ({ series := some "NewSeries" } : ComicMetadataUpdate).summary.isSome
        then ({ series := some "NewSeries" } : ComicMetadataUpdate).summary
        else (none : Option String)) ∧
    (applyMetadataUpdate { comic_id := 1, title := some "kept", series := none }
        { series := some "NewSeries" }).notes =
      (if ({ series := some "NewSeries" } : ComicMetadataUpdate).notes.isSome
        then ({ series := some "NewSeries" } : ComicMetadataUpdate).notes
        else (none : Option String)) ∧
    (applyMetadataUpdate { comic_id := 1, title := some "kept", series := none }
        { series := some "NewSeries" }).web =
      (if ({ series := some "NewSeries" } : ComicMetadataUpdate).web.isSome
        then ({ series := some "NewSeries" } : ComicMetadataUpdate).web
        else (none : Option String)) ∧
    (applyMetadataUpdate { comic_id := 1, title := some "kept", series := none }
        { series := some "NewSeries" }).language_iso =
      (if ({ series := some "NewSeries" } : ComicMetadataUpdate).language_iso.isSome
        then ({ series := some "NewSeries" } : ComicMetadataUpdate).language_iso
        else (none : Option String)) ∧
    (applyMetadataUpdate { comic_id := 1, title := some "kept", series := none }
        { series := some "NewSeries" }).genre =
      (if ({ series := some "NewSeries" } : ComicMetadataUpdate).genre.isSome
        then ({ series := some "NewSeries" } : ComicMetadataUpdate).genre
        else (none : Option String)) ∧
    (applyMetadataUpdate { comic_id := 1, title := some "kept", series := none }
        { series := some "NewSeries" }).artist = none ∧
    (applyMetadataUpdate { comic_id := 1, title := some "kept", series := none }
        { series := some "NewSeries" }).score = none ∧
    (applyMetadataUpdate { comic_id := 1, title := some "kept", series := none }
        { series := some "NewSeries" }).is_completed = false ∧
    (applyMetadataUpdate { comic_id := 1, title := some "kept", series := none }
        { series := some "NewSeries" }).current_page = none ∧
    (applyMetadataUpdate { comic_id := 1, title := some "kept", series := none }
        { series := some "NewSeries" }).last_read_at = none ∧
    (applyMetadataUpdate { comic_id := 1, title := some "kept", series := none }
        { series := some "NewSeries" }).comic_id = 1) :=
  ⟨by decide, c8_metadata_merge_additive _ 1 _ _ (by decide)⟩


/-! ## process_comic branch lemmas -/

theorem should_skip_iff (hm : Bool) (c? : Option ComicRow) (mt : Nat) (force : Bool) :
    _should_skip_comic hm c? mt force = true ↔
      ∃ c, c? = some c ∧ c.file_modified_at = mt ∧ hm = true ∧ force = false := by
  cases c? with
  | none => simp [_should_skip_comic]
  | some c =>
    cases force <;> by_cases hmt : c.file_modified_at = mt <;> cases hm <;>
      simp [_should_skip_comic, hmt]

theorem pc_statError_none {cfg : Config} {fs : FileSys} {now : Nat} {p : FPath}
    {fid : Nat} {force : Bool} {w : World}
    (hinfo : lookupFile fs p = none) :
    process_comic cfg fs now p fid force w = (w, .statError) := by
  simp [process_comic, hinfo]

theorem pc_statError_stat {cfg : Config} {fs : FileSys} {now : Nat} {p : FPath}
    {fid : Nat} {force : Bool} {w : World} {info : FileInfo}
    (hinfo : lookupFile fs p = some info) (hstat : info.statOk = false) :
    process_comic cfg fs now p fid force w = (w, .statError) := by
  simp [process_comic, hinfo, hstat]

theorem pc_skip {cfg : Config} {fs : FileSys} {now : Nat} {p : FPath}
    {fid : Nat} {force : Bool} {w : World} {info : FileInfo}
    (hinfo : lookupFile fs p = some info) (hstat : info.statOk = true)
    (hsk : _should_skip_comic (hasMetaOf w.db (get_comic_by_path cfg.library_root p w.db))
      (get_comic_by_path cfg.library_root p w.db) info.mtime force = true) :
    process_comic cfg fs now p fid force w =
      (w, .skippedUnchanged (get_comic_by_path cfg.library_root p w.db).isSome) := by
  simp [process_comic, hinfo, hstat, hsk]

theorem pc_corrupt {cfg : Config} {fs : FileSys} {now : Nat} {p : FPath}
    {fid : Nat} {force : Bool} {w : World} {info : FileInfo} {e : ArchiveError}
    (hinfo : lookupFile fs p = some info) (hstat : info.statOk = true)
    (hsk : _should_skip_comic (hasMetaOf w.db (get_comic_by_path cfg.library_root p w.db))
      (get_comic_by_path cfg.library_root p w.db) info.mtime force = false)
    (hv : validate_and_count_pages cfg.rarAvailable true (strLower (pathSuffix p))
      info.archive = .error e) :
    process_comic cfg fs now p fid force w =
      (if (get_comic_by_path cfg.library_root p w.db).isSome then
        ({ db := (delete_comic_by_path cfg.library_root p w.db).1,
           thumbDisk := delete_thumbnails (delete_comic_by_path cfg.library_root p w.db).2
             w.thumbDisk }, .corruptArchive true)
      else (w, .corruptArchive false)) := by
  simp [process_comic, hinfo, hstat, hsk, hv]

theorem pc_valid {cfg : Config} {fs : FileSys} {now : Nat} {p : FPath}
    {fid : Nat} {force : Bool} {w : World} {info : FileInfo} {n : Nat}
    (hinfo : lookupFile fs p = some info) (hstat : info.statOk = true)
    (hsk : _should_skip_comic (hasMetaOf w.db (get_comic_by_path cfg.library_root p w.db))
      (get_comic_by_path cfg.library_root p w.db) info.mtime force = false)
    (hv : validate_and_count_pages cfg.rarAvailable true (strLower (pathSuffix p))
      info.archive = .ok n) :
    process_comic cfg fs now p fid force w = processValidComic cfg now p fid info n w := by
  simp [process_comic, hinfo, hstat, hsk, hv]

theorem archiveValid_false_error {cfg : Config} {p : FPath} {info : FileInfo}
    (h : archiveValid cfg p info = false) :
    ∃ e, validate_and_count_pages cfg.rarAvailable true (strLower (pathSuffix p))
      info.archive = .error e := by
  cases hv : validate_and_count_pages cfg.rarAvailable true (strLower (pathSuffix p))
      info.archive with
  | error e => exact ⟨e, rfl⟩
  | ok n => simp [archiveValid, hv, Except.isOk, Except.toBool] at h

theorem archiveValid_true_ok {cfg : Config} {p : FPath} {info : FileInfo}
    (h : archiveValid cfg p info = true) :
    ∃ n, validate_and_count_pages cfg.rarAvailable true (strLower (pathSuffix p))
      info.archive = .ok n := by
  cases hv : validate_and_count_pages cfg.rarAvailable true (strLower (pathSuffix p))
      info.archive with
  | error e => simp [archiveValid, hv, Except.isOk, Except.toBool] at h
  | ok n => exact ⟨n, rfl⟩

/-! ## Claim C2 -/

/-- C2: with the file statable, process_comic takes the skip-without-reprocessing
early return exactly when all four conditions hold (item exists at the path,
stored mtime equals the current mtime, a metadata row exists, no forced
rescan), in which case the world is untouched; when any condition fails the
comic is re-processed (validation is reached). -/
theorem c2_skip_decision (cfg : Config) (fs : FileSys) (now : Nat) (p : FPath)
    (fid : Nat) (force : Bool) (w : World) (info : FileInfo)
    (hinfo : lookupFile fs p = some info) (hstat : info.statOk = true) :
    (((process_comic cfg fs now p fid force w).2 =
        .skippedUnchanged (get_comic_by_path cfg.library_root p w.db).isSome ∧
      (process_comic cfg fs now p fid force w).1 = w) ↔
      (∃ c, get_comic_by_path cfg.library_root p w.db = some c ∧
        c.file_modified_at = info.mtime ∧ hasMetadata w.db c.id = true ∧
        force = false)) ∧
    ((¬ ∃ c, get_comic_by_path cfg.library_root p w.db = some c ∧
        c.file_modified_at = info.mtime ∧ hasMetadata w.db c.id = true ∧
        force = false) →
      outcomeValidated (process_comic cfg fs now p fid force w).2 = true) := by
  have hcond : _should_skip_comic (hasMetaOf w.db (get_comic_by_path cfg.library_root p w.db))
      (get_comic_by_path cfg.library_root p w.db) info.mtime force = true ↔
      (∃ c, get_comic_by_path cfg.library_root p w.db = some c ∧
        c.file_modified_at = info.mtime ∧ hasMetadata w.db c.id = true ∧ force = false) := by
    rw [should_skip_iff]
    constructor
    · rintro ⟨c, hc, h1, h2, h3⟩
      exact ⟨c, hc, h1, by simpa [hasMetaOf, hc] using h2, h3⟩
    · rintro ⟨c, hc, h1, h2, h3⟩
      exact ⟨c, hc, h1, by simp [hasMetaOf, hc, h2], h3⟩
  by_cases hsk : _should_skip_comic (hasMetaOf w.db (get_comic_by_path cfg.library_root p w.db))
      (get_comic_by_path cfg.library_root p w.db) info.mtime force = true
  · rw [pc_skip hinfo hstat hsk]
    constructor
    · simp [hcond.mp hsk]
    · intro hnot
      exact absurd (hcond.mp hsk) hnot
  · have hskf : _should_skip_comic (hasMetaOf w.db (get_comic_by_path cfg.library_root p w.db))
        (get_comic_by_path cfg.library_root p w.db) info.mtime force = false := by
      simpa using hsk
    have hnotc : ¬ (∃ c, get_comic_by_path cfg.library_root p w.db = some c ∧
        c.file_modified_at = info.mtime ∧ hasMetadata w.db c.id = true ∧ force = false) := by
      intro hcc
      exact hsk (hcond.mpr hcc)
    cases hv : validate_and_count_pages cfg.rarAvailable true (strLower (pathSuffix p))
        info.archive with
    | error e =>
      rw [pc_corrupt hinfo hstat hskf hv]
      by_cases hex : (get_comic_by_path cfg.library_root p w.db).isSome = true
      · simp only [hex, if_pos]
        refine ⟨?_, fun _ => rfl⟩
        simp [hnotc]
      · simp only [Bool.not_eq_true] at hex
        simp only [hex]
        refine ⟨?_, fun _ => rfl⟩
        simp [hnotc, outcomeValidated]
    | ok n =>
      rw [pc_valid hinfo hstat hskf hv]
      refine ⟨?_, fun _ => ?_⟩
      · simp only [processValidComic]
        constructor
        · rintro ⟨hout, -⟩
          cases hout
        · intro hcc
          exact absurd hcc hnotc
      · simp [processValidComic, outcomeValidated]

/-- Witness for c2_skip_decision: an unchanged, already-processed comic is
skipped. -/
theorem c2_skip_decision_witness :
    lookupFile fsC2 ["lib", "a.cbz"] = some infoC2 ∧ infoC2.statOk = true ∧
    ((((process_comic cfgC2 fsC2 9 ["lib", "a.cbz"] 1 false wC2).2 =
        .skippedUnchanged (get_comic_by_path cfgC2.library_root ["lib", "a.cbz"] wC2.db).isSome ∧
      (process_comic cfgC2 fsC2 9 ["lib", "a.cbz"] 1 false wC2).1 = wC2) ↔
      (∃ c, get_comic_by_path cfgC2.library_root ["lib", "a.cbz"] wC2.db = some c ∧
        c.file_modified_at = infoC2.mtime ∧ hasMetadata wC2.db c.id = true ∧
        false = false)) ∧
    ((¬ ∃ c, get_comic_by_path cfgC2.library_root ["lib", "a.cbz"] wC2.db = some c ∧
        c.file_modified_at = infoC2.mtime ∧ hasMetadata wC2.db c.id = true ∧
        false = false) →
      outcomeValidated (process_comic cfgC2 fsC2 9 ["lib", "a.cbz"] 1 false wC2).2 = true)) :=
  ⟨by decide, by decide, c2_skip_decision cfgC2 fsC2 9 ["lib", "a.cbz"] 1 false wC2 infoC2
    (by decide) (by decide)⟩

/-! ## Claim C4 -/

/-- C4: when validation fails on an indexed comic during processing, the item
rows at that path are deleted, its thumbnail file is removed, the file is
counted as skipped, folders are untouched, and the scan as a whole still
completes (no exception escapes the walk). -/
theorem c4_corrupt_removed (cfg : Config) (fs : FileSys) (now : Nat) (p : FPath)
    (fid : Nat) (force : Bool) (w : World) (info : FileInfo) (c : ComicRow)
    (base : FPath)
    (hinfo : lookupFile fs p = some info) (hstat : info.statOk = true)
    (hvalid : archiveValid cfg p info = false)
    (hc : get_comic_by_path cfg.library_root p w.db = some c)
    (hsk : _should_skip_comic (hasMetadata w.db c.id) (some c) info.mtime force = false)
    (hbase : fs.dirs.contains base = true) :
    (process_comic cfg fs now p fid force w).2 = .corruptArchive true ∧
    (process_comic cfg fs now p fid force w).1.db.comics =
      w.db.comics.filter (fun x => !(x.path == to_relative p cfg.library_root)) ∧
    (process_comic cfg fs now p fid force w).1.db.folders = w.db.folders ∧
    (process_comic cfg fs now p fid force w).1.thumbDisk =
      delete_thumbnails
        ((w.db.comics.filter (fun x => x.path == to_relative p cfg.library_root)).map (·.uuid))
        w.thumbDisk ∧
    c.uuid ∉ (process_comic cfg fs now p fid force w).1.thumbDisk ∧
    outcomeSkipFlag (process_comic cfg fs now p fid force w).2 = true ∧
    (scan_library cfg fs base force now w).isSome = true := by
  obtain ⟨e, hv⟩ := archiveValid_false_error hvalid
  have hsk2 : _should_skip_comic (hasMetaOf w.db (get_comic_by_path cfg.library_root p w.db))
      (get_comic_by_path cfg.library_root p w.db) info.mtime force = false := by
    rw [hc]; simpa [hasMetaOf] using hsk
  have heq := @pc_corrupt cfg fs now p fid force w info e hinfo hstat hsk2 hv
  rw [hc] at heq
  simp only [Option.isSome_some, if_pos] at heq
  rw [heq]
  have hc2 : w.db.comics.find? (fun x => x.path == to_relative p cfg.library_root) = some c := hc
  have hcu : c.uuid ∈ (delete_comic_by_path cfg.library_root p w.db).2 := by
    have hcmem : c ∈ w.db.comics := List.mem_of_find?_eq_some hc2
    have hcp := List.find?_some hc2
    simp only [delete_comic_by_path]
    exact List.mem_map_of_mem _ (List.mem_filter.mpr ⟨hcmem, hcp⟩)
  have hcont : (delete_comic_by_path cfg.library_root p w.db).2.contains c.uuid = true :=
    List.elem_eq_true_of_mem hcu
  refine ⟨rfl, rfl, rfl, rfl, ?_, rfl, ?_⟩
  · intro hmem
    have hcond := (List.mem_filter.mp hmem).2
    rw [hcont] at hcond
    simp at hcond
  · have hmem : base ∈ fs.dirs := by simpa using hbase
    simp [scan_library, hmem]

/-- Witness for c4_corrupt_removed: a stored comic whose archive no longer
opens is removed together with its thumbnail. -/
theorem c4_corrupt_removed_witness :
    lookupFile fsC4 ["lib", "bad.cbz"] = some infoC4 ∧ infoC4.statOk = true ∧
    archiveValid cfgC4 ["lib", "bad.cbz"] infoC4 = false ∧
    get_comic_by_path cfgC4.library_root ["lib", "bad.cbz"] wC4.db = some rowC4 ∧
    _should_skip_comic (hasMetadata wC4.db rowC4.id) (some rowC4) infoC4.mtime false = false ∧
    fsC4.dirs.contains ["lib"] = true ∧
    ((process_comic cfgC4 fsC4 9 ["lib", "bad.cbz"] 1 false wC4).2 = .corruptArchive true ∧
    (process_comic cfgC4 fsC4 9 ["lib", "bad.cbz"] 1 false wC4).1.db.comics =
      wC4.db.comics.filter (fun x => !(x.path == to_relative ["lib", "bad.cbz"] cfgC4.library_root)) ∧
    (process_comic cfgC4 fsC4 9 ["lib", "bad.cbz"] 1 false wC4).1.db.folders = wC4.db.folders ∧
    (process_comic cfgC4 fsC4 9 ["lib", "bad.cbz"] 1 false wC4).1.thumbDisk =
      delete_thumbnails
        ((wC4.db.comics.filter
          (fun x => x.path == to_relative ["lib", "bad.cbz"] cfgC4.library_root)).map (·.uuid))
        wC4.thumbDisk ∧
    rowC4.uuid ∉ (process_comic cfgC4 fsC4 9 ["lib", "bad.cbz"] 1 false wC4).1.thumbDisk ∧
    outcomeSkipFlag (process_comic cfgC4 fsC4 9 ["lib", "bad.cbz"] 1 false wC4).2 = true ∧
    (scan_library cfgC4 fsC4 ["lib"] false 9 wC4).isSome = true) :=
  ⟨by decide, by decide, by decide, by decide, by decide, by decide,
    c4_corrupt_removed cfgC4 fsC4 9 ["lib", "bad.cbz"] 1 false wC4 infoC4 rowC4 ["lib"]
      (by decide) (by decide) (by decide) (by decide) (by decide) (by decide)⟩


/-! ## Claim C3 -/

theorem getOrCreateFolderAux_frame (root : FPath) (fuel : Nat) :
    ∀ (p : FPath) (db : DB),
      ((getOrCreateFolderAux root fuel p db).1).comics = db.comics ∧
      ((getOrCreateFolderAux root fuel p db).1).metas = db.metas := by
  induction fuel with
  | zero => intro p db; exact ⟨rfl, rfl⟩
  | succ n ih =>
    intro p db
    rw [getOrCreateFolderAux]
    dsimp only
    split
    · exact ⟨rfl, rfl⟩
    · dsimp only
      split
      · split
        · exact ⟨(ih _ db).1, (ih _ db).2⟩
        · exact ⟨rfl, rfl⟩
      · exact ⟨rfl, rfl⟩

theorem get_or_create_folder_frame (root d : FPath) (db : DB) :
    ((get_or_create_folder root d db).1).comics = db.comics ∧
    ((get_or_create_folder root d db).1).metas = db.metas :=
  getOrCreateFolderAux_frame root (d.length + 1) d db

theorem findPair_of_mem {l : List (FPath × FileInfo)} {p : FPath} {i : FileInfo}
    (hnd : (l.map Prod.fst).Nodup) (hmem : (p, i) ∈ l) :
    l.find? (fun q => q.1 == p) = some (p, i) := by
  induction l with
  | nil => cases hmem
  | cons q qs ih =>
    simp only [List.map_cons, List.nodup_cons] at hnd
    rcases List.mem_cons.mp hmem with heq | htail
    · subst heq
      rw [@List.find?_cons_of_pos _ (fun q : FPath × FileInfo => q.1 == p) (p, i) qs (by simp)]
    · have hpmem : p ∈ qs.map Prod.fst := List.mem_map_of_mem Prod.fst htail
      have hq : ¬ (q.1 == p) = true := by
        intro hq1
        exact hnd.1 (eq_of_beq hq1 ▸ hpmem)
      rw [@List.find?_cons_of_neg _ (fun r : FPath × FileInfo => r.1 == p) q qs hq]
      exact ih hnd.2 htail

theorem lookupFile_of_mem {fs : FileSys} {p : FPath} {i : FileInfo}
    (hnd : (fs.files.map Prod.fst).Nodup) (hmem : (p, i) ∈ fs.files) :
    lookupFile fs p = some i := by
  unfold lookupFile
  rw [findPair_of_mem hnd hmem]
  rfl

/-- The skip hypothesis of an unchanged subtree, relative to fixed initial
tables: the file stats fine, its row is present with the same mtime, and its
metadata row exists. -/
def SkipReady (cfg : Config) (C0 : List ComicRow) (M0 : List MetaRow)
    (q : FPath × FileInfo) : Prop :=
  q.2.statOk = true ∧
    ∃ c, C0.find? (fun x => x.path == to_relative q.1 cfg.library_root) = some c ∧
      c.file_modified_at = q.2.mtime ∧ M0.any (fun m => m.comic_id == c.id) = true

theorem filesFold_skip_all (cfg : Config) (fs : FileSys) (now : Nat) (fid : Nat)
    (C0 : List ComicRow) (M0 : List MetaRow) (T0 : List Nat)
    (hnd : (fs.files.map Prod.fst).Nodup) :
    ∀ (files : List (FPath × FileInfo)),
      (∀ q ∈ files, q ∈ fs.files ∧ SkipReady cfg C0 M0 q) →
      ∀ a : ScanAcc, a.world.db.comics = C0 → a.world.db.metas = M0 →
        a.world.thumbDisk = T0 →
        (files.foldl (scanFileStep cfg fs now fid false) a).world.db.comics = C0 ∧
        (files.foldl (scanFileStep cfg fs now fid false) a).world.db.metas = M0 ∧
        (files.foldl (scanFileStep cfg fs now fid false) a).world.thumbDisk = T0 := by
  intro files
  induction files with
  | nil => intro _ a h1 h2 h3; exact ⟨h1, h2, h3⟩
  | cons q qs ih =>
    intro hq a h1 h2 h3
    obtain ⟨hmem, hstat, c, hc, hmt, hmeta⟩ := hq q (List.mem_cons_self q qs)
    have hinfo : lookupFile fs q.1 = some q.2 := lookupFile_of_mem hnd hmem
    have hcur : get_comic_by_path cfg.library_root q.1 a.world.db = some c := by
      have h0 : get_comic_by_path cfg.library_root q.1 a.world.db =
          a.world.db.comics.find? (fun x => x.path == to_relative q.1 cfg.library_root) := rfl
      rw [h0, h1, hc]
    have hmeta2 : hasMetadata a.world.db c.id = true := by
      have h0 : hasMetadata a.world.db c.id = M0.any (fun m => m.comic_id == c.id) := by
        simp [hasMetadata, h2]
      rw [h0, hmeta]
    have hsk : _should_skip_comic
        (hasMetaOf a.world.db (get_comic_by_path cfg.library_root q.1 a.world.db))
        (get_comic_by_path cfg.library_root q.1 a.world.db) q.2.mtime false = true := by
      rw [should_skip_iff]
      exact ⟨c, hcur, hmt, by simp [hasMetaOf, hcur, hmeta2], rfl⟩
    have hstep : (scanFileStep cfg fs now fid false a q).world = a.world := by
      unfold scanFileStep
      rw [pc_skip hinfo hstat hsk]
    rw [List.foldl_cons]
    exact ih (fun r hr => hq r (List.mem_cons_of_mem q hr)) _
      (by rw [hstep, h1]) (by rw [hstep, h2]) (by rw [hstep, h3])

theorem dirsFold_skip_all (cfg : Config) (fs : FileSys) (now : Nat)
    (C0 : List ComicRow) (M0 : List MetaRow) (T0 : List Nat)
    (hnd : (fs.files.map Prod.fst).Nodup) :
    ∀ (dirs : List FPath),
      (∀ d ∈ dirs, ∀ q ∈ filesOfDir cfg fs d, SkipReady cfg C0 M0 q) →
      ∀ a : ScanAcc, a.world.db.comics = C0 → a.world.db.metas = M0 →
        a.world.thumbDisk = T0 →
        (dirs.foldl (processDir cfg fs false now) a).world.db.comics = C0 ∧
        (dirs.foldl (processDir cfg fs false now) a).world.db.metas = M0 ∧
        (dirs.foldl (processDir cfg fs false now) a).world.thumbDisk = T0 := by
  intro dirs
  induction dirs with
  | nil => intro _ a h1 h2 h3; exact ⟨h1, h2, h3⟩
  | cons d ds ih =>
    intro hd a h1 h2 h3
    have hframe := get_or_create_folder_frame cfg.library_root d a.world.db
    have hfiles : ∀ q ∈ filesOfDir cfg fs d, q ∈ fs.files ∧ SkipReady cfg C0 M0 q :=
      fun q hq => ⟨List.mem_of_mem_filter hq, hd d (List.mem_cons_self d ds) q hq⟩
    have hinner := filesFold_skip_all cfg fs now
      (get_or_create_folder cfg.library_root d a.world.db).2 C0 M0 T0 hnd
      (filesOfDir cfg fs d) hfiles
      { world := { a.world with db := (get_or_create_folder cfg.library_root d a.world.db).1 },
        stats := a.stats, processed := a.processed }
      (by rw [show ({ a.world with db := (get_or_create_folder cfg.library_root d a.world.db).1 } : World).db.comics = ((get_or_create_folder cfg.library_root d a.world.db).1).comics from rfl, hframe.1, h1])
      (by rw [show ({ a.world with db := (get_or_create_folder cfg.library_root d a.world.db).1 } : World).db.metas = ((get_or_create_folder cfg.library_root d a.world.db).1).metas from rfl, hframe.2, h2])
      (by exact h3)
    rw [List.foldl_cons]
    exact ih (fun d2 hd2 q hq => hd d2 (List.mem_cons_of_mem d hd2) q hq) _
      hinner.1 hinner.2.1 hinner.2.2

theorem deletionFold_noop (cfg : Config) (fs : FileSys) (processed : List FPath) :
    ∀ (snapshot : List ComicRow),
      (∀ c ∈ snapshot, fileExists fs (to_absolute c.path cfg.library_root) = true) →
      ∀ acc : World × Stats,
        snapshot.foldl (deletionStep cfg fs processed) acc = acc := by
  intro snapshot
  induction snapshot with
  | nil => intro _ acc; rfl
  | cons c cs ih =>
    intro h acc
    have hx := h c (List.mem_cons_self c cs)
    have hstep : deletionStep cfg fs processed acc c = acc := by
      simp [deletionStep, hx]
    rw [List.foldl_cons, hstep]
    exact ih (fun x hx2 => h x (List.mem_cons_of_mem c hx2)) acc

theorem folderFold_frame (cfg : Config) (fs : FileSys) :
    ∀ (fsnap : List FolderRow) (w : World),
      (fsnap.foldl (folderStep cfg fs) w).db.comics = w.db.comics ∧
      (fsnap.foldl (folderStep cfg fs) w).db.metas = w.db.metas ∧
      (fsnap.foldl (folderStep cfg fs) w).thumbDisk = w.thumbDisk := by
  intro fsnap
  induction fsnap with
  | nil => intro w; exact ⟨rfl, rfl, rfl⟩
  | cons f fsrest ih =>
    intro w
    have hstep : (folderStep cfg fs w f).db.comics = w.db.comics ∧
        (folderStep cfg fs w f).db.metas = w.db.metas ∧
        (folderStep cfg fs w f).thumbDisk = w.thumbDisk := by
      unfold folderStep delete_folder_by_path
      dsimp only
      split <;> exact ⟨rfl, rfl, rfl⟩
    obtain ⟨ha, hb, hc⟩ := ih (folderStep cfg fs w f)
    rw [List.foldl_cons]
    exact ⟨ha.trans hstep.1, hb.trans hstep.2.1, hc.trans hstep.2.2⟩

/-- C3: re-scanning an unchanged subtree without forcing leaves every comic
row, every metadata row, and every thumbnail file exactly as it was: all
stored item fields, the last-synced timestamp included, are identical before
and after the scan, which implies the claimed zero-mutations-beyond-timestamps
property. -/
theorem c3_unchanged_rescan (cfg : Config) (fs : FileSys) (base : FPath)
    (now : Nat) (w : World)
    (hnd : (fs.files.map Prod.fst).Nodup)
    (hbase : fs.dirs.contains base = true)
    (H1 : ∀ d ∈ walkDirs cfg fs base, ∀ q ∈ filesOfDir cfg fs d,
      q.2.statOk = true ∧
        ∃ c, w.db.comics.find?
            (fun x => x.path == to_relative q.1 cfg.library_root) = some c ∧
          c.file_modified_at = q.2.mtime ∧ hasMetadata w.db c.id = true)
    (H2 : ∀ c ∈ w.db.comics, comicUnderBase cfg base c.path = true →
      fileExists fs (to_absolute c.path cfg.library_root) = true) :
    ∃ r, scan_library cfg fs base false now w = some r ∧
      r.1.db.comics = w.db.comics ∧ r.1.db.metas = w.db.metas ∧
      r.1.thumbDisk = w.thumbDisk := by
  have hguard : (!(fs.dirs.contains base)) = false := by rw [hbase]; rfl
  obtain ⟨hC, hM, hT⟩ := dirsFold_skip_all cfg fs now w.db.comics w.db.metas
    w.thumbDisk hnd (walkDirs cfg fs base)
    (fun d hd q hq => H1 d hd q hq) ⟨w, {}, []⟩ rfl rfl rfl
  unfold scan_library
  rw [hguard]
  simp only [Bool.false_eq_true, if_false]
  refine ⟨_, rfl, ?_⟩
  set A := (walkDirs cfg fs base).foldl (processDir cfg fs false now) ⟨w, {}, []⟩ with hA
  have hsnapmem : ∀ c ∈ A.world.db.comics.filter
      (fun c => comicUnderBase cfg base c.path),
      fileExists fs (to_absolute c.path cfg.library_root) = true := by
    intro c hcf
    rw [hC] at hcf
    obtain ⟨hm1, hm2⟩ := List.mem_filter.mp hcf
    exact H2 c hm1 hm2
  rw [deletionFold_noop cfg fs A.processed _ hsnapmem (A.world, A.stats)]
  obtain ⟨f1, f2, f3⟩ := folderFold_frame cfg fs
    (A.world.db.folders.filter fun f => folderUnderBase cfg base f.path) A.world
  exact ⟨f1.trans hC, f2.trans hM, f3.trans hT⟩


/-- Witness for c3_unchanged_rescan: re-scanning a one-file unchanged library
leaves the tables untouched. -/
theorem c3_unchanged_rescan_witness :
    (fsC3.files.map Prod.fst).Nodup ∧
    fsC3.dirs.contains ["lib"] = true ∧
    (∀ d ∈ walkDirs cfgC3 fsC3 ["lib"], ∀ q ∈ filesOfDir cfgC3 fsC3 d,
      q.2.statOk = true ∧
        ∃ c, wC3.db.comics.find?
            (fun x => x.path == to_relative q.1 cfgC3.library_root) = some c ∧
          c.file_modified_at = q.2.mtime ∧ hasMetadata wC3.db c.id = true) ∧
    (∀ c ∈ wC3.db.comics, comicUnderBase cfgC3 ["lib"] c.path = true →
      fileExists fsC3 (to_absolute c.path cfgC3.library_root) = true) ∧
    (∃ r, scan_library cfgC3 fsC3 ["lib"] false 9 wC3 = some r ∧
      r.1.db.comics = wC3.db.comics ∧ r.1.db.metas = wC3.db.metas ∧
      r.1.thumbDisk = wC3.thumbDisk) := by
  have h1 : ∀ d ∈ walkDirs cfgC3 fsC3 ["lib"], ∀ q ∈ filesOfDir cfgC3 fsC3 d,
      q.2.statOk = true ∧
        ∃ c, wC3.db.comics.find?
            (fun x => x.path == to_relative q.1 cfgC3.library_root) = some c ∧
          c.file_modified_at = q.2.mtime ∧ hasMetadata wC3.db c.id = true := by
    intro d hd q hq
    have hwd : walkDirs cfgC3 fsC3 ["lib"] = [["lib"]] := by decide
    rw [hwd] at hd
    have hd2 : d = ["lib"] := by simpa using hd
    subst hd2
    have hf : filesOfDir cfgC3 fsC3 ["lib"] = [(["lib", "a.cbz"], infoC3)] := by decide
    rw [hf] at hq
    have hq2 : q = (["lib", "a.cbz"], infoC3) := by simpa using hq
    subst hq2
    exact ⟨by decide, rowC3, by decide, by decide, by decide⟩
  have h2 : ∀ c ∈ wC3.db.comics, comicUnderBase cfgC3 ["lib"] c.path = true →
      fileExists fsC3 (to_absolute c.path cfgC3.library_root) = true := by
    intro c hc hu
    have hc2 : c = rowC3 := by
      have hl : wC3.db.comics = [rowC3] := rfl
      rw [hl] at hc
      simpa using hc
    subst hc2
    decide
  exact ⟨by decide, by decide, h1, h2,
    c3_unchanged_rescan cfgC3 fsC3 ["lib"] 9 wC3 (by decide) (by decide) h1 h2⟩


/-! ## Claim C9 -/

theorem countP_congr_eq {α : Type} {p q : α → Bool} {l : List α}
    (h : ∀ a ∈ l, p a = q a) : l.countP p = l.countP q := by
  induction l with
  | nil => rfl
  | cons a as ih =>
    rw [List.countP_cons, List.countP_cons, h a (List.mem_cons_self a as),
      ih (fun x hx => h x (List.mem_cons_of_mem a hx))]

theorem mem_updateFirst {α : Type} {pred : α → Bool} {g : α → α} {l : List α} {x : α}
    (hx : x ∈ updateFirst pred g l) :
    x ∈ l ∨ ∃ y ∈ l, pred y = true ∧ x = g y := by
  induction l with
  | nil => cases hx
  | cons a as ih =>
    unfold updateFirst at hx
    by_cases ha : pred a = true
    · rw [if_pos ha] at hx
      rcases List.mem_cons.mp hx with heq | htail
      · exact Or.inr ⟨a, List.mem_cons_self a as, ha, heq⟩
      · exact Or.inl (List.mem_cons_of_mem a htail)
    · rw [if_neg ha] at hx
      rcases List.mem_cons.mp hx with heq | htail
      · exact Or.inl (heq ▸ List.mem_cons_self a as)
      · rcases ih htail with h | ⟨y, hy, hp, hgy⟩
        · exact Or.inl (List.mem_cons_of_mem a h)
        · exact Or.inr ⟨y, List.mem_cons_of_mem a hy, hp, hgy⟩

theorem updateFirst_mem_of_find? {α : Type} {pred : α → Bool} (g : α → α)
    {l : List α} {x : α} (hx : l.find? pred = some x) :
    g x ∈ updateFirst pred g l := by
  induction l with
  | nil => simp at hx
  | cons a as ih =>
    by_cases ha : pred a = true
    · rw [List.find?_cons_of_pos _ ha] at hx
      cases hx
      unfold updateFirst
      rw [if_pos ha]
      exact List.mem_cons_self _ _
    · rw [List.find?_cons_of_neg _ ha] at hx
      unfold updateFirst
      rw [if_neg ha]
      exact List.mem_cons_of_mem a (ih hx)

theorem mem_updateFirst_of_pred_false {α : Type} {pred : α → Bool} (g : α → α)
    {l : List α} {x : α} (hx : x ∈ l) (hp : pred x = false) :
    x ∈ updateFirst pred g l := by
  induction l with
  | nil => cases hx
  | cons a as ih =>
    unfold updateFirst
    by_cases ha : pred a = true
    · rw [if_pos ha]
      rcases List.mem_cons.mp hx with heq | htail
      · rw [heq] at hp
        rw [ha] at hp
        cases hp
      · exact List.mem_cons_of_mem _ htail
    · rw [if_neg ha]
      rcases List.mem_cons.mp hx with heq | htail
      · exact heq ▸ List.mem_cons_self _ _
      · exact List.mem_cons_of_mem _ (ih htail)

theorem countP_updateFirst_congr {α : Type} {pred : α → Bool} {g : α → α}
    {p : α → Bool} {l : List α}
    (h : ∀ y ∈ l, pred y = true → p y = p (g y)) :
    (updateFirst pred g l).countP p = l.countP p := by
  induction l with
  | nil => rfl
  | cons a as ih =>
    unfold updateFirst
    by_cases ha : pred a = true
    · rw [if_pos ha]
      rw [List.countP_cons, List.countP_cons,
        ← h a (List.mem_cons_self a as) ha]
    · rw [if_neg ha]
      rw [List.countP_cons, List.countP_cons,
        ih (fun y hy hp => h y (List.mem_cons_of_mem a hy) hp)]

theorem find?_updateFirst_untouched {α : Type} {pred pred2 : α → Bool} {g : α → α}
    {l : List α}
    (h : ∀ x ∈ l, pred2 x = true → (pred x = false ∧ pred (g x) = false)) :
    (updateFirst pred2 g l).find? pred = l.find? pred := by
  induction l with
  | nil => rfl
  | cons a as ih =>
    unfold updateFirst
    by_cases ha : pred2 a = true
    · rw [if_pos ha]
      obtain ⟨h1, h2⟩ := h a (List.mem_cons_self a as) ha
      rw [List.find?_cons_of_neg _ (by simp [h2]), List.find?_cons_of_neg _ (by simp [h1])]
    · rw [if_neg ha]
      by_cases hpa : pred a = true
      · rw [List.find?_cons_of_pos _ hpa, List.find?_cons_of_pos _ hpa]
      · rw [List.find?_cons_of_neg _ hpa, List.find?_cons_of_neg _ hpa]
        exact ih (fun x hx hp => h x (List.mem_cons_of_mem a hx) hp)

theorem isStrictUnder_self (a : FPath) : isStrictUnder a a = false := by
  simp [isStrictUnder]

theorem isStrictUnder_append {a t : FPath} (ht : t ≠ []) :
    isStrictUnder a (a ++ t) = true := by
  have h1 : isPre a (a ++ t) = true := isPre_append a t
  have h2 : a ++ t ≠ a := by
    intro h
    apply ht
    have hlen := congrArg List.length h
    simp at hlen
    simpa using hlen
  simp [isStrictUnder, h1, h2]

theorem isStrictUnder_iff {a b : FPath} :
    isStrictUnder a b = true ↔ ∃ t, t ≠ [] ∧ b = a ++ t := by
  constructor
  · intro h
    simp only [isStrictUnder, Bool.and_eq_true, Bool.not_eq_true', beq_eq_false_iff_ne] at h
    obtain ⟨t, rfl⟩ := (isPre_iff _ _).mp h.1
    refine ⟨t, ?_, rfl⟩
    intro ht
    subst ht
    simp at h
  · rintro ⟨t, ht, rfl⟩
    exact isStrictUnder_append ht

theorem isStrictUnder_of_isPre_false {a b : FPath} (h : isPre a b = false) :
    isStrictUnder a b = false := by
  simp [isStrictUnder, h]

theorem isStrictUnder_drop_ne {a b : FPath} (h : isStrictUnder a b = true) :
    b.drop a.length ≠ [] ∧ b = a ++ b.drop a.length := by
  obtain ⟨t, ht, rfl⟩ := isStrictUnder_iff.mp h
  constructor
  · simpa using ht
  · simp

/-- C9: moving a folder through Repository.update_folder_path followed by
Repository.update_comic_paths rewrites the folder row path, name and parent
reference, rewrites every descendant folder and comic row by the same
old-to-new prefix substitution, preserves the count of descendant folders and
of descendant comics, and leaves comics outside the moved subtree untouched,
all within the single commit of move_path. -/
theorem c9_folder_move (root old_path new_path : FPath) (db : DB) (f0 : FolderRow)
    (hro : isPre root old_path = true) (hrn : isPre root new_path = true)
    (hold : old_path ≠ root) (hnew : new_path ≠ root)
    (hsep : isPre (to_relative old_path root) (to_relative new_path root) = false)
    (hfound : db.folders.find?
      (fun f => f.path == to_relative old_path root) = some f0)
    (hfreshF : ∀ f ∈ db.folders, isPre (to_relative new_path root) f.path = false)
    (hfreshC : ∀ c ∈ db.comics, isPre (to_relative new_path root) c.path = false) :
    ({ f0 with
        path := to_relative new_path root, name := folderName new_path,
        parent_id := (db.folders.find?
          (fun f => f.path == to_relative new_path.dropLast root)).map (·.id) } : FolderRow) ∈
      (moveFolderInDb root old_path new_path db).folders ∧
    ((moveFolderInDb root old_path new_path db).folders.filter
        (fun f => isStrictUnder (to_relative new_path root) f.path)).length =
      (db.folders.filter
        (fun f => isStrictUnder (to_relative old_path root) f.path)).length ∧
    ((moveFolderInDb root old_path new_path db).comics.filter
        (fun c => isStrictUnder (to_relative new_path root) c.path)).length =
      (db.comics.filter
        (fun c => isStrictUnder (to_relative old_path root) c.path)).length ∧
    (∀ f ∈ db.folders, isStrictUnder (to_relative old_path root) f.path = true →
      ({ f with path := to_relative new_path root ++
          f.path.drop (to_relative old_path root).length } : FolderRow) ∈
        (moveFolderInDb root old_path new_path db).folders) ∧
    (∀ c ∈ db.comics, isStrictUnder (to_relative old_path root) c.path = true →
      ({ c with path := to_relative new_path root ++
          c.path.drop (to_relative old_path root).length } : ComicRow) ∈
        (moveFolderInDb root old_path new_path db).comics) ∧
    (∀ c ∈ db.comics, isStrictUnder (to_relative old_path root) c.path = false →
      c ∈ (moveFolderInDb root old_path new_path db).comics) := by
  classical
  set oldRel := to_relative old_path root with holdRel
  set newRel := to_relative new_path root with hnewRel
  set newParentRel := to_relative new_path.dropLast root with hparRel
  -- basic path facts
  obtain ⟨t, htne, hteq⟩ : ∃ t, t ≠ [] ∧ new_path = root ++ t := by
    obtain ⟨t, ht⟩ := (isPre_iff _ _).mp hrn
    refine ⟨t, ?_, ht⟩
    intro h0
    exact hnew (by simp [ht, h0])
  have hnewRelt : newRel = t := by
    rw [hnewRel, hteq, to_relative]
    simp [isPre_append]
  have hparRelt : newParentRel = t.dropLast := by
    rw [hparRel, hteq, List.dropLast_append_of_ne_nil _ htne, to_relative]
    simp [isPre_append]
  have hparent_ne_new : newParentRel ≠ newRel := by
    rw [hparRelt, hnewRelt]
    intro h0
    have := congrArg List.length h0
    rw [List.length_dropLast] at this
    cases t with
    | nil => exact htne rfl
    | cons x xs => simp at this
  have hold_ne_parent : oldRel ≠ newParentRel := by
    intro h0
    have hpre : isPre oldRel newRel = true := by
      rw [h0, hparRelt, hnewRelt]
      rw [isPre_iff]
      exact ⟨[t.getLast htne], (List.dropLast_append_getLast htne).symm⟩
    rw [hpre] at hsep
    cases hsep
  -- unfold the move
  have hupd : update_folder_path root old_path new_path db =
      ({ db with
          folders :=
            (updateFirst (fun f => f.path == oldRel)
              (fun f =>
                { f with
                  path := newRel, name := folderName new_path,
                  parent_id := ((updateFirst (fun f => f.path == oldRel)
                    (fun f =>
                      { f with path := newRel, name := folderName new_path })
                    db.folders).find? (fun f => f.path == newParentRel)).map (·.id) })
              db.folders).map (fun f =>
                if isStrictUnder oldRel f.path then
                  { f with path := newRel ++ f.path.drop oldRel.length }
                else f) }, true) := by
    unfold update_folder_path
    dsimp only
    rw [← holdRel, ← hnewRel, ← hparRel, hfound]
  have hparent_same : (updateFirst (fun f => f.path == oldRel)
      (fun f => { f with path := newRel, name := folderName new_path })
      db.folders).find? (fun f => f.path == newParentRel) =
      db.folders.find? (fun f => f.path == newParentRel) := by
    apply find?_updateFirst_untouched
    intro x _ hx
    have hxp : x.path = oldRel := by simpa using hx
    constructor
    · simp [hxp]
      exact hold_ne_parent
    · simpa using fun h0 => hparent_ne_new h0.symm
  have hdbF : (moveFolderInDb root old_path new_path db).folders =
      (updateFirst (fun f => f.path == oldRel)
        (fun f =>
        { f with
          path := newRel, name := folderName new_path,
          parent_id := (db.folders.find? (fun f => f.path == newParentRel)).map (·.id) })
        db.folders).map (fun f =>
          if isStrictUnder oldRel f.path then
            { f with path := newRel ++ f.path.drop oldRel.length }
          else f) := by
    unfold moveFolderInDb update_comic_paths
    rw [hupd]
    simp only []
    rw [hparent_same]
  have hdbC : (moveFolderInDb root old_path new_path db).comics =
      db.comics.map (fun c =>
        if isStrictUnder oldRel c.path then
          { c with path := newRel ++ c.path.drop oldRel.length }
        else c) := by
    unfold moveFolderInDb update_comic_paths
    rw [hupd]
  refine ⟨?_, ?_, ?_, ?_, ?_, ?_⟩
  · -- the moved folder row
    rw [hdbF]
    have hmem := updateFirst_mem_of_find?
      (fun f =>
        { f with
          path := newRel, name := folderName new_path,
          parent_id := (db.folders.find? (fun f => f.path == newParentRel)).map (·.id) })
      hfound
    have himg := List.mem_map_of_mem (fun f =>
      if isStrictUnder oldRel f.path then
        { f with path := newRel ++ f.path.drop oldRel.length }
      else f) hmem
    have hnostrict : isStrictUnder oldRel newRel = false :=
      isStrictUnder_of_isPre_false hsep
    simpa [hnostrict] using himg
  · -- folder descendant count
    rw [hdbF, ← List.countP_eq_length_filter, ← List.countP_eq_length_filter,
      List.countP_map]
    have hstep1 : ∀ f ∈ (updateFirst (fun f => f.path == oldRel)
        (fun f =>
        { f with
          path := newRel, name := folderName new_path,
          parent_id := (db.folders.find? (fun f => f.path == newParentRel)).map (·.id) })
        db.folders),
        ((fun x => isStrictUnder newRel x.path) ∘ (fun f =>
          if isStrictUnder oldRel f.path then
            { f with path := newRel ++ f.path.drop oldRel.length }
          else f)) f = isStrictUnder oldRel f.path := by
      intro f hf
      by_cases hsu : isStrictUnder oldRel f.path = true
      · obtain ⟨hne, -⟩ := isStrictUnder_drop_ne hsu
        simp only [Function.comp_apply]
        rw [if_pos hsu]
        dsimp only
        rw [isStrictUnder_append hne, hsu]
      · have hsu2 : isStrictUnder oldRel f.path = false := by simpa using hsu
        simp only [Function.comp_apply]
        rw [if_neg hsu]
        rcases mem_updateFirst hf with horig | ⟨y, hy, hp, hgy⟩
        · rw [hsu2]
          exact isStrictUnder_of_isPre_false (hfreshF f horig)
        · rw [hsu2, hgy]
          exact isStrictUnder_self newRel
    rw [countP_congr_eq hstep1]
    apply countP_updateFirst_congr
    intro y _ hy
    have hyp : y.path = oldRel := by simpa using hy
    dsimp only
    rw [hyp, isStrictUnder_self, isStrictUnder_of_isPre_false hsep]
  · -- comic descendant count
    rw [hdbC, ← List.countP_eq_length_filter, ← List.countP_eq_length_filter,
      List.countP_map]
    apply countP_congr_eq
    intro c hc
    by_cases hsu : isStrictUnder oldRel c.path = true
    · obtain ⟨hne, -⟩ := isStrictUnder_drop_ne hsu
      simp only [Function.comp_apply]
      rw [if_pos hsu]
      dsimp only
      rw [isStrictUnder_append hne, hsu]
    · have hsu2 : isStrictUnder oldRel c.path = false := by simpa using hsu
      simp only [Function.comp_apply]
      rw [if_neg hsu, hsu2]
      exact isStrictUnder_of_isPre_false (hfreshC c hc)
  · -- folder descendants rewritten
    intro f hf hsu
    rw [hdbF]
    have hne : f.path ≠ oldRel := by
      intro h0
      rw [h0, isStrictUnder_self] at hsu
      cases hsu
    have hpredf : (f.path == oldRel) = false := by simp [hne]
    have hmem := @mem_updateFirst_of_pred_false FolderRow
      (fun r => r.path == oldRel)
      (fun f =>
        { f with
          path := newRel, name := folderName new_path,
          parent_id := (db.folders.find? (fun f => f.path == newParentRel)).map (·.id) })
      db.folders f hf hpredf
    have himg := List.mem_map_of_mem (fun f =>
      if isStrictUnder oldRel f.path then
        { f with path := newRel ++ f.path.drop oldRel.length }
      else f) hmem
    simpa [hsu] using himg
  · -- comic descendants rewritten
    intro c hc hsu
    rw [hdbC]
    have himg := List.mem_map_of_mem (fun c =>
      if isStrictUnder oldRel c.path then
        { c with path := newRel ++ c.path.drop oldRel.length }
      else c) hc
    simpa [hsu] using himg
  · -- comics outside the subtree untouched
    intro c hc hsu
    rw [hdbC]
    have himg := List.mem_map_of_mem (fun c =>
      if isStrictUnder oldRel c.path then
        { c with path := newRel ++ c.path.drop oldRel.length }
      else c) hc
    simpa [hsu] using himg


/-- Witness for c9_folder_move: moving lib/a to lib/b in a concrete database. -/
theorem c9_folder_move_witness :
    isPre ["lib"] ["lib", "a"] = true ∧ isPre ["lib"] ["lib", "b"] = true ∧
    (["lib", "a"] : FPath) ≠ ["lib"] ∧ (["lib", "b"] : FPath) ≠ ["lib"] ∧
    isPre (to_relative ["lib", "a"] ["lib"]) (to_relative ["lib", "b"] ["lib"]) = false ∧
    dbC9.folders.find? (fun f => f.path == to_relative ["lib", "a"] ["lib"]) = some f0C9 ∧
    (∀ f ∈ dbC9.folders, isPre (to_relative ["lib", "b"] ["lib"]) f.path = false) ∧
    (∀ c ∈ dbC9.comics, isPre (to_relative ["lib", "b"] ["lib"]) c.path = false) ∧
    (({ f0C9 with
        path := to_relative ["lib", "b"] ["lib"], name := folderName ["lib", "b"],
        parent_id := (dbC9.folders.find?
          (fun f => f.path == to_relative (["lib", "b"] : FPath).dropLast ["lib"])).map (·.id) } : FolderRow) ∈
      (moveFolderInDb ["lib"] ["lib", "a"] ["lib", "b"] dbC9).folders ∧
    ((moveFolderInDb ["lib"] ["lib", "a"] ["lib", "b"] dbC9).folders.filter
        (fun f => isStrictUnder (to_relative ["lib", "b"] ["lib"]) f.path)).length =
      (dbC9.folders.filter
        (fun f => isStrictUnder (to_relative ["lib", "a"] ["lib"]) f.path)).length ∧
    ((moveFolderInDb ["lib"] ["lib", "a"] ["lib", "b"] dbC9).comics.filter
        (fun c => isStrictUnder (to_relative ["lib", "b"] ["lib"]) c.path)).length =
      (dbC9.comics.filter
        (fun c => isStrictUnder (to_relative ["lib", "a"] ["lib"]) c.path)).length ∧
    (∀ f ∈ dbC9.folders, isStrictUnder (to_relative ["lib", "a"] ["lib"]) f.path = true →
      ({ f with path := to_relative ["lib", "b"] ["lib"] ++
          f.path.drop (to_relative ["lib", "a"] ["lib"]).length } : FolderRow) ∈
        (moveFolderInDb ["lib"] ["lib", "a"] ["lib", "b"] dbC9).folders) ∧
    (∀ c ∈ dbC9.comics, isStrictUnder (to_relative ["lib", "a"] ["lib"]) c.path = true →
      ({ c with path := to_relative ["lib", "b"] ["lib"] ++
          c.path.drop (to_relative ["lib", "a"] ["lib"]).length } : ComicRow) ∈
        (moveFolderInDb ["lib"] ["lib", "a"] ["lib", "b"] dbC9).comics) ∧
    (∀ c ∈ dbC9.comics, isStrictUnder (to_relative ["lib", "a"] ["lib"]) c.path = false →
      c ∈ (moveFolderInDb ["lib"] ["lib", "a"] ["lib", "b"] dbC9).comics)) :=
  ⟨by decide, by decide, by decide, by decide, by decide, by decide, by decide, by decide,
    c9_folder_move ["lib"] ["lib", "a"] ["lib", "b"] dbC9 f0C9
      (by decide) (by decide) (by decide) (by decide) (by decide) (by decide)
      (by decide) (by decide)⟩


/-! ## Claim C5: order and pruning lemmas -/

theorem charsLt_irrefl (l : List Char) : charsLt l l = false := by
  induction l with
  | nil => rfl
  | cons a as ih => simp [charsLt, ih]

theorem charsLt_asymm : ∀ {a b : List Char}, charsLt a b = true → charsLt b a = false
  | [], [], h => by simp [charsLt] at h
  | [], _ :: _, _ => rfl
  | _ :: _, [], h => by simp [charsLt] at h
  | a :: as, b :: bs, h => by
    by_cases h1 : a.toNat < b.toNat
    · have h2 : ¬ b.toNat < a.toNat := by omega
      simp [charsLt, h1, h2]
    · by_cases h2 : b.toNat < a.toNat
      · simp [charsLt, h1, h2] at h
      · simp only [charsLt, if_neg h1, if_neg h2] at h
        simp only [charsLt, if_neg h1, if_neg h2]
        exact charsLt_asymm h

theorem charsLt_conn : ∀ {z x : List Char} (y : List Char),
    charsLt z x = true → charsLt z y = true ∨ charsLt y x = true
  | [], [], _, h => by simp [charsLt] at h
  | [], _ :: _, [], _ => Or.inr rfl
  | [], _ :: _, _ :: _, _ => Or.inl rfl
  | _ :: _, [], _, h => by simp [charsLt] at h
  | c :: cs, a :: as, [], h => Or.inr rfl
  | c :: cs, a :: as, b :: bs, h => by
    by_cases hca : c.toNat < a.toNat
    · by_cases hcb : c.toNat < b.toNat
      · exact Or.inl (by simp [charsLt, hcb])
      · by_cases hbc : b.toNat < c.toNat
        · have hba : b.toNat < a.toNat := by omega
          exact Or.inr (by simp [charsLt, hba])
        · have hba : b.toNat < a.toNat := by omega
          exact Or.inr (by simp [charsLt, hba])
    · by_cases hac : a.toNat < c.toNat
      · simp [charsLt, hca, hac] at h
      · simp only [charsLt, if_neg hca, if_neg hac] at h
        by_cases hcb : c.toNat < b.toNat
        · exact Or.inl (by simp [charsLt, hcb])
        · by_cases hbc : b.toNat < c.toNat
          · have hba : b.toNat < a.toNat := by omega
            exact Or.inr (by simp [charsLt, hba])
          · rcases charsLt_conn bs h with h1 | h1
            · exact Or.inl (by simp [charsLt, hcb, hbc, h1])
            · have hab : ¬ b.toNat < a.toNat := by omega
              have hba : ¬ a.toNat < b.toNat := by omega
              exact Or.inr (by simp [charsLt, hab, hba, h1])

theorem charsLt_le_trans {x y z : List Char} (h1 : charsLt z y = false)
    (h2 : charsLt y x = false) : charsLt z x = false := by
  by_cases h : charsLt z x = true
  · rcases charsLt_conn y h with hc | hc
    · rw [hc] at h1; cases h1
    · rw [hc] at h2; cases h2
  · simpa using h

theorem charsLt_append : ∀ (l : List Char) {r : List Char}, r ≠ [] →
    charsLt l (l ++ r) = true
  | [], r, hr => by
    cases r with
    | nil => exact absurd rfl hr
    | cons c cs => rfl
  | a :: as, r, hr => by
    simp only [List.cons_append, charsLt, lt_irrefl, if_neg, if_false]
    simpa using charsLt_append as hr

theorem pathChars_append (q t : FPath) (hq : q ≠ []) (ht : t ≠ []) :
    pathChars (q ++ t) = pathChars q ++ '/' :: pathChars t := by
  induction q with
  | nil => exact absurd rfl hq
  | cons c q2 ih =>
    cases q2 with
    | nil =>
      cases t with
      | nil => exact absurd rfl ht
      | cons u us => simp [pathChars]
    | cons d q3 =>
      have hih := ih (by simp)
      show c.toList ++ '/' :: pathChars (d :: q3 ++ t) =
        (c.toList ++ '/' :: pathChars (d :: q3)) ++ '/' :: pathChars t
      rw [hih]
      simp

theorem pathChars_strict_lt {q p : FPath} (hq : q ≠ [])
    (h : isStrictUnder q p = true) :
    charsLt (pathChars q) (pathChars p) = true := by
  obtain ⟨t, ht, rfl⟩ := isStrictUnder_iff.mp h
  rw [pathChars_append q t hq ht]
  exact charsLt_append _ (by simp)

theorem mem_insertByKey {α : Type} (key : α → List Char) (x : α) :
    ∀ (l : List α) (a : α), a ∈ insertByKey key x l ↔ a = x ∨ a ∈ l := by
  intro l
  induction l with
  | nil => intro a; simp [insertByKey]
  | cons y ys ih =>
    intro a
    unfold insertByKey
    by_cases hc : charsLt (key y) (key x) = true
    · rw [if_pos hc]
      rw [List.mem_cons, ih a, List.mem_cons]
      tauto
    · rw [if_neg hc]
      simp only [List.mem_cons]

theorem insertByKey_perm {α : Type} (key : α → List Char) (x : α) :
    ∀ (l : List α), List.Perm (insertByKey key x l) (x :: l) := by
  intro l
  induction l with
  | nil => exact List.Perm.refl _
  | cons y ys ih =>
    unfold insertByKey
    by_cases hc : charsLt (key y) (key x) = true
    · rw [if_pos hc]
      exact (List.Perm.cons y ih).trans (List.Perm.swap x y ys)
    · rw [if_neg hc]

theorem sortByKey_perm {α : Type} (key : α → List Char) (l : List α) :
    List.Perm (sortByKey key l) l := by
  induction l with
  | nil => exact List.Perm.refl _
  | cons y ys ih =>
    unfold sortByKey
    rw [List.foldr_cons]
    exact (insertByKey_perm key y _).trans (List.Perm.cons y ih)

theorem mem_sortByKey {α : Type} (key : α → List Char) (l : List α) (a : α) :
    a ∈ sortByKey key l ↔ a ∈ l :=
  (sortByKey_perm key l).mem_iff

theorem pairwise_insertByKey {α : Type} (key : α → List Char) (x : α) :
    ∀ {l : List α},
      l.Pairwise (fun u v => charsLt (key v) (key u) = false) →
      (insertByKey key x l).Pairwise (fun u v => charsLt (key v) (key u) = false) := by
  intro l
  induction l with
  | nil => intro _; simp [insertByKey]
  | cons y ys ih =>
    intro h
    rw [List.pairwise_cons] at h
    unfold insertByKey
    by_cases hc : charsLt (key y) (key x) = true
    · rw [if_pos hc]
      rw [List.pairwise_cons]
      constructor
      · intro a ha
        rcases (mem_insertByKey key x ys a).mp ha with rfl | hmem
        · exact charsLt_asymm hc
        · exact h.1 a hmem
      · exact ih h.2
    · rw [if_neg hc]
      rw [List.pairwise_cons]
      constructor
      · intro a ha
        rcases List.mem_cons.mp ha with rfl | hmem
        · simpa using hc
        · exact charsLt_le_trans (h.1 a hmem) (by simpa using hc)
      · exact List.pairwise_cons.mpr h
  
theorem sortByKey_pairwise {α : Type} (key : α → List Char) (l : List α) :
    (sortByKey key l).Pairwise (fun u v => charsLt (key v) (key u) = false) := by
  induction l with
  | nil => simp [sortByKey]
  | cons y ys ih =>
    unfold sortByKey
    rw [List.foldr_cons]
    exact pairwise_insertByKey key y ih

theorem exists_min_length {l : List FPath} (h : l ≠ []) :
    ∃ x ∈ l, ∀ y ∈ l, x.length ≤ y.length := by
  induction l with
  | nil => exact absurd rfl h
  | cons a t ih =>
    cases t with
    | nil =>
      exact ⟨a, List.mem_cons_self a [], by
        intro y hy
        rcases List.mem_cons.mp hy with rfl | hy2
        · exact le_refl _
        · cases hy2⟩
    | cons b t2 =>
      obtain ⟨x0, hx0, hmin⟩ := ih (by simp)
      by_cases hc : a.length ≤ x0.length
      · refine ⟨a, List.mem_cons_self a _, ?_⟩
        intro y hy
        rcases List.mem_cons.mp hy with rfl | hy2
        · exact le_refl _
        · exact hc.trans (hmin y hy2)
      · refine ⟨x0, List.mem_cons_of_mem a hx0, ?_⟩
        intro y hy
        rcases List.mem_cons.mp hy with rfl | hy2
        · omega
        · exact hmin y hy2

theorem isStrictUnder_length {a b : FPath} (h : isStrictUnder a b = true) :
    a.length < b.length := by
  obtain ⟨t, ht, rfl⟩ := isStrictUnder_iff.mp h
  have : 0 < t.length := List.length_pos.mpr ht
  simp [List.length_append]
  omega

theorem isStrictUnder_trans {a b c : FPath} (h1 : isStrictUnder a b = true)
    (h2 : isStrictUnder b c = true) : isStrictUnder a c = true := by
  obtain ⟨t1, ht1, rfl⟩ := isStrictUnder_iff.mp h1
  obtain ⟨t2, ht2, h⟩ := isStrictUnder_iff.mp h2
  rw [h]
  rw [List.append_assoc]
  exact isStrictUnder_append (by simp [ht1])

theorem isStrictUnder_isPre {a b : FPath} (h : isStrictUnder a b = true) :
    isPre a b = true := by
  obtain ⟨t, ht, rfl⟩ := isStrictUnder_iff.mp h
  exact isPre_append a t

theorem exists_minimal_ancestor {L : List FPath} {p : FPath}
    (h : ∃ q ∈ L, isStrictUnder q p = true) :
    ∃ q0 ∈ L, isStrictUnder q0 p = true ∧ ∀ q ∈ L, isStrictUnder q q0 = false := by
  obtain ⟨q, hq, hqp⟩ := h
  have hS : L.filter (fun q => isStrictUnder q p) ≠ [] := by
    intro h0
    have : q ∈ L.filter (fun q => isStrictUnder q p) := List.mem_filter.mpr ⟨hq, hqp⟩
    rw [h0] at this
    cases this
  obtain ⟨x0, hx0, hmin⟩ := exists_min_length hS
  obtain ⟨hx0L, hx0p⟩ := List.mem_filter.mp hx0
  refine ⟨x0, hx0L, hx0p, ?_⟩
  intro r hr
  by_cases hrx : isStrictUnder r x0 = true
  · have hrp : isStrictUnder r p = true := isStrictUnder_trans hrx hx0p
    have hrS : r ∈ L.filter (fun q => isStrictUnder q p) := List.mem_filter.mpr ⟨hr, hrp⟩
    have := hmin r hrS
    have := isStrictUnder_length hrx
    omega
  · simpa using hrx

theorem exists_minimal_cover {L : List FPath} {p : FPath}
    (h : ∃ q ∈ L, isPre q p = true) :
    ∃ q0 ∈ L, isPre q0 p = true ∧ ∀ q ∈ L, isStrictUnder q q0 = false := by
  obtain ⟨q, hq, hqp⟩ := h
  have hS : L.filter (fun q => isPre q p) ≠ [] := by
    intro h0
    have : q ∈ L.filter (fun q => isPre q p) := List.mem_filter.mpr ⟨hq, hqp⟩
    rw [h0] at this
    cases this
  obtain ⟨x0, hx0, hmin⟩ := exists_min_length hS
  obtain ⟨hx0L, hx0p⟩ := List.mem_filter.mp hx0
  refine ⟨x0, hx0L, hx0p, ?_⟩
  intro r hr
  by_cases hrx : isStrictUnder r x0 = true
  · have hrp : isPre r p = true := isPre_trans (isStrictUnder_isPre hrx) hx0p
    have hrS : r ∈ L.filter (fun q => isPre q p) := List.mem_filter.mpr ⟨hr, hrp⟩
    have := hmin r hrS
    have := isStrictUnder_length hrx
    omega
  · simpa using hrx

theorem pruneAux_spec (L : List FPath) :
    ∀ (rest acc : List FPath),
      (∀ x ∈ acc, x ∈ L ∧ ∀ q ∈ L, isStrictUnder q x = false) →
      (∀ x ∈ L, x ∉ rest → (∀ q ∈ L, isStrictUnder q x = false) → x ∈ acc) →
      rest.Pairwise (fun u v => isStrictUnder v u = false) →
      (∀ x ∈ rest, x ∈ L) →
      ∀ x, x ∈ rest.foldl
          (fun acc p => if acc.any (fun q => isStrictUnder q p) then acc else acc ++ [p])
          acc ↔
        (x ∈ acc ∨ (x ∈ rest ∧ ∀ q ∈ L, isStrictUnder q x = false)) := by
  intro rest
  induction rest with
  | nil =>
    intro acc _ _ _ _ x
    simp
  | cons r rest2 ih =>
    intro acc hacc hcomplete hpw hsub x
    rw [List.pairwise_cons] at hpw
    have hcond : ((acc.any (fun q => isStrictUnder q r)) = true) ↔
        (∃ q ∈ L, isStrictUnder q r = true) := by
      constructor
      · intro hc
        obtain ⟨q, hq, hqr⟩ := List.any_eq_true.mp hc
        exact ⟨q, (hacc q hq).1, hqr⟩
      · intro hex
        obtain ⟨q0, hq0L, hq0r, hq0min⟩ := exists_minimal_ancestor hex
        have hq0notin : q0 ∉ r :: rest2 := by
          intro hmem
          rcases List.mem_cons.mp hmem with rfl | hmem2
          · rw [isStrictUnder_self] at hq0r
            cases hq0r
          · have := hpw.1 q0 hmem2
            rw [hq0r] at this
            cases this
        have hq0acc : q0 ∈ acc := hcomplete q0 hq0L hq0notin hq0min
        exact List.any_eq_true.mpr ⟨q0, hq0acc, hq0r⟩
    rw [List.foldl_cons]
    by_cases hc : (acc.any (fun q => isStrictUnder q r)) = true
    · rw [if_pos hc]
      have hnr : ¬ (∀ q ∈ L, isStrictUnder q r = false) := by
        obtain ⟨q, hqL, hqr⟩ := hcond.mp hc
        intro hall
        rw [hall q hqL] at hqr
        cases hqr
      have hcomplete2 : ∀ y ∈ L, y ∉ rest2 → (∀ q ∈ L, isStrictUnder q y = false) →
          y ∈ acc := by
        intro y hyL hynot hymin
        by_cases hyr : y = r
        · exact absurd (hyr ▸ hymin) hnr
        · exact hcomplete y hyL (by simp [hyr, hynot]) hymin
      rw [ih acc hacc hcomplete2 hpw.2 (fun z hz => hsub z (List.mem_cons_of_mem r hz)) x]
      constructor
      · rintro (hx | ⟨hx1, hx2⟩)
        · exact Or.inl hx
        · exact Or.inr ⟨List.mem_cons_of_mem r hx1, hx2⟩
      · rintro (hx | ⟨hx1, hx2⟩)
        · exact Or.inl hx
        · rcases List.mem_cons.mp hx1 with rfl | hx3
          · exact absurd hx2 hnr
          · exact Or.inr ⟨hx3, hx2⟩
    · rw [if_neg hc]
      have hrmin : ∀ q ∈ L, isStrictUnder q r = false := by
        intro q hqL
        by_cases hq : isStrictUnder q r = true
        · exact absurd (hcond.mpr ⟨q, hqL, hq⟩) hc
        · simpa using hq
      have hacc2 : ∀ y ∈ acc ++ [r], y ∈ L ∧ ∀ q ∈ L, isStrictUnder q y = false := by
        intro y hy
        rcases List.mem_append.mp hy with hy1 | hy2
        · exact hacc y hy1
        · have : y = r := by simpa using hy2
          subst this
          exact ⟨hsub y (List.mem_cons_self _ _), hrmin⟩
      have hcomplete2 : ∀ y ∈ L, y ∉ rest2 → (∀ q ∈ L, isStrictUnder q y = false) →
          y ∈ acc ++ [r] := by
        intro y hyL hynot hymin
        by_cases hyr : y = r
        · subst hyr
          simp
        · exact List.mem_append.mpr (Or.inl (hcomplete y hyL (by simp [hyr, hynot]) hymin))
      rw [ih (acc ++ [r]) hacc2 hcomplete2 hpw.2
        (fun z hz => hsub z (List.mem_cons_of_mem r hz)) x]
      constructor
      · rintro (hx | ⟨hx1, hx2⟩)
        · rcases List.mem_append.mp hx with hx3 | hx4
          · exact Or.inl hx3
          · have : x = r := by simpa using hx4
            subst this
            exact Or.inr ⟨List.mem_cons_self _ _, hrmin⟩
        · exact Or.inr ⟨List.mem_cons_of_mem r hx1, hx2⟩
      · rintro (hx | ⟨hx1, hx2⟩)
        · exact Or.inl (List.mem_append.mpr (Or.inl hx))
        · rcases List.mem_cons.mp hx1 with rfl | hx3
          · exact Or.inl (List.mem_append.mpr (Or.inr (by simp)))
          · exact Or.inr ⟨hx3, hx2⟩

theorem mem_pruneCovered_iff {L : List FPath}
    (hpw : L.Pairwise (fun u v => isStrictUnder v u = false)) (x : FPath) :
    x ∈ pruneCovered L ↔ (x ∈ L ∧ ∀ q ∈ L, isStrictUnder q x = false) := by
  unfold pruneCovered
  rw [pruneAux_spec L L [] (by simp) (by intro y hy1 hy2 _; exact absurd hy1 hy2) hpw (fun z hz => hz) x]
  simp


theorem mem_dictInsert (k : FPath) (v : MonitorTask) :
    ∀ (d : List (FPath × MonitorTask)) (kv : FPath × MonitorTask),
      kv ∈ dictInsert k v d → kv = (k, v) ∨ kv ∈ d := by
  intro d
  induction d with
  | nil =>
    intro kv h
    exact Or.inl (by simpa [dictInsert] using h)
  | cons e rest ih =>
    intro kv h
    unfold dictInsert at h
    by_cases hc : (e.1 == k) = true
    · rw [if_pos hc] at h
      rcases List.mem_cons.mp h with h1 | h1
      · exact Or.inl h1
      · exact Or.inr (List.mem_cons_of_mem e h1)
    · rw [if_neg hc] at h
      rcases List.mem_cons.mp h with h1 | h1
      · exact Or.inr (h1 ▸ List.mem_cons_self e rest)
      · rcases ih kv h1 with h2 | h2
        · exact Or.inl h2
        · exact Or.inr (List.mem_cons_of_mem e h2)

theorem keys_dictInsert (k : FPath) (v : MonitorTask) :
    ∀ (d : List (FPath × MonitorTask)) (k2 : FPath),
      k2 ∈ (dictInsert k v d).map Prod.fst ↔ (k2 = k ∨ k2 ∈ d.map Prod.fst) := by
  intro d
  induction d with
  | nil =>
    intro k2
    simp [dictInsert]
  | cons e rest ih =>
    intro k2
    unfold dictInsert
    by_cases hc : (e.1 == k) = true
    · rw [if_pos hc]
      have he : e.1 = k := eq_of_beq hc
      simp only [List.map_cons, List.mem_cons, he]
      tauto
    · rw [if_neg hc]
      simp only [List.map_cons, List.mem_cons, ih k2]
      tauto

theorem buildDict_mem (a : String) :
    ∀ (ts : List MonitorTask) (acc : List (FPath × MonitorTask))
      (kv : FPath × MonitorTask),
      kv ∈ ts.foldl (fun d t => if t.action == a then dictInsert t.path t d else d) acc →
      kv ∈ acc ∨ (kv.2.action = a ∧ kv.1 = kv.2.path ∧ kv.2 ∈ ts) := by
  intro ts
  induction ts with
  | nil =>
    intro acc kv h
    exact Or.inl (by simpa using h)
  | cons t ts2 ih =>
    intro acc kv h
    rw [List.foldl_cons] at h
    rcases ih _ kv h with h1 | h1
    · by_cases hc : (t.action == a) = true
      · rw [if_pos hc] at h1
        rcases mem_dictInsert _ _ _ kv h1 with h2 | h2
        · subst h2
          exact Or.inr ⟨eq_of_beq hc, rfl, List.mem_cons_self t ts2⟩
        · exact Or.inl h2
      · rw [if_neg hc] at h1
        exact Or.inl h1
    · exact Or.inr ⟨h1.1, h1.2.1, List.mem_cons_of_mem t h1.2.2⟩

theorem mem_buildDict {a : String} {ts : List MonitorTask}
    {kv : FPath × MonitorTask} (h : kv ∈ buildDict a ts) :
    kv.2.action = a ∧ kv.1 = kv.2.path ∧ kv.2 ∈ ts := by
  unfold buildDict at h
  rcases buildDict_mem a ts [] kv h with h1 | h1
  · cases h1
  · exact h1

theorem keys_buildDict_mono (a : String) :
    ∀ (ts : List MonitorTask) (acc : List (FPath × MonitorTask)) (k2 : FPath),
      k2 ∈ acc.map Prod.fst →
      k2 ∈ (ts.foldl (fun d t => if t.action == a then dictInsert t.path t d else d)
        acc).map Prod.fst := by
  intro ts
  induction ts with
  | nil =>
    intro acc k2 h
    exact h
  | cons t ts2 ih =>
    intro acc k2 h
    rw [List.foldl_cons]
    apply ih
    by_cases hc : (t.action == a) = true
    · rw [if_pos hc]
      exact (keys_dictInsert t.path t acc k2).mpr (Or.inr h)
    · rw [if_neg hc]
      exact h

theorem buildDict_complete (a : String) :
    ∀ (ts : List MonitorTask) (acc : List (FPath × MonitorTask)) (t : MonitorTask),
      t ∈ ts → t.action = a →
      t.path ∈ (ts.foldl (fun d t => if t.action == a then dictInsert t.path t d else d)
        acc).map Prod.fst := by
  intro ts
  induction ts with
  | nil =>
    intro acc t ht _
    cases ht
  | cons u ts2 ih =>
    intro acc t ht ha
    rw [List.foldl_cons]
    rcases List.mem_cons.mp ht with rfl | ht2
    · have hc : (t.action == a) = true := beq_iff_eq.mpr ha
      rw [if_pos hc]
      exact keys_buildDict_mono a ts2 _ t.path
        ((keys_dictInsert t.path t acc t.path).mpr (Or.inl rfl))
    · exact ih _ t ht2 ha

theorem keys_buildDict_iff {a : String} {ts : List MonitorTask} (p : FPath) :
    p ∈ (buildDict a ts).map Prod.fst ↔
      ∃ t ∈ ts, t.action = a ∧ t.path = p := by
  constructor
  · intro h
    obtain ⟨kv, hkv, hfst⟩ := List.mem_map.mp h
    obtain ⟨h1, h2, h3⟩ := mem_buildDict hkv
    exact ⟨kv.2, h3, h1, by rw [← h2, hfst]⟩
  · rintro ⟨t, ht, ha, rfl⟩
    unfold buildDict
    exact buildDict_complete a ts [] t ht ha

theorem findTask_of_key_mem :
    ∀ (d : List (FPath × MonitorTask)) (p : FPath), p ∈ d.map Prod.fst →
      ∃ v, (d.find? fun kv => kv.1 == p) = some (p, v) ∧ (p, v) ∈ d := by
  intro d
  induction d with
  | nil =>
    intro p h
    rw [List.map_nil] at h
    cases h
  | cons e rest ih =>
    intro p hp
    by_cases hc : (e.1 == p) = true
    · have he : e.1 = p := eq_of_beq hc
      refine ⟨e.2, ?_, ?_⟩
      · rw [@List.find?_cons_of_pos _ (fun kv : FPath × MonitorTask => kv.1 == p)
          e rest hc]
        exact congrArg some (by rw [← he])
      · rw [← he]
        exact List.mem_cons_self _ _
    · have hp2 : p ∈ rest.map Prod.fst := by
        rw [List.map_cons] at hp
        rcases List.mem_cons.mp hp with h1 | h1
        · exact absurd (beq_iff_eq.mpr h1.symm) hc
        · exact h1
      obtain ⟨v, hfind, hmem⟩ := ih p hp2
      refine ⟨v, ?_, List.mem_cons_of_mem e hmem⟩
      rw [@List.find?_cons_of_neg _ (fun kv : FPath × MonitorTask => kv.1 == p)
        e rest hc]
      exact hfind


theorem optimize_tasks_eq (tasks : List MonitorTask) (hne : tasks.isEmpty = false) :
    optimize_tasks tasks =
      (pruneCovered (sortByKey pathChars
          ((buildDict "delete" tasks).map Prod.fst))).filterMap
        (fun p => ((buildDict "delete" tasks).find? fun kv => kv.1 == p).map Prod.snd) ++
      tasks.filter (fun t => t.action == "move") ++
      sortByKey (fun t => pathChars t.path)
        ((pruneCovered (sortByKey pathChars
            ((buildDict "scan_folder" tasks).map Prod.fst))).filterMap
          (fun p =>
            ((buildDict "scan_folder" tasks).find? fun kv => kv.1 == p).map Prod.snd)) ++
      ((buildDict "scan_file" tasks).filter fun kv =>
        !((pruneCovered (sortByKey pathChars
            ((buildDict "scan_folder" tasks).map Prod.fst))).any
          fun q => isPre q kv.1)).map Prod.snd := by
  unfold optimize_tasks
  rw [if_neg (by rw [hne]; exact Bool.false_ne_true)]

theorem sortedKeys_pairwise (a : String) (tasks : List MonitorTask)
    (hwp : ∀ t ∈ tasks, t.path ≠ []) :
    (sortByKey pathChars ((buildDict a tasks).map Prod.fst)).Pairwise
      (fun u v => isStrictUnder v u = false) := by
  have h0 := sortByKey_pairwise pathChars ((buildDict a tasks).map Prod.fst)
  refine h0.imp_of_mem ?_
  intro u v hu hv hR
  by_cases hs : isStrictUnder v u = true
  · have hv2 : v ≠ [] := by
      obtain ⟨t, ht, _, htp⟩ :=
        (keys_buildDict_iff v).mp ((mem_sortByKey _ _ v).mp hv)
      rw [← htp]
      exact hwp t ht
    have := pathChars_strict_lt hv2 hs
    rw [this] at hR
    cases hR
  · simpa using hs

theorem finalPaths_iff (a : String) (tasks : List MonitorTask)
    (hwp : ∀ t ∈ tasks, t.path ≠ []) (p : FPath) :
    p ∈ pruneCovered (sortByKey pathChars ((buildDict a tasks).map Prod.fst)) ↔
      ((∃ t ∈ tasks, t.action = a ∧ t.path = p) ∧
       ∀ q : FPath, (∃ u ∈ tasks, u.action = a ∧ u.path = q) →
         isStrictUnder q p = false) := by
  have hchar := mem_pruneCovered_iff (sortedKeys_pairwise a tasks hwp) p
  constructor
  · intro h
    obtain ⟨h1, h2⟩ := hchar.mp h
    refine ⟨(keys_buildDict_iff p).mp ((mem_sortByKey _ _ p).mp h1), ?_⟩
    intro q hq
    exact h2 q ((mem_sortByKey _ _ q).mpr ((keys_buildDict_iff q).mpr hq))
  · rintro ⟨h1, h2⟩
    refine hchar.mpr ⟨(mem_sortByKey _ _ p).mpr ((keys_buildDict_iff p).mpr h1), ?_⟩
    intro q hq
    exact h2 q ((keys_buildDict_iff q).mp ((mem_sortByKey _ _ q).mp hq))

theorem mem_finalDict_mp {a : String} {tasks : List MonitorTask} {t : MonitorTask}
    (h : t ∈ (pruneCovered (sortByKey pathChars
        ((buildDict a tasks).map Prod.fst))).filterMap
      (fun p => ((buildDict a tasks).find? fun kv => kv.1 == p).map Prod.snd)) :
    t.action = a ∧ t ∈ tasks ∧
      t.path ∈ pruneCovered (sortByKey pathChars ((buildDict a tasks).map Prod.fst)) := by
  obtain ⟨p, hp, heq⟩ := List.mem_filterMap.mp h
  obtain ⟨kv, hfind, hsnd⟩ := Option.map_eq_some'.mp heq
  have hkv : kv ∈ buildDict a tasks := List.mem_of_find?_eq_some hfind
  have hpred : (kv.1 == p) = true :=
    @List.find?_some _ (fun kv : FPath × MonitorTask => kv.1 == p) kv
      (buildDict a tasks) hfind
  obtain ⟨ha, hpath, hmem⟩ := mem_buildDict hkv
  have hpp : t.path = p := by
    rw [← hsnd, ← hpath]
    exact eq_of_beq hpred
  exact ⟨hsnd ▸ ha, hsnd ▸ hmem, hpp ▸ hp⟩

theorem pruneCovered_aux_subset :
    ∀ (rest acc : List FPath) (x : FPath),
      x ∈ rest.foldl
        (fun acc p => if acc.any (fun q => isStrictUnder q p) then acc else acc ++ [p])
        acc →
      x ∈ acc ∨ x ∈ rest := by
  intro rest
  induction rest with
  | nil =>
    intro acc x h
    exact Or.inl h
  | cons r rest2 ih =>
    intro acc x h
    rw [List.foldl_cons] at h
    rcases ih _ x h with h1 | h1
    · by_cases hc : (acc.any (fun q => isStrictUnder q r)) = true
      · rw [if_pos hc] at h1
        exact Or.inl h1
      · rw [if_neg hc] at h1
        rcases List.mem_append.mp h1 with h2 | h2
        · exact Or.inl h2
        · exact Or.inr (List.mem_cons.mpr (Or.inl (by simpa using h2)))
    · exact Or.inr (List.mem_cons_of_mem r h1)

theorem pruneCovered_subset (L : List FPath) (x : FPath) (h : x ∈ pruneCovered L) :
    x ∈ L := by
  unfold pruneCovered at h
  rcases pruneCovered_aux_subset L [] x h with h1 | h1
  · cases h1
  · exact h1

theorem mem_finalDict_mpr {a : String} {tasks : List MonitorTask} {p : FPath}
    (hp : p ∈ pruneCovered (sortByKey pathChars ((buildDict a tasks).map Prod.fst))) :
    ∃ t, t ∈ (pruneCovered (sortByKey pathChars
        ((buildDict a tasks).map Prod.fst))).filterMap
      (fun q => ((buildDict a tasks).find? fun kv => kv.1 == q).map Prod.snd) ∧
      t.path = p := by
  have hkeys : p ∈ (buildDict a tasks).map Prod.fst :=
    (mem_sortByKey _ _ p).mp (pruneCovered_subset _ p hp)
  obtain ⟨v, hfind, hmem⟩ := findTask_of_key_mem _ p hkeys
  refine ⟨v, List.mem_filterMap.mpr ⟨p, hp, ?_⟩, ?_⟩
  · rw [hfind]
    rfl
  · obtain ⟨_, hpath, _⟩ := mem_buildDict hmem
    exact hpath.symm


theorem coveredFinal_iff (a : String) (tasks : List MonitorTask)
    (hwp : ∀ t ∈ tasks, t.path ≠ []) (p : FPath) :
    ((pruneCovered (sortByKey pathChars ((buildDict a tasks).map Prod.fst))).any
      fun q => isPre q p) = false ↔
    ∀ q : FPath, (∃ u ∈ tasks, u.action = a ∧ u.path = q) → isPre q p = false := by
  constructor
  · intro h q hq
    by_cases hqp : isPre q p = true
    · have hqL : q ∈ sortByKey pathChars ((buildDict a tasks).map Prod.fst) :=
        (mem_sortByKey _ _ q).mpr ((keys_buildDict_iff q).mpr hq)
      obtain ⟨q0, hq0L, hq0p, hq0min⟩ := exists_minimal_cover ⟨q, hqL, hqp⟩
      have hq0final :
          q0 ∈ pruneCovered (sortByKey pathChars ((buildDict a tasks).map Prod.fst)) :=
        (mem_pruneCovered_iff (sortedKeys_pairwise a tasks hwp) q0).mpr ⟨hq0L, hq0min⟩
      have : ((pruneCovered (sortByKey pathChars
          ((buildDict a tasks).map Prod.fst))).any fun q => isPre q p) = true :=
        List.any_eq_true.mpr ⟨q0, hq0final, hq0p⟩
      rw [this] at h
      cases h
    · simpa using hqp
  · intro h
    by_cases hany : ((pruneCovered (sortByKey pathChars
        ((buildDict a tasks).map Prod.fst))).any fun q => isPre q p) = true
    · obtain ⟨q, hqF, hqp⟩ := List.any_eq_true.mp hany
      have hq : ∃ u ∈ tasks, u.action = a ∧ u.path = q :=
        (keys_buildDict_iff q).mp ((mem_sortByKey _ _ q).mp (pruneCovered_subset _ q hqF))
      rw [h q hq] at hqp
      cases hqp
    · simpa using hany

theorem filter_nil_of_none {α : Type} (pred : α → Bool) :
    ∀ (l : List α), (∀ x ∈ l, pred x = false) → l.filter pred = [] := by
  intro l
  induction l with
  | nil => intro _; rfl
  | cons a t ih =>
    intro h
    rw [List.filter_cons, if_neg (by rw [h a (List.mem_cons_self a t)]; exact Bool.false_ne_true)]
    exact ih (fun x hx => h x (List.mem_cons_of_mem a hx))

theorem filter_all_of_true {α : Type} (pred : α → Bool) :
    ∀ (l : List α), (∀ x ∈ l, pred x = true) → l.filter pred = l := by
  intro l
  induction l with
  | nil => intro _; rfl
  | cons a t ih =>
    intro h
    rw [List.filter_cons, if_pos (h a (List.mem_cons_self a t))]
    rw [ih (fun x hx => h x (List.mem_cons_of_mem a hx))]

theorem mem_block_iff (a : String) (tasks : List MonitorTask)
    (hwp : ∀ t ∈ tasks, t.path ≠ []) (p : FPath) :
    (∃ t, t ∈ (pruneCovered (sortByKey pathChars
        ((buildDict a tasks).map Prod.fst))).filterMap
      (fun q => ((buildDict a tasks).find? fun kv => kv.1 == q).map Prod.snd) ∧
      t.path = p) ↔
      ((∃ t ∈ tasks, t.action = a ∧ t.path = p) ∧
       ∀ q : FPath, (∃ u ∈ tasks, u.action = a ∧ u.path = q) →
         isStrictUnder q p = false) := by
  constructor
  · rintro ⟨t, ht, rfl⟩
    exact (finalPaths_iff a tasks hwp t.path).mp (mem_finalDict_mp ht).2.2
  · rintro ⟨h1, h2⟩
    exact mem_finalDict_mpr ((finalPaths_iff a tasks hwp p).mpr ⟨h1, h2⟩)


theorem moveFilter_blocks (D M F S : List MonitorTask)
    (hD : ∀ x ∈ D, (x.action == "move") = false)
    (hM : ∀ x ∈ M, (x.action == "move") = true)
    (hF : ∀ x ∈ F, (x.action == "move") = false)
    (hS : ∀ x ∈ S, (x.action == "move") = false) :
    (D ++ M ++ F ++ S).filter (fun t => t.action == "move") = M := by
  rw [List.filter_append, List.filter_append, List.filter_append,
    filter_nil_of_none _ _ hD, filter_all_of_true _ _ hM,
    filter_nil_of_none _ _ hF, filter_nil_of_none _ _ hS]
  simp

/-- C5 counterexample to the folder-scan ordering in the spec: with folder
scans queued for the paths z and a/b, the optimizer emits the deeper path a/b
first, because retained folder scans are sorted by their joined path string in
code-point order, not shallowest-path-first as the spec states. -/
theorem c5_counterexample :
    optimize_tasks [⟨"scan_folder", ["z"], none⟩, ⟨"scan_folder", ["a", "b"], none⟩] =
      [⟨"scan_folder", ["a", "b"], none⟩, ⟨"scan_folder", ["z"], none⟩] ∧
    (["a", "b"] : FPath).length > (["z"] : FPath).length := by
  exact ⟨by decide, by decide⟩

/-- C5 (amended): for a nonempty batch of tasks with nonempty paths,
optimize_tasks invents no tasks, passes move tasks through untouched in order
and multiplicity, keeps a folder scan at exactly the batch folder-scan paths
with no strict-ancestor folder scan in the batch, keeps a file scan at exactly
the batch file-scan paths covered by no batch folder scan, keeps a delete at
exactly the batch delete paths with no strict-ancestor delete, and emits the
result as deletes, then moves, then folder scans, then file scans, where the
folder scans are sorted ascending by the code points of their slash-joined
path strings (lexicographically, not shallowest-path-first as the spec says;
parents still precede their children); the example batch of a folder scan
plus two file scans under it collapses to the folder scan alone. -/
theorem c5_optimize_tasks (tasks : List MonitorTask)
    (hne : tasks.isEmpty = false)
    (hwp : ∀ t ∈ tasks, t.path ≠ []) :
    (∀ t ∈ optimize_tasks tasks, t ∈ tasks) ∧
    ((optimize_tasks tasks).filter (fun t => t.action == "move") =
      tasks.filter (fun t => t.action == "move")) ∧
    (∀ p : FPath,
      (∃ t ∈ optimize_tasks tasks, t.action = "scan_folder" ∧ t.path = p) ↔
        ((∃ t ∈ tasks, t.action = "scan_folder" ∧ t.path = p) ∧
         ∀ q : FPath, (∃ u ∈ tasks, u.action = "scan_folder" ∧ u.path = q) →
           isStrictUnder q p = false)) ∧
    (∀ p : FPath,
      (∃ t ∈ optimize_tasks tasks, t.action = "scan_file" ∧ t.path = p) ↔
        ((∃ t ∈ tasks, t.action = "scan_file" ∧ t.path = p) ∧
         ∀ q : FPath, (∃ u ∈ tasks, u.action = "scan_folder" ∧ u.path = q) →
           isPre q p = false)) ∧
    (∀ p : FPath,
      (∃ t ∈ optimize_tasks tasks, t.action = "delete" ∧ t.path = p) ↔
        ((∃ t ∈ tasks, t.action = "delete" ∧ t.path = p) ∧
         ∀ q : FPath, (∃ u ∈ tasks, u.action = "delete" ∧ u.path = q) →
           isStrictUnder q p = false)) ∧
    (∃ D F S : List MonitorTask,
      optimize_tasks tasks =
        D ++ tasks.filter (fun t => t.action == "move") ++ F ++ S ∧
      (∀ t ∈ D, t.action = "delete") ∧
      (∀ t ∈ F, t.action = "scan_folder") ∧
      (∀ t ∈ S, t.action = "scan_file") ∧
      F.Pairwise (fun u v => charsLt (pathChars v.path) (pathChars u.path) = false) ∧
      F.Pairwise (fun u v => isStrictUnder v.path u.path = false)) ∧
    optimize_tasks [⟨"scan_folder", ["A"], none⟩,
        ⟨"scan_file", ["A", "b.cbz"], none⟩,
        ⟨"scan_file", ["A", "c.cbz"], none⟩] =
      [⟨"scan_folder", ["A"], none⟩] := by
  have heq := optimize_tasks_eq tasks hne
  refine ⟨?_, ?_, ?_, ?_, ?_, ?_, by decide⟩
  · intro t ht
    rw [heq] at ht
    rcases List.mem_append.mp ht with h123 | h4
    · rcases List.mem_append.mp h123 with h12 | h3
      · rcases List.mem_append.mp h12 with h1 | h2
        · exact (mem_finalDict_mp h1).2.1
        · exact List.mem_of_mem_filter h2
      · exact (mem_finalDict_mp ((mem_sortByKey _ _ t).mp h3)).2.1
    · obtain ⟨kv, hkv, hsnd⟩ := List.mem_map.mp h4
      exact hsnd ▸ (mem_buildDict (List.mem_of_mem_filter hkv)).2.2
  · rw [heq]
    exact moveFilter_blocks _ _ _ _
      (fun x hx => by
        rw [(mem_finalDict_mp hx).1]
        decide)
      (fun x hx => (List.mem_filter.mp hx).2)
      (fun x hx => by
        rw [(mem_finalDict_mp ((mem_sortByKey _ _ x).mp hx)).1]
        decide)
      (fun x hx => by
        obtain ⟨kv, hkv, hsnd⟩ := List.mem_map.mp hx
        rw [← hsnd, (mem_buildDict (List.mem_of_mem_filter hkv)).1]
        decide)
  · intro p
    constructor
    · rintro ⟨t, ht, ha, rfl⟩
      rw [heq] at ht
      rcases List.mem_append.mp ht with h123 | h4
      · rcases List.mem_append.mp h123 with h12 | h3
        · rcases List.mem_append.mp h12 with h1 | h2
          · have hd := (mem_finalDict_mp h1).1
            rw [ha] at hd
            exact absurd hd (by decide)
          · have hm := eq_of_beq (List.mem_filter.mp h2).2
            rw [ha] at hm
            exact absurd hm (by decide)
        · exact (mem_block_iff "scan_folder" tasks hwp t.path).mp
            ⟨t, (mem_sortByKey _ _ t).mp h3, rfl⟩
      · obtain ⟨kv, hkv, hsnd⟩ := List.mem_map.mp h4
        have hact := (mem_buildDict (List.mem_of_mem_filter hkv)).1
        rw [hsnd, ha] at hact
        exact absurd hact (by decide)
    · intro hrhs
      obtain ⟨t, ht, htp⟩ := (mem_block_iff "scan_folder" tasks hwp p).mpr hrhs
      refine ⟨t, ?_, (mem_finalDict_mp ht).1, htp⟩
      rw [heq]
      exact List.mem_append.mpr (Or.inl (List.mem_append.mpr
        (Or.inr ((mem_sortByKey _ _ t).mpr ht))))
  · intro p
    constructor
    · rintro ⟨t, ht, ha, rfl⟩
      rw [heq] at ht
      rcases List.mem_append.mp ht with h123 | h4
      · rcases List.mem_append.mp h123 with h12 | h3
        · rcases List.mem_append.mp h12 with h1 | h2
          · have hd := (mem_finalDict_mp h1).1
            rw [ha] at hd
            exact absurd hd (by decide)
          · have hm := eq_of_beq (List.mem_filter.mp h2).2
            rw [ha] at hm
            exact absurd hm (by decide)
        · have hd := (mem_finalDict_mp ((mem_sortByKey _ _ t).mp h3)).1
          rw [ha] at hd
          exact absurd hd (by decide)
      · obtain ⟨kv, hkvf, hsnd⟩ := List.mem_map.mp h4
        obtain ⟨hkvd, hcond⟩ := List.mem_filter.mp hkvf
        obtain ⟨hact, hkey, hmem⟩ := mem_buildDict hkvd
        refine ⟨⟨t, hsnd ▸ hmem, ha, rfl⟩, ?_⟩
        have hany : ((pruneCovered (sortByKey pathChars
            ((buildDict "scan_folder" tasks).map Prod.fst))).any
            fun q => isPre q kv.1) = false := by
          cases hb : ((pruneCovered (sortByKey pathChars
              ((buildDict "scan_folder" tasks).map Prod.fst))).any
              fun q => isPre q kv.1) with
          | false => rfl
          | true =>
            rw [hb] at hcond
            exact absurd hcond (by decide)
        have hk2 : kv.1 = t.path := by rw [hkey, hsnd]
        rw [hk2] at hany
        exact (coveredFinal_iff "scan_folder" tasks hwp t.path).mp hany
    · rintro ⟨⟨u, hu, hua, hup⟩, hall⟩
      have hpkeys : p ∈ (buildDict "scan_file" tasks).map Prod.fst :=
        (keys_buildDict_iff p).mpr ⟨u, hu, hua, hup⟩
      obtain ⟨v, hfind, hvmem⟩ := findTask_of_key_mem _ p hpkeys
      obtain ⟨hva, hvp, hvt⟩ := mem_buildDict hvmem
      have hcondv : (!((pruneCovered (sortByKey pathChars
          ((buildDict "scan_folder" tasks).map Prod.fst))).any
          fun q => isPre q (p, v).1)) = true := by
        rw [show ((p, v).1 : FPath) = p from rfl,
          (coveredFinal_iff "scan_folder" tasks hwp p).mpr hall]
        decide
      refine ⟨v, ?_, hva, hvp.symm⟩
      rw [heq]
      refine List.mem_append.mpr (Or.inr ?_)
      exact List.mem_map.mpr ⟨(p, v), List.mem_filter.mpr ⟨hvmem, hcondv⟩, rfl⟩
  · intro p
    constructor
    · rintro ⟨t, ht, ha, rfl⟩
      rw [heq] at ht
      rcases List.mem_append.mp ht with h123 | h4
      · rcases List.mem_append.mp h123 with h12 | h3
        · rcases List.mem_append.mp h12 with h1 | h2
          · exact (mem_block_iff "delete" tasks hwp t.path).mp ⟨t, h1, rfl⟩
          · have hm := eq_of_beq (List.mem_filter.mp h2).2
            rw [ha] at hm
            exact absurd hm (by decide)
        · have hd := (mem_finalDict_mp ((mem_sortByKey _ _ t).mp h3)).1
          rw [ha] at hd
          exact absurd hd (by decide)
      · obtain ⟨kv, hkv, hsnd⟩ := List.mem_map.mp h4
        have hact := (mem_buildDict (List.mem_of_mem_filter hkv)).1
        rw [hsnd, ha] at hact
        exact absurd hact (by decide)
    · intro hrhs
      obtain ⟨t, ht, htp⟩ := (mem_block_iff "delete" tasks hwp p).mpr hrhs
      refine ⟨t, ?_, (mem_finalDict_mp ht).1, htp⟩
      rw [heq]
      exact List.mem_append.mpr (Or.inl (List.mem_append.mpr (Or.inl
        (List.mem_append.mpr (Or.inl ht)))))
  · refine ⟨(pruneCovered (sortByKey pathChars
        ((buildDict "delete" tasks).map Prod.fst))).filterMap
        (fun p => ((buildDict "delete" tasks).find? fun kv => kv.1 == p).map Prod.snd),
      sortByKey (fun t => pathChars t.path)
        ((pruneCovered (sortByKey pathChars
            ((buildDict "scan_folder" tasks).map Prod.fst))).filterMap
          (fun p =>
            ((buildDict "scan_folder" tasks).find? fun kv => kv.1 == p).map Prod.snd)),
      ((buildDict "scan_file" tasks).filter fun kv =>
        !((pruneCovered (sortByKey pathChars
            ((buildDict "scan_folder" tasks).map Prod.fst))).any
          fun q => isPre q kv.1)).map Prod.snd,
      heq, ?_, ?_, ?_, ?_, ?_⟩
    · intro t ht
      exact (mem_finalDict_mp ht).1
    · intro t ht
      exact (mem_finalDict_mp ((mem_sortByKey _ _ t).mp ht)).1
    · intro t ht
      obtain ⟨kv, hkv, hsnd⟩ := List.mem_map.mp ht
      exact hsnd ▸ (mem_buildDict (List.mem_of_mem_filter hkv)).1
    · exact sortByKey_pairwise (fun t : MonitorTask => pathChars t.path) _
    · refine (sortByKey_pairwise (fun t : MonitorTask => pathChars t.path) _).imp_of_mem ?_
      intro u v hu hv hR
      by_cases hs : isStrictUnder v.path u.path = true
      · have hv2 : v.path ≠ [] :=
          hwp v (mem_finalDict_mp ((mem_sortByKey _ _ v).mp hv)).2.1
        have hlt := pathChars_strict_lt hv2 hs
        rw [hlt] at hR
        cases hR
      · simpa using hs

/-- C5 witness: the amended theorem applied to a concrete two-task batch whose
folder scan is retained. -/
theorem c5_optimize_tasks_witness :
    ([⟨"scan_folder", ["A"], none⟩, ⟨"scan_file", ["A", "b.cbz"], none⟩] :
        List MonitorTask).isEmpty = false ∧
    (∃ t ∈ optimize_tasks [⟨"scan_folder", ["A"], none⟩,
        ⟨"scan_file", ["A", "b.cbz"], none⟩],
      t.action = "scan_folder" ∧ t.path = ["A"]) := by
  refine ⟨by decide, ?_⟩
  have h := c5_optimize_tasks
    [⟨"scan_folder", ["A"], none⟩, ⟨"scan_file", ["A", "b.cbz"], none⟩]
    (by decide) (by decide)
  refine (h.2.2.1 ["A"]).mpr
    ⟨⟨⟨"scan_folder", ["A"], none⟩, List.mem_cons_self _ _, rfl, rfl⟩, ?_⟩
  intro q hq
  obtain ⟨u, hu, hua, huq⟩ := hq
  rcases List.mem_cons.mp hu with rfl | hu2
  · subst huq
    decide
  · rcases List.mem_cons.mp hu2 with rfl | hu3
    · exact absurd hua (by decide)
    · cases hu3


/-! ## Claim C1: row-presence lemmas for the repository operations -/

theorem hasRow_updateFirst (pred : ComicRow → Bool) (g : ComicRow → ComicRow)
    (hg : ∀ x, (g x).path = x.path) :
    ∀ (l : List ComicRow) (rp : FPath),
      (∃ c ∈ updateFirst pred g l, c.path = rp) ↔ (∃ c ∈ l, c.path = rp) := by
  intro l
  induction l with
  | nil => intro rp; exact Iff.rfl
  | cons x xs ih =>
    intro rp
    unfold updateFirst
    by_cases hp : pred x = true
    · rw [if_pos hp]
      constructor
      · rintro ⟨c, hc, hcp⟩
        rcases List.mem_cons.mp hc with rfl | hc2
        · exact ⟨x, List.mem_cons_self x xs, by rw [← hg x]; exact hcp⟩
        · exact ⟨c, List.mem_cons_of_mem x hc2, hcp⟩
      · rintro ⟨c, hc, hcp⟩
        rcases List.mem_cons.mp hc with rfl | hc2
        · exact ⟨g c, List.mem_cons_self _ xs, by rw [hg c]; exact hcp⟩
        · exact ⟨c, List.mem_cons_of_mem _ hc2, hcp⟩
    · rw [if_neg hp]
      constructor
      · rintro ⟨c, hc, hcp⟩
        rcases List.mem_cons.mp hc with rfl | hc2
        · exact ⟨c, List.mem_cons_self c xs, hcp⟩
        · obtain ⟨d, hd, hdp⟩ := (ih rp).mp ⟨c, hc2, hcp⟩
          exact ⟨d, List.mem_cons_of_mem x hd, hdp⟩
      · rintro ⟨c, hc, hcp⟩
        rcases List.mem_cons.mp hc with rfl | hc2
        · exact ⟨c, List.mem_cons_self c _, hcp⟩
        · obtain ⟨d, hd, hdp⟩ := (ih rp).mpr ⟨c, hc2, hcp⟩
          exact ⟨d, List.mem_cons_of_mem x hd, hdp⟩

theorem hasRowAt_upsert_self (root : FPath) (fid : Nat) (p : FPath)
    (fn fmt : String) (sz pc mt now : Nat) (tg : Bool) (db : DB) :
    HasRowAt (upsert_comic root fid p fn fmt sz pc mt now tg db).1
      (to_relative p root) := by
  unfold upsert_comic HasRowAt
  dsimp only
  cases hf : db.comics.find? fun c => c.path == to_relative p root with
  | some c0 =>
    dsimp only
    refine (hasRow_updateFirst _ _ ?_ db.comics _).mpr ?_
    · intro x
      rfl
    · exact ⟨c0, List.mem_of_find?_eq_some hf,
        eq_of_beq (@List.find?_some _ (fun c : ComicRow => c.path == to_relative p root)
          c0 db.comics hf)⟩
  | none =>
    dsimp only
    exact ⟨_, List.mem_append.mpr (Or.inr (List.mem_cons_self _ _)), rfl⟩

theorem hasRowAt_upsert_frame (root : FPath) (fid : Nat) (p : FPath)
    (fn fmt : String) (sz pc mt now : Nat) (tg : Bool) (db : DB) (rp : FPath)
    (hne : rp ≠ to_relative p root) :
    (HasRowAt (upsert_comic root fid p fn fmt sz pc mt now tg db).1 rp ↔
      HasRowAt db rp) := by
  unfold upsert_comic HasRowAt
  dsimp only
  cases hf : db.comics.find? fun c => c.path == to_relative p root with
  | some c0 =>
    dsimp only
    refine hasRow_updateFirst _ _ ?_ db.comics rp
    intro x
    rfl
  | none =>
    dsimp only
    constructor
    · rintro ⟨c, hc, hcp⟩
      rcases List.mem_append.mp hc with h1 | h2
      · exact ⟨c, h1, hcp⟩
      · have hpath : c.path = to_relative p root := by
          have h3 := List.mem_singleton.mp h2
          rw [h3]
        exact absurd (hcp ▸ hpath) hne
    · rintro ⟨c, hc, hcp⟩
      exact ⟨c, List.mem_append.mpr (Or.inl hc), hcp⟩

theorem hasRowAt_set_thumbnail (cid : Nat) (gen : Bool) (db : DB) (rp : FPath) :
    HasRowAt (set_thumbnail_generated cid gen db) rp ↔ HasRowAt db rp := by
  unfold set_thumbnail_generated HasRowAt
  refine hasRow_updateFirst _ _ ?_ db.comics rp
  intro x
  rfl

theorem comics_update_comic_metadata (cid : Nat) (payload : ComicMetadataUpdate)
    (db : DB) : (update_comic_metadata cid payload db).comics = db.comics := by
  unfold update_comic_metadata
  cases db.metas.find? fun m => m.comic_id == cid <;> rfl

theorem hasRowAt_genthumb (rav : Bool) (u : Nat) (pe : Bool) (suf : String)
    (f : ArchiveFile) (w : World) (rp : FPath) :
    HasRowAt ((generate_thumbnail_for_comic rav u pe suf f w).1).db rp ↔
      HasRowAt w.db rp := by
  unfold generate_thumbnail_for_comic
  split
  · exact Iff.rfl
  · split
    · exact Iff.rfl
    · split
      · exact Iff.rfl
      · split
        · exact Iff.rfl
        · split
          · dsimp only
            split
            · exact hasRowAt_set_thumbnail _ _ _ _
            · exact Iff.rfl
          · exact Iff.rfl

theorem hasRowAt_delete_self (root q : FPath) (db : DB) :
    ¬ HasRowAt (delete_comic_by_path root q db).1 (to_relative q root) := by
  rintro ⟨c, hc, hcp⟩
  unfold delete_comic_by_path at hc
  dsimp only at hc
  have := (List.mem_filter.mp hc).2
  rw [hcp] at this
  simp at this

theorem hasRowAt_delete_frame (root q : FPath) (db : DB) (rp : FPath)
    (hne : rp ≠ to_relative q root) :
    HasRowAt (delete_comic_by_path root q db).1 rp ↔ HasRowAt db rp := by
  unfold delete_comic_by_path HasRowAt
  dsimp only
  constructor
  · rintro ⟨c, hc, hcp⟩
    exact ⟨c, (List.mem_filter.mp hc).1, hcp⟩
  · rintro ⟨c, hc, hcp⟩
    refine ⟨c, List.mem_filter.mpr ⟨hc, ?_⟩, hcp⟩
    rw [hcp]
    simpa using hne

theorem hasRowAt_delete_sub (root q : FPath) (db : DB) (rp : FPath) :
    HasRowAt (delete_comic_by_path root q db).1 rp → HasRowAt db rp := by
  rintro ⟨c, hc, hcp⟩
  unfold delete_comic_by_path at hc
  dsimp only at hc
  exact ⟨c, (List.mem_filter.mp hc).1, hcp⟩

theorem not_hasRowAt_of_get_none {root p : FPath} {db : DB}
    (h : get_comic_by_path root p db = none) :
    ¬ HasRowAt db (to_relative p root) := by
  rintro ⟨c, hc, hcp⟩
  have h2 := List.find?_eq_none.mp h c hc
  exact h2 (beq_iff_eq.mpr hcp)


theorem to_relative_to_absolute (rp root : FPath) :
    to_relative (to_absolute rp root) root = rp := by
  unfold to_absolute
  rw [to_relative_of_under (isPre_append root rp)]
  simp

theorem hasRowAt_processValid_self (cfg : Config) (now : Nat) (p : FPath)
    (fid : Nat) (info : FileInfo) (n : Nat) (w : World) :
    HasRowAt (processValidComic cfg now p fid info n w).1.db
      (to_relative p cfg.library_root) := by
  unfold processValidComic
  dsimp only
  split
  · unfold HasRowAt
    rw [comics_update_comic_metadata]
    exact (hasRowAt_genthumb _ _ _ _ _ _ _).mpr
      (hasRowAt_upsert_self _ _ _ _ _ _ _ _ _ _ _)
  · split
    · unfold HasRowAt
      rw [comics_update_comic_metadata]
      exact (hasRowAt_genthumb _ _ _ _ _ _ _).mpr
        (hasRowAt_upsert_self _ _ _ _ _ _ _ _ _ _ _)
    · exact (hasRowAt_genthumb _ _ _ _ _ _ _).mpr
        (hasRowAt_upsert_self _ _ _ _ _ _ _ _ _ _ _)

theorem hasRowAt_processValid_frame (cfg : Config) (now : Nat) (p : FPath)
    (fid : Nat) (info : FileInfo) (n : Nat) (w : World) (rp : FPath)
    (hne : rp ≠ to_relative p cfg.library_root) :
    HasRowAt (processValidComic cfg now p fid info n w).1.db rp ↔
      HasRowAt w.db rp := by
  unfold processValidComic
  dsimp only
  split
  · unfold HasRowAt
    rw [comics_update_comic_metadata]
    exact Iff.trans (hasRowAt_genthumb _ _ _ _ _ _ _)
      (hasRowAt_upsert_frame _ _ _ _ _ _ _ _ _ _ _ _ hne)
  · split
    · unfold HasRowAt
      rw [comics_update_comic_metadata]
      exact Iff.trans (hasRowAt_genthumb _ _ _ _ _ _ _)
        (hasRowAt_upsert_frame _ _ _ _ _ _ _ _ _ _ _ _ hne)
    · exact Iff.trans (hasRowAt_genthumb _ _ _ _ _ _ _)
        (hasRowAt_upsert_frame _ _ _ _ _ _ _ _ _ _ _ _ hne)

theorem should_skip_force (hm : Bool) (c? : Option ComicRow) (mt : Nat) :
    _should_skip_comic hm c? mt true = false := by
  cases c? <;> simp [_should_skip_comic]

theorem process_comic_self (cfg : Config) (fs : FileSys) (now : Nat) (p : FPath)
    (fid : Nat) (w : World) (info : FileInfo)
    (hinfo : lookupFile fs p = some info) (hstat : info.statOk = true) :
    (HasRowAt (process_comic cfg fs now p fid true w).1.db
        (to_relative p cfg.library_root) ↔
      archiveValid cfg p info = true) := by
  have hsk := should_skip_force
    (hasMetaOf w.db (get_comic_by_path cfg.library_root p w.db))
    (get_comic_by_path cfg.library_root p w.db) info.mtime
  cases hv : validate_and_count_pages cfg.rarAvailable true (strLower (pathSuffix p))
      info.archive with
  | error e =>
    rw [pc_corrupt hinfo hstat hsk hv]
    refine iff_of_false ?_ ?_
    · split
      · exact hasRowAt_delete_self _ _ _
      · rename_i hex
        exact not_hasRowAt_of_get_none (Option.not_isSome_iff_eq_none.mp hex)
    · simp [archiveValid, hv, Except.isOk, Except.toBool]
  | ok n =>
    rw [pc_valid hinfo hstat hsk hv]
    refine iff_of_true ?_ ?_
    · exact hasRowAt_processValid_self _ _ _ _ _ _ _
    · simp [archiveValid, hv, Except.isOk, Except.toBool]

theorem process_comic_frame (cfg : Config) (fs : FileSys) (now : Nat) (q : FPath)
    (fid : Nat) (force : Bool) (w : World) (rp : FPath)
    (hne : rp ≠ to_relative q cfg.library_root) :
    HasRowAt (process_comic cfg fs now q fid force w).1.db rp ↔
      HasRowAt w.db rp := by
  cases hq : lookupFile fs q with
  | none =>
    rw [pc_statError_none hq]
  | some info =>
    cases hst : info.statOk with
    | false =>
      rw [pc_statError_stat hq hst]
    | true =>
      cases hsk : _should_skip_comic
          (hasMetaOf w.db (get_comic_by_path cfg.library_root q w.db))
          (get_comic_by_path cfg.library_root q w.db) info.mtime force with
      | true =>
        rw [pc_skip hq hst hsk]
      | false =>
        cases hv : validate_and_count_pages cfg.rarAvailable true
            (strLower (pathSuffix q)) info.archive with
        | error e =>
          rw [pc_corrupt hq hst hsk hv]
          split
          · exact hasRowAt_delete_frame _ _ _ _ hne
          · exact Iff.rfl
        | ok n =>
          rw [pc_valid hq hst hsk hv]
          exact hasRowAt_processValid_frame _ _ _ _ _ _ _ _ hne


theorem hasRowAt_congr_comics {d1 d2 : DB} (h : d1.comics = d2.comics) (rp : FPath) :
    HasRowAt d1 rp ↔ HasRowAt d2 rp := by
  unfold HasRowAt
  rw [h]

theorem fileExists_of_mem {fs : FileSys} {x : FPath} {i : FileInfo}
    (h : (x, i) ∈ fs.files) : fileExists fs x = true := by
  unfold fileExists lookupFile
  cases hf : fs.files.find? fun q => q.1 == x with
  | none =>
    have h2 := List.find?_eq_none.mp hf (x, i) h
    exact absurd (beq_iff_eq.mpr rfl) h2
  | some e => rfl

theorem filesFold_processed (cfg : Config) (fs : FileSys) (now fid : Nat)
    (force : Bool) :
    ∀ (files : List (FPath × FileInfo)) (a : ScanAcc),
      (files.foldl (scanFileStep cfg fs now fid force) a).processed =
        a.processed ++ files.map Prod.fst := by
  intro files
  induction files with
  | nil => intro a; simp
  | cons q qs ih =>
    intro a
    rw [List.foldl_cons, ih]
    simp [scanFileStep]

theorem filesFold_frame (cfg : Config) (fs : FileSys) (now fid : Nat)
    (force : Bool) (rp : FPath) :
    ∀ (files : List (FPath × FileInfo)),
      (∀ q ∈ files, rp ≠ to_relative q.1 cfg.library_root) →
      ∀ (a : ScanAcc),
        (HasRowAt (files.foldl (scanFileStep cfg fs now fid force) a).world.db rp ↔
          HasRowAt a.world.db rp) := by
  intro files
  induction files with
  | nil => intro _ a; exact Iff.rfl
  | cons q qs ih =>
    intro h a
    rw [List.foldl_cons]
    refine Iff.trans (ih (fun x hx => h x (List.mem_cons_of_mem q hx)) _) ?_
    exact process_comic_frame cfg fs now q.1 fid force a.world rp
      (h q (List.mem_cons_self q qs))

theorem filesFold_establish (cfg : Config) (fs : FileSys) (now fid : Nat)
    (p : FPath) (info : FileInfo)
    (hinfo : lookupFile fs p = some info) (hstat : info.statOk = true)
    (F1 F2 : List (FPath × FileInfo))
    (hF2 : ∀ q ∈ F2, to_relative p cfg.library_root ≠ to_relative q.1 cfg.library_root)
    (a : ScanAcc) :
    (HasRowAt ((F1 ++ (p, info) :: F2).foldl
        (scanFileStep cfg fs now fid true) a).world.db
      (to_relative p cfg.library_root) ↔
      archiveValid cfg p info = true) := by
  rw [List.foldl_append, List.foldl_cons]
  refine Iff.trans (filesFold_frame cfg fs now fid true _ F2 hF2 _) ?_
  exact process_comic_self cfg fs now p fid _ info hinfo hstat

theorem processDir_processed (cfg : Config) (fs : FileSys) (force : Bool)
    (now : Nat) (acc : ScanAcc) (d : FPath) :
    (processDir cfg fs force now acc d).processed =
      acc.processed ++ (filesOfDir cfg fs d).map Prod.fst := by
  unfold processDir
  rw [filesFold_processed]

theorem processDir_frame (cfg : Config) (fs : FileSys) (force : Bool)
    (now : Nat) (rp : FPath) (d : FPath)
    (h : ∀ q ∈ filesOfDir cfg fs d, rp ≠ to_relative q.1 cfg.library_root)
    (acc : ScanAcc) :
    HasRowAt (processDir cfg fs force now acc d).world.db rp ↔
      HasRowAt acc.world.db rp := by
  unfold processDir
  refine Iff.trans (filesFold_frame cfg fs _ _ force rp _ h _) ?_
  exact hasRowAt_congr_comics
    (get_or_create_folder_frame cfg.library_root d acc.world.db).1 rp

theorem dirsFold_frame (cfg : Config) (fs : FileSys) (force : Bool) (now : Nat)
    (rp : FPath) :
    ∀ (dirs : List FPath),
      (∀ d ∈ dirs, ∀ q ∈ filesOfDir cfg fs d, rp ≠ to_relative q.1 cfg.library_root) →
      ∀ (acc : ScanAcc),
        (HasRowAt (dirs.foldl (processDir cfg fs force now) acc).world.db rp ↔
          HasRowAt acc.world.db rp) := by
  intro dirs
  induction dirs with
  | nil => intro _ acc; exact Iff.rfl
  | cons d ds ih =>
    intro h acc
    rw [List.foldl_cons]
    refine Iff.trans (ih (fun x hx => h x (List.mem_cons_of_mem d hx)) _) ?_
    exact processDir_frame cfg fs force now rp d (h d (List.mem_cons_self d ds)) acc

theorem dirsFold_processed_ext (cfg : Config) (fs : FileSys) (force : Bool)
    (now : Nat) :
    ∀ (dirs : List FPath) (acc : ScanAcc),
      ∃ ext, (dirs.foldl (processDir cfg fs force now) acc).processed =
        acc.processed ++ ext := by
  intro dirs
  induction dirs with
  | nil => intro acc; exact ⟨[], by simp⟩
  | cons d ds ih =>
    intro acc
    rw [List.foldl_cons]
    obtain ⟨ext, hext⟩ := ih (processDir cfg fs force now acc d)
    rw [hext, processDir_processed]
    exact ⟨(filesOfDir cfg fs d).map Prod.fst ++ ext, by simp⟩

theorem dirsFold_processed_exists (cfg : Config) (fs : FileSys) (force : Bool)
    (now : Nat) :
    ∀ (dirs : List FPath) (acc : ScanAcc) (x : FPath),
      x ∈ (dirs.foldl (processDir cfg fs force now) acc).processed →
      x ∈ acc.processed ∨ ∃ d ∈ dirs, ∃ i, (x, i) ∈ fs.files := by
  intro dirs
  induction dirs with
  | nil => intro acc x h; exact Or.inl h
  | cons d ds ih =>
    intro acc x h
    rw [List.foldl_cons] at h
    rcases ih _ x h with h1 | h1
    · rw [processDir_processed] at h1
      rcases List.mem_append.mp h1 with h2 | h2
      · exact Or.inl h2
      · obtain ⟨q, hq, hqx⟩ := List.mem_map.mp h2
        have hq2 := List.mem_of_mem_filter hq
        refine Or.inr ⟨d, List.mem_cons_self d ds, q.2, ?_⟩
        rw [← hqx]
        exact hq2
    · obtain ⟨d2, hd2, hi⟩ := h1
      exact Or.inr ⟨d2, List.mem_cons_of_mem d hd2, hi⟩


theorem drop_append_le : ∀ (n : Nat) (a b : FPath), n ≤ a.length →
    (a ++ b).drop n = a.drop n ++ b := by
  intro n
  induction n with
  | zero => intro a b _; rfl
  | succ m ih =>
    intro a b h
    cases a with
    | nil => cases h
    | cons x a2 =>
      rw [List.cons_append, List.drop_succ_cons, List.drop_succ_cons]
      exact ih a2 b (Nat.le_of_succ_le_succ h)

theorem dropLast_append_ne : ∀ (a : FPath) {t : FPath}, t ≠ [] →
    (a ++ t).dropLast = a ++ t.dropLast := by
  intro a
  induction a with
  | nil => intro t _; rfl
  | cons x a2 ih =>
    intro t ht
    rw [List.cons_append, List.dropLast_cons_of_ne_nil
      (fun h => ht (List.append_eq_nil.mp h).2), ih ht, List.cons_append]

theorem getLastD_ne_nil : ∀ {t : FPath} (d1 d2 : String), t ≠ [] →
    t.getLastD d1 = t.getLastD d2 := by
  intro t d1 d2 ht
  cases t with
  | nil => exact absurd rfl ht
  | cons y t2 => rw [List.getLastD_cons, List.getLastD_cons]

theorem getLastD_append : ∀ (a : FPath) {t : FPath}, t ≠ [] → ∀ (d : String),
    (a ++ t).getLastD d = t.getLastD d := by
  intro a
  induction a with
  | nil => intro t _ d; rfl
  | cons x a2 ih =>
    intro t ht d
    rw [List.cons_append, List.getLastD_cons, ih ht x]
    exact getLastD_ne_nil x d ht

theorem getLastD_mem : ∀ (t : FPath), t ≠ [] → ∀ (d : String), t.getLastD d ∈ t := by
  intro t
  induction t with
  | nil => intro h; exact absurd rfl h
  | cons y t2 ih =>
    intro _ d
    rw [List.getLastD_cons]
    cases ht2 : t2.isEmpty with
    | true =>
      rw [List.isEmpty_eq_true] at ht2
      subst ht2
      exact List.mem_cons_self _ _
    | false =>
      have ht2b : t2 ≠ [] := by
        intro h
        rw [h] at ht2
        cases ht2
      exact List.mem_cons_of_mem y (ih ht2b y)

theorem isPre_dropLast (l : FPath) : isPre l.dropLast l = true := by
  cases hl : l.isEmpty with
  | true =>
    rw [List.isEmpty_eq_true] at hl
    subst hl
    rfl
  | false =>
    have hl2 : l ≠ [] := by
      intro h
      rw [h] at hl
      cases hl
    rw [isPre_iff]
    exact ⟨[l.getLast hl2], (List.dropLast_append_getLast hl2).symm⟩

theorem rel_ne_of_ne {root p q : FPath} (hp : isPre root p = true)
    (hq : isPre root q = true) (hne : p ≠ q) :
    to_relative p root ≠ to_relative q root :=
  fun h => hne (to_relative_inj hp hq h)

theorem walkDir_under_base {cfg : Config} {fs : FileSys} {base d : FPath}
    (hd : d ∈ walkDirs cfg fs base) : isPre base d = true := by
  unfold walkDirs at hd
  rcases List.mem_cons.mp hd with rfl | h2
  · exact isPre_refl d
  · have hc := (List.mem_filter.mp h2).2
    rw [Bool.and_eq_true] at hc
    exact isStrictUnder_isPre hc.1

theorem filesOfDir_under {cfg : Config} {fs : FileSys} {d : FPath}
    {q : FPath × FileInfo} (hq : q ∈ filesOfDir cfg fs d) :
    isPre d q.1 = true ∧ q ∈ fs.files := by
  obtain ⟨hmem, hcond⟩ := List.mem_filter.mp hq
  rw [Bool.and_eq_true, Bool.and_eq_true] at hcond
  have hdl : q.1.dropLast = d := eq_of_beq hcond.1.1
  exact ⟨hdl ▸ isPre_dropLast q.1, hmem⟩

theorem comicUnderBase_of_under {cfg : Config} {base p : FPath}
    (hrb : isPre cfg.library_root base = true) (hp : isStrictUnder base p = true) :
    comicUnderBase cfg base (to_relative p cfg.library_root) = true := by
  unfold comicUnderBase
  split
  · rfl
  · obtain ⟨t, ht, rfl⟩ := isStrictUnder_iff.mp hp
    rw [to_relative_of_under hrb,
      to_relative_of_under (isPre_trans hrb (isPre_append base t)),
      drop_append_le _ _ _ (isPre_length hrb)]
    exact isStrictUnder_append ht

theorem deletionStep_sub (cfg : Config) (fs : FileSys) (processed : List FPath)
    (acc : World × Stats) (c : ComicRow) (rp : FPath)
    (h : HasRowAt (deletionStep cfg fs processed acc c).1.db rp) :
    HasRowAt acc.1.db rp := by
  unfold deletionStep at h
  dsimp only at h
  rcases hsp : (!processed.contains (to_absolute c.path cfg.library_root) &&
      !fileExists fs (to_absolute c.path cfg.library_root)) with _ | _
  · rw [if_neg (by rw [hsp]; exact Bool.false_ne_true)] at h
    exact h
  · rw [if_pos hsp] at h
    exact hasRowAt_delete_sub _ _ _ _ h

theorem deletionStep_preserves (cfg : Config) (fs : FileSys)
    (processed : List FPath) (p : FPath) (acc : World × Stats) (c : ComicRow)
    (hroot : isPre cfg.library_root p = true)
    (hproc : processed.contains p = true)
    (hhas : HasRowAt acc.1.db (to_relative p cfg.library_root)) :
    HasRowAt (deletionStep cfg fs processed acc c).1.db
      (to_relative p cfg.library_root) := by
  unfold deletionStep
  dsimp only
  split
  · rename_i hguard
    by_cases hcp : c.path = to_relative p cfg.library_root
    · exfalso
      rw [hcp, to_absolute_to_relative hroot, hproc] at hguard
      simp at hguard
    · refine (hasRowAt_delete_frame _ _ _ _ ?_).mpr hhas
      rw [to_relative_to_absolute]
      exact fun h => hcp h.symm
  · exact hhas

theorem deletionStep_kills_at (cfg : Config) (fs : FileSys)
    (processed : List FPath) (p : FPath) (acc : World × Stats) (c : ComicRow)
    (hroot : isPre cfg.library_root p = true)
    (hproc : processed.contains p = false)
    (hnf : fileExists fs p = false)
    (hcp : c.path = to_relative p cfg.library_root) :
    ¬ HasRowAt (deletionStep cfg fs processed acc c).1.db
      (to_relative p cfg.library_root) := by
  unfold deletionStep
  dsimp only
  rw [hcp, to_absolute_to_relative hroot, hproc, hnf]
  exact hasRowAt_delete_self _ _ _

theorem deletionFold_preserves (cfg : Config) (fs : FileSys)
    (processed : List FPath) (p : FPath)
    (hroot : isPre cfg.library_root p = true)
    (hproc : processed.contains p = true) :
    ∀ (snapshot : List ComicRow) (acc : World × Stats),
      HasRowAt acc.1.db (to_relative p cfg.library_root) →
      HasRowAt ((snapshot.foldl (deletionStep cfg fs processed) acc)).1.db
        (to_relative p cfg.library_root) := by
  intro snapshot
  induction snapshot with
  | nil => intro acc h; exact h
  | cons c rest ih =>
    intro acc h
    rw [List.foldl_cons]
    exact ih _ (deletionStep_preserves cfg fs processed p acc c hroot hproc h)

theorem deletionFold_never_adds (cfg : Config) (fs : FileSys)
    (processed : List FPath) (rp : FPath) :
    ∀ (snapshot : List ComicRow) (acc : World × Stats),
      ¬ HasRowAt acc.1.db rp →
      ¬ HasRowAt ((snapshot.foldl (deletionStep cfg fs processed) acc)).1.db rp := by
  intro snapshot
  induction snapshot with
  | nil => intro acc h; exact h
  | cons c rest ih =>
    intro acc h
    rw [List.foldl_cons]
    exact ih _ (fun h2 => h (deletionStep_sub cfg fs processed acc c rp h2))

theorem deletionFold_kills (cfg : Config) (fs : FileSys)
    (processed : List FPath) (p : FPath)
    (hroot : isPre cfg.library_root p = true)
    (hproc : processed.contains p = false)
    (hnf : fileExists fs p = false) :
    ∀ (snapshot : List ComicRow) (acc : World × Stats),
      (HasRowAt acc.1.db (to_relative p cfg.library_root) →
        ∃ c ∈ snapshot, c.path = to_relative p cfg.library_root) →
      ¬ HasRowAt ((snapshot.foldl (deletionStep cfg fs processed) acc)).1.db
        (to_relative p cfg.library_root) := by
  intro snapshot
  induction snapshot with
  | nil =>
    intro acc h hhas
    obtain ⟨c, hc, _⟩ := h hhas
    cases hc
  | cons c rest ih =>
    intro acc h
    rw [List.foldl_cons]
    refine ih _ ?_
    intro hhas2
    by_cases hcp : c.path = to_relative p cfg.library_root
    · exact absurd hhas2
        (deletionStep_kills_at cfg fs processed p acc c hroot hproc hnf hcp)
    · have hhas : HasRowAt acc.1.db (to_relative p cfg.library_root) :=
        deletionStep_sub cfg fs processed acc c _ hhas2
      obtain ⟨c2, hc2, hc2p⟩ := h hhas
      rcases List.mem_cons.mp hc2 with rfl | hc3
      · exact absurd hc2p hcp
      · exact ⟨c2, hc3, hc2p⟩


theorem fpath_contains_iff (l : List FPath) (a : FPath) :
    l.contains a = true ↔ a ∈ l := List.elem_iff

theorem split_of_mem_nodup {α : Type} {l : List α} {a : α}
    (hnd : l.Nodup) (h : a ∈ l) :
    ∃ s t, l = s ++ a :: t ∧ a ∉ t := by
  obtain ⟨s, t, rfl⟩ := List.append_of_mem h
  exact ⟨s, t, rfl, by
    have h2 := (hnd.of_append_right : (a :: t).Nodup)
    exact (List.nodup_cons.mp h2).1⟩

theorem dropLast_mem_walkDirs {cfg : Config} {fs : FileSys} {base p : FPath}
    (hp : isStrictUnder base p = true)
    (hnig : noIgnoredBelow cfg base p = true)
    (hdir : p.dropLast = base ∨ p.dropLast ∈ fs.dirs) :
    p.dropLast ∈ walkDirs cfg fs base := by
  unfold walkDirs
  by_cases hdb : p.dropLast = base
  · rw [hdb]
    exact List.mem_cons_self _ _
  · rcases hdir with h | h
    · exact absurd h hdb
    · obtain ⟨t, ht, hpe⟩ := isStrictUnder_iff.mp hp
      have hdl : p.dropLast = base ++ t.dropLast := by
        rw [hpe]
        exact List.dropLast_append_of_ne_nil base ht
      have htne : t.dropLast ≠ [] := by
        intro h0
        apply hdb
        rw [hdl, h0, List.append_nil]
      refine List.mem_cons_of_mem _ (List.mem_filter.mpr ⟨h, ?_⟩)
      rw [Bool.and_eq_true]
      constructor
      · rw [hdl]
        exact isStrictUnder_append htne
      · unfold noIgnoredBelow at hnig ⊢
        rw [hdl, List.drop_left]
        rw [hpe, List.drop_left] at hnig
        rw [List.all_eq_true] at hnig ⊢
        intro x hx
        exact hnig x ((List.dropLast_sublist t).subset hx)

theorem mem_filesOfDir_self {cfg : Config} {fs : FileSys} {base p : FPath}
    {info : FileInfo}
    (hinfo : lookupFile fs p = some info)
    (hp : isStrictUnder base p = true)
    (hnig : noIgnoredBelow cfg base p = true)
    (hcomic : is_comic_file p = true) :
    (p, info) ∈ filesOfDir cfg fs p.dropLast := by
  refine List.mem_filter.mpr ⟨?_, ?_⟩
  · unfold lookupFile at hinfo
    obtain ⟨e, hfind, h2⟩ := Option.map_eq_some'.mp hinfo
    have he1 : e.1 = p :=
      eq_of_beq (@List.find?_some _ (fun q : FPath × FileInfo => q.1 == p)
        e fs.files hfind)
    have he : e = (p, info) := by
      rw [← he1, ← h2]
    rw [← he]
    exact List.mem_of_find?_eq_some hfind
  · rw [Bool.and_eq_true, Bool.and_eq_true]
    obtain ⟨t, ht, hpe⟩ := isStrictUnder_iff.mp hp
    refine ⟨⟨beq_iff_eq.mpr rfl, ?_⟩, hcomic⟩
    have hlast : (p : FPath).getLastD "" ∈ t := by
      rw [hpe, getLastD_append base ht ""]
      exact getLastD_mem t ht ""
    unfold noIgnoredBelow at hnig
    rw [hpe, List.drop_left, List.all_eq_true] at hnig
    exact hnig _ hlast

theorem filesOfDir_keys_nodup {cfg : Config} {fs : FileSys} {d : FPath}
    (hnd : (fs.files.map Prod.fst).Nodup) :
    ((filesOfDir cfg fs d).map Prod.fst).Nodup :=
  ((List.filter_sublist fs.files).map Prod.fst).nodup hnd

theorem split_at_key {l : List (FPath × FileInfo)} {p : FPath} {info : FileInfo}
    (hnd : (l.map Prod.fst).Nodup) (hmem : (p, info) ∈ l) :
    ∃ F1 F2, l = F1 ++ (p, info) :: F2 ∧ ∀ q ∈ F2, q.1 ≠ p := by
  obtain ⟨F1, F2, rfl⟩ := List.append_of_mem hmem
  refine ⟨F1, F2, rfl, ?_⟩
  intro q hq hqp
  rw [List.map_append, List.map_cons] at hnd
  have h2 : ((p : FPath) :: F2.map Prod.fst).Nodup := hnd.of_append_right
  have h3 : (p : FPath) ∈ F2.map Prod.fst := by
    rw [← hqp]
    exact List.mem_map_of_mem Prod.fst hq
  exact (List.nodup_cons.mp h2).1 h3

theorem walk_split {cfg : Config} {fs : FileSys} {base p : FPath}
    (hdnd : fs.dirs.Nodup)
    (hd : p.dropLast ∈ walkDirs cfg fs base) :
    ∃ D1 D2, walkDirs cfg fs base = D1 ++ p.dropLast :: D2 ∧ p.dropLast ∉ D2 := by
  have hwnd : (walkDirs cfg fs base).Nodup := by
    unfold walkDirs
    rw [List.nodup_cons]
    constructor
    · intro hb
      have hc := (List.mem_filter.mp hb).2
      rw [Bool.and_eq_true] at hc
      have := hc.1
      rw [isStrictUnder_self] at this
      cases this
    · exact hdnd.filter _
  exact split_of_mem_nodup hwnd hd

theorem filesOfDir_ne_of_dir_ne {cfg : Config} {fs : FileSys} {d2 p : FPath}
    (hne : d2 ≠ p.dropLast) {q : FPath × FileInfo}
    (hq : q ∈ filesOfDir cfg fs d2) : q.1 ≠ p := by
  intro h
  obtain ⟨hmem, hcond⟩ := List.mem_filter.mp hq
  rw [Bool.and_eq_true, Bool.and_eq_true] at hcond
  have hdl : q.1.dropLast = d2 := eq_of_beq hcond.1.1
  rw [h] at hdl
  exact hne hdl.symm

theorem processed_after (cfg : Config) (fs : FileSys) (force : Bool) (now : Nat)
    (D1 D2 : List FPath) (d : FPath) (acc0 : ScanAcc) (p : FPath)
    (hp : p ∈ (filesOfDir cfg fs d).map Prod.fst) :
    p ∈ ((D1 ++ d :: D2).foldl (processDir cfg fs force now) acc0).processed := by
  rw [List.foldl_append, List.foldl_cons]
  obtain ⟨ext, hext⟩ := dirsFold_processed_ext cfg fs force now D2 _
  rw [hext, processDir_processed]
  exact List.mem_append.mpr (Or.inl (List.mem_append.mpr (Or.inr hp)))

theorem walk_not_processed (cfg : Config) (fs : FileSys) (base : FPath)
    (force : Bool) (now : Nat) (w : World) (p : FPath)
    (hnf : fileExists fs p = false) :
    p ∉ ((walkDirs cfg fs base).foldl (processDir cfg fs force now)
      { world := w, stats := {}, processed := [] }).processed := by
  intro hmem
  rcases dirsFold_processed_exists cfg fs force now _ _ p hmem with h1 | ⟨d, _, i, hi⟩
  · cases h1
  · have h2 := fileExists_of_mem hi
    rw [hnf] at h2
    cases h2


theorem walk_inv (cfg : Config) (fs : FileSys) (base : FPath) (now : Nat)
    (w : World) (p : FPath) (info : FileInfo)
    (hnd : (fs.files.map Prod.fst).Nodup)
    (hdnd : fs.dirs.Nodup)
    (hrb : isPre cfg.library_root base = true)
    (hp : isStrictUnder base p = true)
    (hcomic : is_comic_file p = true)
    (hnig : noIgnoredBelow cfg base p = true)
    (hdir : p.dropLast = base ∨ p.dropLast ∈ fs.dirs)
    (hinfo : lookupFile fs p = some info)
    (hstat : info.statOk = true) :
    (HasRowAt ((walkDirs cfg fs base).foldl (processDir cfg fs true now)
        { world := w, stats := {}, processed := [] }).world.db
      (to_relative p cfg.library_root) ↔ archiveValid cfg p info = true) ∧
    p ∈ ((walkDirs cfg fs base).foldl (processDir cfg fs true now)
      { world := w, stats := {}, processed := [] }).processed := by
  have hrootp : isPre cfg.library_root p = true :=
    isPre_trans hrb (isStrictUnder_isPre hp)
  have hd := dropLast_mem_walkDirs hp hnig hdir
  obtain ⟨D1, D2, hsplit, hD2⟩ := walk_split hdnd hd
  have hfmem := mem_filesOfDir_self hinfo hp hnig hcomic
  obtain ⟨F1, F2, hfsplit, hF2⟩ := split_at_key (filesOfDir_keys_nodup hnd) hfmem
  have hunder : ∀ d2 ∈ walkDirs cfg fs base, ∀ q ∈ filesOfDir cfg fs d2,
      isPre cfg.library_root q.1 = true := by
    intro d2 hd2 q hq
    exact isPre_trans (isPre_trans hrb (walkDir_under_base hd2)) (filesOfDir_under hq).1
  constructor
  · rw [hsplit, List.foldl_append, List.foldl_cons]
    refine Iff.trans (dirsFold_frame cfg fs true now _ D2 ?_ _) ?_
    · intro d2 hd2 q hq
      have hq1 : q.1 ≠ p := filesOfDir_ne_of_dir_ne (fun h => hD2 (h ▸ hd2)) hq
      have hd2w : d2 ∈ walkDirs cfg fs base := by
        rw [hsplit]
        exact List.mem_append.mpr (Or.inr (List.mem_cons_of_mem _ hd2))
      exact rel_ne_of_ne hrootp (hunder d2 hd2w q hq) (fun h => hq1 h.symm)
    · unfold processDir
      rw [hfsplit]
      refine filesFold_establish cfg fs now _ p info hinfo hstat F1 F2 ?_ _
      intro q hq
      have hqd : q ∈ filesOfDir cfg fs p.dropLast := by
        rw [hfsplit]
        exact List.mem_append.mpr (Or.inr (List.mem_cons_of_mem _ hq))
      exact rel_ne_of_ne hrootp (hunder _ hd q hqd) (fun h => (hF2 q hq) h.symm)
  · rw [hsplit]
    exact processed_after cfg fs true now D1 D2 p.dropLast _ p
      (List.mem_map.mpr ⟨(p, info), hfmem, rfl⟩)

/-- C1 counterexample: a comic file present on disk whose bytes open as
neither zip nor rar is absent from the index when the scan over its subtree
completes, so an index entry does not exist for every file that exists on
disk. -/
theorem c1_counterexample :
    fileExists fsC1 ["lib", "bad.cbz"] = true ∧
    (scan_library cfgC1 fsC1 ["lib"] false 0 { db := {}, thumbDisk := [] }).map
      (fun r => r.1.db.comics) = some [] :=
  ⟨by decide, by decide⟩

/-- C1 (amended): for a forced scan over a subtree, with unique file and
directory listings, the base on disk under the library root, and a comic-named
path strictly under the base whose components are not ignored, whose directory
is walked, and whose stat succeeds when present, the completed scan leaves an
index row at the relative path exactly when the file exists on disk and its
archive validates; a file that is missing or fails validation has no row. -/
theorem c1_index_matches_disk (cfg : Config) (fs : FileSys) (base p : FPath)
    (now : Nat) (w : World)
    (hnd : (fs.files.map Prod.fst).Nodup)
    (hdnd : fs.dirs.Nodup)
    (hbase : fs.dirs.contains base = true)
    (hrb : isPre cfg.library_root base = true)
    (hp : isStrictUnder base p = true)
    (hcomic : is_comic_file p = true)
    (hnig : noIgnoredBelow cfg base p = true)
    (hdir : p.dropLast = base ∨ p.dropLast ∈ fs.dirs)
    (hstat : ∀ info, lookupFile fs p = some info → info.statOk = true) :
    ∃ r, scan_library cfg fs base true now w = some r ∧
      ((∃ c ∈ r.1.db.comics, c.path = to_relative p cfg.library_root) ↔
        (∃ info, lookupFile fs p = some info ∧ archiveValid cfg p info = true)) := by
  have hrootp : isPre cfg.library_root p = true :=
    isPre_trans hrb (isStrictUnder_isPre hp)
  unfold scan_library
  rw [if_neg (by rw [hbase]; decide)]
  dsimp only
  refine ⟨_, rfl, ?_⟩
  set acc := (walkDirs cfg fs base).foldl (processDir cfg fs true now)
    { world := w, stats := {}, processed := [] } with hacc
  set snapshot := acc.world.db.comics.filter
    (fun c => comicUnderBase cfg base c.path) with hsnap
  set rfold := snapshot.foldl (deletionStep cfg fs acc.processed)
    (acc.world, acc.stats) with hrfold
  have hfoldeq : ((rfold.1.db.folders.filter
      fun f => folderUnderBase cfg base f.path).foldl
        (folderStep cfg fs) rfold.1).db.comics = rfold.1.db.comics :=
    (folderFold_frame cfg fs _ _).1
  cases hlk : lookupFile fs p with
  | none =>
    have hnf : fileExists fs p = false := by
      unfold fileExists
      rw [hlk]
      rfl
    refine iff_of_false ?_ ?_
    · have hnp := walk_not_processed cfg fs base true now w p hnf
      have hproc : acc.processed.contains p = false := by
        cases hq : acc.processed.contains p with
        | false => rfl
        | true => exact absurd ((fpath_contains_iff _ p).mp hq) hnp
      have hkill := deletionFold_kills cfg fs acc.processed p hrootp hproc hnf
        snapshot (acc.world, acc.stats) ?_
      · exact fun hh => hkill ((hasRowAt_congr_comics hfoldeq _).mp hh)
      · rintro ⟨c, hc, hcp⟩
        refine ⟨c, List.mem_filter.mpr ⟨hc, ?_⟩, hcp⟩
        rw [hcp]
        exact comicUnderBase_of_under hrb hp
    · rintro ⟨info, hinfo, _⟩
      cases hinfo
  | some info =>
    have hstk := hstat info hlk
    obtain ⟨hwiff, hwproc⟩ :=
      walk_inv cfg fs base now w p info hnd hdnd hrb hp hcomic hnig hdir hlk hstk
    have hproc : acc.processed.contains p = true := (fpath_contains_iff _ p).mpr hwproc
    cases hav : archiveValid cfg p info with
    | true =>
      refine iff_of_true ?_ ⟨info, rfl, hav⟩
      have h1 : HasRowAt acc.world.db (to_relative p cfg.library_root) :=
        hwiff.mpr hav
      have h2 := deletionFold_preserves cfg fs acc.processed p hrootp hproc
        snapshot (acc.world, acc.stats) h1
      exact (hasRowAt_congr_comics hfoldeq _).mpr h2
    | false =>
      refine iff_of_false ?_ ?_
      · have h1 : ¬ HasRowAt acc.world.db (to_relative p cfg.library_root) :=
          fun hh => absurd (hwiff.mp hh) (by rw [hav]; exact Bool.false_ne_true)
        have h2 := deletionFold_never_adds cfg fs acc.processed _
          snapshot (acc.world, acc.stats) h1
        exact fun hh => h2 ((hasRowAt_congr_comics hfoldeq _).mp hh)
      · rintro ⟨info2, hinfo2, hav2⟩
        injection hinfo2 with h3
        rw [← h3, hav] at hav2
        cases hav2


/-- C1 witness: the amended theorem applied to a concrete one-file library
whose archive is a readable zip. -/
theorem c1_index_matches_disk_witness :
    isStrictUnder ["lib"] ["lib", "ok.cbz"] = true ∧
    (∃ r, scan_library cfgC1w fsC1w ["lib"] true 0 { db := {}, thumbDisk := [] } =
        some r ∧
      ((∃ c ∈ r.1.db.comics,
          c.path = to_relative ["lib", "ok.cbz"] cfgC1w.library_root) ↔
        (∃ info, lookupFile fsC1w ["lib", "ok.cbz"] = some info ∧
          archiveValid cfgC1w ["lib", "ok.cbz"] info = true))) := by
  refine ⟨by decide, ?_⟩
  refine c1_index_matches_disk cfgC1w fsC1w ["lib"] ["lib", "ok.cbz"] 0
    { db := {}, thumbDisk := [] }
    (by decide) (by decide) (by decide) (by decide) (by decide) (by decide)
    (by decide) (Or.inl (by decide)) ?_
  intro info h
  injection h with h2
  rw [← h2]
  rfl

end Issued
